import Mathlib

/-!
Verification of the reference model builder and wikitext transformation engine
of CiteHub (src/core/references.ts), via a shallow embedding into Lean.

Strings are modelled as lists of characters (JS strings restricted to the
UTF-16 code units actually exercised here; all concrete inputs are ASCII).
Byte offsets are naturals.  JS objects holding reference records are modelled
as an arena (a list of records addressed by index) plus an insertion-ordered
association list from keys to arena indices, so that the source's pointer
mutation (`ref.canonical = existing`) becomes an index update.

Every definition is translated from the TypeScript source; the specific
regular expressions of the source are embedded as equivalent deterministic
character scanners (each scanner's doc comment names the regex it embeds).
Loops are embedded as fuel-indexed structural recursions, with fuel chosen
at the call site to dominate the loop's trip count, matching the source's
termination behaviour.
-/

set_option maxHeartbeats 1000000
set_option maxRecDepth 4000

namespace CiteHub

/-- JS strings, modelled as lists of characters. -/
abbrev Str := List Char

/-- Whitespace for the JS `\s` character class (ASCII part: space, tab,
newline, carriage return, vertical tab, form feed; concrete inputs here are
ASCII so the Unicode extras never arise). -/
def jsIsSpace (c : Char) : Bool :=
  c = ' ' || c = '\t' || c = '\n' || c = '\r' || c = '\x0b' || c = '\x0c'

/-- JS `\w` word characters. -/
def isWordChar (c : Char) : Bool :=
  ('a' ≤ c && c ≤ 'z') || ('A' ≤ c && c ≤ 'Z') || ('0' ≤ c && c ≤ '9') || c = '_'

/-- JS `\d`. -/
def isAsciiDigit (c : Char) : Bool := '0' ≤ c && c ≤ '9'

/-- ASCII lower-casing, for the `i` regex flag and `toLowerCase()`. -/
def lcChar (c : Char) : Char :=
  if 'A' ≤ c && c ≤ 'Z' then Char.ofNat (c.toNat + 32) else c

/-- Case-insensitive character comparison (ASCII). -/
def eqCI (a b : Char) : Bool := lcChar a = lcChar b

/-- `toLowerCase()` on a string. -/
def lcStr (s : Str) : Str := s.map lcChar

/-- Case-insensitive string equality (ASCII). -/
def strEqCI (a b : Str) : Bool := lcStr a = lcStr b

/-- Does `s` start with `p`, case-insensitively? Returns the rest on success. -/
def stripPrefixCI : Str → Str → Option Str
  | [], s => some s
  | _ :: _, [] => none
  | p :: ps, c :: cs => if eqCI p c then stripPrefixCI ps cs else none

/-- Does `s` start with `p` (case-sensitive)? Returns the rest on success. -/
def stripPrefixCS : Str → Str → Option Str
  | [], s => some s
  | _ :: _, [] => none
  | p :: ps, c :: cs => if p = c then stripPrefixCS ps cs else none

/-- JS `String.prototype.trim` (both ends, `\s`). -/
def jsTrim (s : Str) : Str :=
  (s.dropWhile jsIsSpace).reverse.dropWhile jsIsSpace |>.reverse

/-- First index `≥ i` at which `needle` occurs in `hay`
(JS `hay.indexOf(needle, i)` reporting `none` for `-1`). -/
def indexOfFromAux (hay needle : Str) : Nat → Nat → Option Nat
  | 0, _ => none
  | fuel + 1, i =>
    if i + needle.length ≤ hay.length then
      if needle.isPrefixOf (hay.drop i) then some i
      else indexOfFromAux hay needle fuel (i + 1)
    else none

/-- JS `hay.indexOf(needle, i)` (`none` for `-1`). -/
def indexOfFrom (hay needle : Str) (i : Nat) : Option Nat :=
  indexOfFromAux hay needle (hay.length + 1) i

/-- JS `hay.indexOf(needle)`. -/
def indexOfSub (hay needle : Str) : Option Nat := indexOfFrom hay needle 0

/-- JS `hay.includes(needle)` for strings. -/
def containsSub (hay needle : Str) : Bool := (indexOfSub hay needle).isSome

/-- The decimal digit characters. -/
def digitChar : Nat → Char
  | 0 => '0'
  | 1 => '1'
  | 2 => '2'
  | 3 => '3'
  | 4 => '4'
  | 5 => '5'
  | 6 => '6'
  | 7 => '7'
  | 8 => '8'
  | _ => '9'

def natToStrAux : Nat → Nat → Str
  | 0, _ => []
  | fuel + 1, n =>
    if n < 10 then [digitChar n]
    else natToStrAux fuel (n / 10) ++ [digitChar (n % 10)]

/-- Decimal rendering of a natural (JS template `${n}` for a counter). -/
def natToStr (n : Nat) : Str := natToStrAux (n + 1) n

/-- JS `parseInt` on a non-empty all-digits string. -/
def digitsToNat (s : Str) : Nat :=
  s.foldl (fun acc c => acc * 10 + (c.toNat - '0'.toNat)) 0

/-- JS `String.prototype.slice(a, b)` with `Int` arguments and the JS
clamping rules (negative indices count from the end). -/
def jsSlice (s : Str) (a b : Int) : Str :=
  let len : Int := s.length
  let norm : Int → Nat := fun x =>
    if x < 0 then (max (len + x) 0).toNat else (min x len).toNat
  let a' := norm a
  let b' := norm b
  (s.drop a').take (b' - a')

/-- JS `String.prototype.slice(a)` to the end of the string. -/
def jsSliceFrom (s : Str) (a : Int) : Str := jsSlice s a s.length

/-- Truthiness of a JS `string | null | undefined` value:
`null`/`undefined` and the empty string are falsy. -/
def strTruthy : Option Str → Bool
  | none => false
  | some s => !s.isEmpty

/-- JS `a || b` for strings (empty string is falsy). -/
def jsOrStr (a b : Str) : Str := if a.isEmpty then b else a

/-- Case-insensitive prefix test. -/
def isPrefixOfCI (p s : Str) : Bool := (stripPrefixCI p s).isSome

/-- First index `≥ i` of a case-insensitive occurrence of `needle`. -/
def indexOfCIAux (hay needle : Str) : Nat → Nat → Option Nat
  | 0, _ => none
  | fuel + 1, i =>
    if i + needle.length ≤ hay.length then
      if isPrefixOfCI needle (hay.drop i) then some i
      else indexOfCIAux hay needle fuel (i + 1)
    else none

/-- Case-insensitive `indexOf` (for the `i` regex flag on literal tails). -/
def indexOfCI (hay needle : Str) : Option Nat :=
  indexOfCIAux hay needle (hay.length + 1) 0

/-- `escapeAttr` (src/core/string_utils.ts): replace every double quote
with the entity `&quot;`. -/
def escapeAttr (value : Str) : Str :=
  value.flatMap (fun c => if c = '\x22' then "&quot;".toList else [c])

/-- The value alternatives of the attribute regex in `extractAttr`:
`"([^"]*)"|'([^']*)'|([^\s"'>]+)`, tried in that order at a fixed position. -/
def matchAttrValueAt (s : Str) : Option Str :=
  match s with
  | '\x22' :: rest =>
    let v := rest.takeWhile (fun c => c ≠ '\x22')
    if v.length < rest.length then some v else none
  | '\x27' :: rest =>
    let v := rest.takeWhile (fun c => c ≠ '\x27')
    if v.length < rest.length then some v else none
  | _ =>
    let run := s.takeWhile (fun c =>
      !(jsIsSpace c || c = '\x22' || c = '\x27' || c = '>'))
    if run.isEmpty then none else some run

/-- Position scan for `extractAttr`'s regex
`attrName\s*=\s*(?:"([^"]*)"|'([^']*)'|([^\s"'>]+))` with the `i` flag:
try each start position left to right; on a tail failure the scan moves one
character right, exactly as the regex engine does. -/
def extractAttrAux (attrs name : Str) : Nat → Nat → Option Str
  | 0, _ => none
  | fuel + 1, i =>
    if i ≤ attrs.length then
      let tryHere : Option Str :=
        match stripPrefixCI name (attrs.drop i) with
        | none => none
        | some rest =>
          match rest.dropWhile jsIsSpace with
          | '=' :: rest2 => matchAttrValueAt (rest2.dropWhile jsIsSpace)
          | _ => none
      match tryHere with
      | some v => some v
      | none => extractAttrAux attrs name fuel (i + 1)
    else none

/-- `extractAttr` (src/core/references.ts): find an attribute value inside an
attribute string, supporting double-quoted, single-quoted and unquoted
values. Returns `none` where the source returns `null`. -/
def extractAttr (attrs name : Str) : Option Str :=
  extractAttrAux attrs name (attrs.length + 1) 0

/-- Generic global regex scan (`String.prototype.matchAll` semantics): try the
matcher at each position from left to right; after a match of length `n > 0`
resume at its end, otherwise advance one character. -/
def scanAllAux {α : Type} (matchAt : Str → Option (α × Nat)) (cs : Str) :
    Nat → Nat → List (Nat × Nat × α)
  | 0, _ => []
  | fuel + 1, i =>
    if i < cs.length then
      match matchAt (cs.drop i) with
      | some (a, n) =>
        if n = 0 then scanAllAux matchAt cs fuel (i + 1)
        else (i, i + n, a) :: scanAllAux matchAt cs fuel (i + n)
      | none => scanAllAux matchAt cs fuel (i + 1)
    else []

/-- Global regex scan over a whole string. -/
def scanAll {α : Type} (matchAt : Str → Option (α × Nat)) (cs : Str) :
    List (Nat × Nat × α) :=
  scanAllAux matchAt cs (cs.length + 1) 0

/-- Matcher for `/<ref\b([^>/]*?)>([\s\S]*?)<\/ref>/gi` at a fixed position:
the lazy attribute group runs to the first `>` or `/` (failing on `/`), and
the lazy body runs to the first `</ref>`. Payload: (attrs, content). -/
def matchRefFullAt (s : Str) : Option ((Str × Str) × Nat) :=
  match stripPrefixCI "<ref".toList s with
  | none => none
  | some rest =>
    if (rest.head?.map isWordChar).getD false then none
    else
      let attrs := rest.takeWhile (fun c => c ≠ '>' && c ≠ '/')
      match rest.drop attrs.length with
      | '>' :: rest3 =>
        match indexOfCI rest3 "</ref>".toList with
        | some j => some ((attrs, rest3.take j), 4 + attrs.length + 1 + j + 6)
        | none => none
      | _ => none

/-- Inner scan of `/<ref\b([^>]*?)\/\s*>/gi`: grow the lazy attribute group
until a `/` whose tail matches `\s*>`; a `>` inside the attribute group
aborts. Returns (attribute length, length of the `/\s*>` tail). -/
def refSelfScan : Str → Nat → Option (Nat × Nat)
  | [], _ => none
  | c :: cs, j =>
    if c = '>' then none
    else if c = '/' then
      let ws := cs.takeWhile jsIsSpace
      match cs.drop ws.length with
      | '>' :: _ => some (j, 1 + ws.length + 1)
      | _ => refSelfScan cs (j + 1)
    else refSelfScan cs (j + 1)

/-- Matcher for `/<ref\b([^>]*?)\/\s*>/gi` at a fixed position.
Payload: the attribute string. -/
def matchRefSelfAt (s : Str) : Option (Str × Nat) :=
  match stripPrefixCI "<ref".toList s with
  | none => none
  | some rest =>
    if (rest.head?.map isWordChar).getD false then none
    else
      match refSelfScan rest 0 with
      | some (attrsLen, tailLen) => some (rest.take attrsLen, 4 + attrsLen + tailLen)
      | none => none

/-- Matcher for `/\{\{\s*r\s*(\|[\s\S]*?)\}\}/gi` at a fixed position.
Payload: the captured parameter string (starting with the pipe). -/
def matchRTemplateAt (s : Str) : Option (Str × Nat) :=
  match s with
  | '\x7b' :: '\x7b' :: rest =>
    let ws1 := rest.takeWhile jsIsSpace
    match rest.drop ws1.length with
    | c :: rest2 =>
      if eqCI c 'r' then
        let ws2 := rest2.takeWhile jsIsSpace
        match rest2.drop ws2.length with
        | '|' :: rest3 =>
          match indexOfSub rest3 "\x7d\x7d".toList with
          | some j =>
            some ('|' :: rest3.take j,
              2 + ws1.length + 1 + ws2.length + 1 + j + 2)
          | none => none
        | _ => none
      else none
    | [] => none
  | _ => none

/-- Loop body of `splitTemplateParams`/`splitParams`: split on `|` at brace
depth zero, consuming one character per iteration with one-character
lookahead for `{{` / `}}`, exactly as the source's indexed `for` loop. -/
def splitPipesGo : Str → Nat → Str → List Str → List Str
  | [], _, current, parts =>
    if current.isEmpty then parts else parts ++ [current]
  | c :: rest, depth, current, parts =>
    if c = '\x7b' && rest.head? = some '\x7b' then
      splitPipesGo rest (depth + 1) (current ++ [c]) parts
    else if c = '\x7d' && rest.head? = some '\x7d' then
      splitPipesGo rest (if depth > 0 then depth - 1 else depth) (current ++ [c]) parts
    else if c = '|' && depth = 0 then
      splitPipesGo rest depth [] (parts ++ [current])
    else
      splitPipesGo rest depth (current ++ [c]) parts

/-- `splitTemplateParams` (src/core/references.ts): split template parameters
on top-level pipes, keeping nested templates intact, trimming every part. -/
def splitTemplateParams (text : Str) : List Str :=
  (splitPipesGo text 0 [] []).map jsTrim

/-- `splitParams` (src/core/references.ts, private): textually identical to
`splitTemplateParams`. -/
def splitParams (text : Str) : List Str :=
  (splitPipesGo text 0 [] []).map jsTrim

structure TemplateParam where
  name : Option Str
  value : Str
deriving DecidableEq, Repr, Inhabited

/-- `parseTemplateParams` (src/core/references.ts): accepts a raw parameter
string (with a leading pipe) or a full `{{...}}` template; positional
parameters are named by their 1-based number rendered as a string. -/
def parseTemplateParams (paramText : Str) : List TemplateParam :=
  let working0 := jsTrim paramText
  let working :=
    if ("\x7b\x7b".toList).isPrefixOf working0 then
      let stripped :=
        if ("\x7d\x7d".toList).isSuffixOf working0 && working0.length ≥ 4 then
          jsTrim (jsSlice working0 2 (working0.length - 2))
        else jsTrim (working0.drop 2)
      match indexOfSub stripped "|".toList with
      | none => []
      | some pipeIdx => jsSliceFrom stripped (pipeIdx + 1)
    else working0
  let trimmed :=
    match working.dropWhile jsIsSpace with
    | '|' :: rest => rest
    | other => other
  if trimmed.isEmpty then []
  else
    let parts := splitParams trimmed
    (parts.foldl
      (fun (acc : Nat × List TemplateParam) p =>
        let (numberedIndex, out) := acc
        match indexOfSub p "=".toList with
        | none =>
          (numberedIndex + 1, out ++ [⟨some (natToStr (numberedIndex + 1)), p⟩])
        | some eqIdx =>
          (numberedIndex,
            out ++ [⟨some (jsTrim (p.take eqIdx)), p.drop (eqIdx + 1)⟩]))
      (0, [])).2

structure TemplateMatch where
  start : Nat
  stop : Nat
  name : Str
  content : Str
  params : List TemplateParam
deriving DecidableEq, Repr

/-- Template-name characters (`/[A-Za-z0-9_:-]/`). -/
def isTplNameChar (c : Char) : Bool :=
  ('a' ≤ c && c ≤ 'z') || ('A' ≤ c && c ≤ 'Z') || ('0' ≤ c && c ≤ '9') ||
    c = '_' || c = ':' || c = '-'

/-- Brace-depth scan of `findTemplates`: from `k` with depth 1, step over
`{{` / `}}` pairs; returns the end position when depth reaches 0, `none`
when the string ends first. -/
def braceScanGo (source : Str) : Nat → Nat → Nat → Option Nat
  | 0, _, _ => none
  | fuel + 1, k, depth =>
    if k < source.length && depth > 0 then
      if source[k]? = some '\x7b' && source[k + 1]? = some '\x7b' then
        braceScanGo source fuel (k + 2) (depth + 1)
      else if source[k]? = some '\x7d' && source[k + 1]? = some '\x7d' then
        braceScanGo source fuel (k + 2) (depth - 1)
      else braceScanGo source fuel (k + 1) depth
    else if depth = 0 then some k else none

/-- Main loop of `findTemplates`; `i` is the scan cursor. -/
def findTemplatesGo (source : Str) (lowerNames : List Str) :
    Nat → Nat → List TemplateMatch
  | 0, _ => []
  | fuel + 1, i =>
    match indexOfFrom source ("\x7b\x7b".toList) i with
    | none => []
    | some idx =>
      let j := idx + 2 + ((source.drop (idx + 2)).takeWhile jsIsSpace).length
      let nameChars := (source.drop j).takeWhile isTplNameChar
      let nameEnd := j + nameChars.length
      if !(lowerNames.contains (lcStr nameChars)) then
        findTemplatesGo source lowerNames fuel (idx + 2)
      else
        match braceScanGo source (source.length + 1) nameEnd 1 with
        | none => findTemplatesGo source lowerNames fuel nameEnd
        | some k =>
          { start := idx, stop := k, name := nameChars,
            content := jsSlice source idx k,
            params := parseTemplateParams (jsSlice source nameEnd ((k : Int) - 2)) } ::
            findTemplatesGo source lowerNames fuel k

/-- `findTemplates` (src/core/references.ts): locate template invocations of
the given (lower-cased) names with brace-depth counting; an unterminated
`{{` is skipped and the scan continues. -/
def findTemplates (source : Str) (names : List Str) : List TemplateMatch :=
  findTemplatesGo source (names.map lcStr) (source.length + 1) 0

inductive RKind
  | name
  | group
  | page
  | pages
  | atLoc -- the source's kind tag 'at' (`at` is reserved in Lean)
  | other
deriving DecidableEq, Repr

structure RTemplateEntry where
  key : Option Str
  value : Str
  kind : RKind
  index : Nat
  isName : Bool
deriving DecidableEq, Repr

/-- Is every character a decimal digit (possibly the empty string)? -/
def allDigits (s : Str) : Bool := s.all isAsciiDigit

/-- `key.match(/^(?:p1|..|pn)?(\d*)$/i)`: try each prefix in order, then the
empty prefix; capture the digit suffix. `none` models a failed match. -/
def matchKeyOpt (prefixes : List String) (key : Str) : Option Str :=
  match prefixes with
  | [] => if allDigits key then some key else none
  | p :: ps =>
    match stripPrefixCI p.toList key with
    | some rest => if allDigits rest then some rest else matchKeyOpt ps key
    | none => matchKeyOpt ps key

/-- `/^prefix\d*$/i.test(key)`. -/
def testPrefDigits (p : String) (key : Str) : Bool :=
  match stripPrefixCI p.toList key with
  | some rest => allDigits rest
  | none => false

/-- `/^(p1|..|pn)\d*$/i.test(key)`. -/
def testPrefsDigits (ps : List String) (key : Str) : Bool :=
  ps.any (fun p => testPrefDigits p key)

/-- Mutable locals of the `parseRTemplateEntries` loop. -/
structure RState where
  nameCounter : Nat
  lastNameIndex : Nat
  hasGroupIndex1 : Bool
deriving DecidableEq, Repr

/-- The key-classification ladder of `parseRTemplateEntries`'s loop body:
compute the entry kind, its logical index, and the updated counters.  The
numeric capture of each key regex binds the parameter to that 1-based index;
un-suffixed `page`/`pages`/`at` keys bind to index 1, and an un-suffixed
`group` key binds to 1 the first time and thereafter to the last seen name
index (when that index exceeds 1). -/
def classifyRKey (st : RState) (key : Str) : RKind × Nat × RState :=
  let nameIdxMatch := matchKeyOpt ["name", "n"] key
  let groupIdxMatch := matchKeyOpt ["grp", "group", "g"] key
  let pageIdxMatch := matchKeyOpt ["page", "p"] key
  let pagesIdxMatch := matchKeyOpt ["pages", "pp"] key
  let atIdxMatch := matchKeyOpt ["at", "location", "loc"] key
  let idx0 := max st.nameCounter 1
  if nameIdxMatch.isSome &&
      (key.isEmpty || testPrefDigits "name" key || testPrefDigits "n" key ||
        (!key.isEmpty && allDigits key)) then
    let ds := nameIdxMatch.getD []
    let (idx, counter) :=
      if !ds.isEmpty then (digitsToNat ds, st.nameCounter)
      else (st.nameCounter + 1, st.nameCounter + 1)
    (RKind.name, idx,
      { st with nameCounter := counter, lastNameIndex := idx })
  else if groupIdxMatch.isSome &&
      (testPrefsDigits ["grp", "group", "g"] key || key.isEmpty) then
    let ds := groupIdxMatch.getD []
    let idx :=
      if !ds.isEmpty then digitsToNat ds
      else if st.hasGroupIndex1 && st.lastNameIndex > 1 then st.lastNameIndex
      else 1
    (RKind.group, idx,
      { st with hasGroupIndex1 := st.hasGroupIndex1 || idx = 1 })
  else if pageIdxMatch.isSome &&
      (testPrefsDigits ["page", "p"] key || key.isEmpty) then
    let ds := pageIdxMatch.getD []
    (RKind.page, if !ds.isEmpty then digitsToNat ds else 1, st)
  else if pagesIdxMatch.isSome &&
      (testPrefsDigits ["pages", "pp"] key || key.isEmpty) then
    let ds := pagesIdxMatch.getD []
    (RKind.pages, if !ds.isEmpty then digitsToNat ds else 1, st)
  else if atIdxMatch.isSome &&
      (testPrefsDigits ["at", "location", "loc"] key || key.isEmpty) then
    let ds := atIdxMatch.getD []
    (RKind.atLoc, if !ds.isEmpty then digitsToNat ds else 1, st)
  else
    let tail := (key.reverse.takeWhile isAsciiDigit).reverse
    (RKind.other, if !tail.isEmpty then digitsToNat tail else idx0, st)

/-- One iteration of the `parts.forEach` body of `parseRTemplateEntries`:
classify the key, compute the logical index, update the counters, and
produce the entry (or nothing, for blank parts and empty values). -/
def rTemplateStep (st : RState) (part : Str) : RState × Option RTemplateEntry :=
  let raw := jsTrim part
  if raw.isEmpty then (st, none)
  else
    let (key, value) :=
      match indexOfSub raw "=".toList with
      | some eqIdx => (jsTrim (raw.take eqIdx), jsTrim (raw.drop (eqIdx + 1)))
      | none => (([] : Str), raw)
    let (kind, idx, st1) := classifyRKey st key
    let isNameKey := kind = RKind.name
    if value.isEmpty then (st1, none)
    else
      let st2 :=
        if isNameKey && idx > st1.nameCounter then
          { st1 with nameCounter := idx }
        else st1
      (st2, some
        { key := if key.isEmpty then none else some key
          value := value
          kind := kind
          index := if idx = 0 then 1 else idx
          isName := isNameKey })

/-- `parseRTemplateEntries` (src/core/references.ts): parse `{{r|...}}`
parameters into ordered entries with logical indices. -/
def parseRTemplateEntries (paramString : Str) : List RTemplateEntry :=
  let trimmed :=
    match paramString with
    | '|' :: rest => rest
    | s => s
  if trimmed.isEmpty then []
  else
    let parts := splitTemplateParams trimmed
    (parts.foldl
      (fun (acc : RState × List RTemplateEntry) part =>
        let (st, es) := acc
        match rTemplateStep st part with
        | (st', some e) => (st', es ++ [e])
        | (st', none) => (st', es))
      (⟨0, 0, false⟩, [])).2

inductive RefUseKind
  | selfClosing
  | full
  | templateR
deriving DecidableEq, Repr, Inhabited

/-- `RefUseInternal` (src/core/references.ts). `stop` is the source's `end`
(reserved in Lean); `content = none` models an absent (`undefined`) field. -/
structure RefUseInternal where
  name : Option Str
  group : Option Str
  start : Nat
  stop : Nat
  kind : RefUseKind
  content : Option Str := none
  rTemplateId : Option Nat := none
deriving DecidableEq, Repr, Inhabited

inductive RefLoc
  | inline
  | ldr
deriving DecidableEq, Repr, Inhabited

/-- `RefRecord` (src/core/references.ts). The source's object pointers are
modelled by an arena: `canonical` holds an arena index (`none` when the
source field is `undefined`). -/
structure RefRecord where
  id : Str
  name : Option Str
  group : Option Str
  key : Str
  definitions : List RefUseInternal
  uses : List RefUseInternal
  ldrDefinitions : List RefUseInternal
  canonical : Option Nat
  targetLocation : RefLoc
deriving DecidableEq, Repr, Inhabited

abbrev Arena := List RefRecord

/-- Dereference an arena index. -/
def aGet (arena : Arena) (i : Nat) : RefRecord := arena.getD i default

/-- Mutate the record at an arena index in place. -/
def aModify (arena : Arena) (i : Nat) (f : RefRecord → RefRecord) : Arena :=
  arena.set i (f (aGet arena i))

/-- Insertion-ordered string-keyed map (JS `Map` / plain object). -/
def lookupKey {α : Type} (m : List (Str × α)) (k : Str) : Option α :=
  (m.find? (fun p => p.1 = k)).map Prod.snd

/-- JS `Map.prototype.set`: overwrite in place, or append. -/
def mapSet {α : Type} (m : List (Str × α)) (k : Str) (v : α) : List (Str × α) :=
  if (m.find? (fun p => p.1 = k)).isSome then
    m.map (fun p => if p.1 = k then (p.1, v) else p)
  else m ++ [(k, v)]

/-- `refKey` (src/core/references.ts): `${group ?? ''}::${name ?? ''}`. -/
def refKey (name group : Option Str) : Str :=
  group.getD [] ++ "::".toList ++ name.getD []

/-- The synthesized identity `__nameless_${n}`. -/
def namelessKey (n : Nat) : Str := "__nameless_".toList ++ natToStr n

/-- `refIterator`: the map's values in insertion order (arena indices). -/
def refIterator (refsMap : List (Str × Nat)) : List Nat := refsMap.map Prod.snd

/-- `inTemplateRange` (src/core/references.ts). -/
def inTemplateRange (idx : Nat) (templates : List TemplateMatch) : Bool :=
  templates.any (fun t => t.start ≤ idx && idx ≤ t.stop)

structure RTpl where
  id : Nat
  start : Nat
  stop : Nat
  entries : List RTemplateEntry
deriving DecidableEq, Repr

/-- Mutable state threaded through `parseWikitext`'s `getRef` closure. -/
structure BuildSt where
  arena : Arena
  refsMap : List (Str × Nat)
  namelessCounter : Nat
deriving Repr

/-- `getRef` (closure in `parseWikitext`): resolve `(name, group)` to an
arena index, creating a fresh record when absent. Truthy names key by
`refKey`; falsy names consume a fresh `__nameless_` counter value. -/
def getRefStep (st : BuildSt) (name group : Option Str) : Nat × BuildSt :=
  let (key, counter') :=
    if strTruthy name then (refKey name group, st.namelessCounter)
    else (namelessKey st.namelessCounter, st.namelessCounter + 1)
  match lookupKey st.refsMap key with
  | some i => (i, { st with namelessCounter := counter' })
  | none =>
    let r : RefRecord :=
      { id := key, name := name, group := group, key := key,
        definitions := [], uses := [], ldrDefinitions := [],
        canonical := none, targetLocation := .inline }
    (st.arena.length,
      { arena := st.arena ++ [r],
        refsMap := st.refsMap ++ [(key, st.arena.length)],
        namelessCounter := counter' })

structure ParseCtx where
  arena : Arena
  refsMap : List (Str × Nat)
  templates : List TemplateMatch
  rTemplates : List RTpl
deriving Repr

/-- `parseWikitext` (src/core/references.ts): scan for full refs,
self-closing refs, `{{r}}` templates and list-defined refs inside the
`refs=` parameter of the output-list templates. -/
def parseWikitext (wikitext : Str) (reflistNames : List Str) : ParseCtx :=
  let templates := findTemplates wikitext reflistNames
  let st0 : BuildSt := ⟨[], [], 0⟩
  let st1 := (scanAll matchRefFullAt wikitext).foldl
    (fun st m =>
      if inTemplateRange m.1 templates then st
      else
        let attrs := m.2.2.1
        let content := m.2.2.2
        let name := extractAttr attrs "name".toList
        let group := extractAttr attrs "group".toList
        let (i, st') := getRefStep st name group
        let use : RefUseInternal :=
          { name, group, start := m.1, stop := m.2.1, kind := .full,
            content := some content }
        { st' with arena := aModify st'.arena i (fun r =>
            { r with definitions := r.definitions ++ [use],
                     uses := r.uses ++ [use] }) })
    st0
  let st2 := (scanAll matchRefSelfAt wikitext).foldl
    (fun st m =>
      if inTemplateRange m.1 templates then st
      else
        let attrs := m.2.2
        let name := extractAttr attrs "name".toList
        let group := extractAttr attrs "group".toList
        let (i, st') := getRefStep st name group
        let use : RefUseInternal :=
          { name, group, start := m.1, stop := m.2.1, kind := .selfClosing }
        { st' with arena := aModify st'.arena i (fun r =>
            { r with uses := r.uses ++ [use] }) })
    st1
  let (st3, rTemplates) := (scanAll matchRTemplateAt wikitext).foldl
    (fun (acc : BuildSt × List RTpl) m =>
      let (st, rtpls) := acc
      if inTemplateRange m.1 templates then (st, rtpls)
      else
        let params := m.2.2
        let entries := parseRTemplateEntries params
        let tplId := rtpls.length
        let st' := (entries.filter (fun e => e.isName)).foldl
          (fun st e =>
            let (i, st') := getRefStep st (some e.value) none
            let use : RefUseInternal :=
              { name := some e.value, group := none, start := m.1,
                stop := m.2.1, kind := .templateR, rTemplateId := some tplId }
            { st' with arena := aModify st'.arena i (fun r =>
                { r with uses := r.uses ++ [use] }) })
          st
        (st', rtpls ++ [⟨tplId, m.1, m.2.1, entries⟩]))
    (st2, [])
  let st4 := templates.foldl
    (fun st tpl =>
      match tpl.params.find? (fun p => strTruthy p.name &&
          lcStr (p.name.getD []) = "refs".toList) with
      | some refsParam =>
        if refsParam.value.isEmpty then st
        else
          let inner := refsParam.value
          let paramOffset := indexOfSub tpl.content inner
          let basePos := match paramOffset with
            | some off => tpl.start + off
            | none => tpl.start
          (scanAll matchRefFullAt inner).foldl
            (fun st m =>
              let attrs := m.2.2.1
              let content := m.2.2.2
              let name := extractAttr attrs "name".toList
              let group := extractAttr attrs "group".toList
              let (i, st') := getRefStep st name group
              let use : RefUseInternal :=
                { name, group, start := basePos + m.1,
                  stop := basePos + m.2.1, kind := .full,
                  content := some content }
              { st' with arena := aModify st'.arena i (fun r =>
                  { r with ldrDefinitions := r.ldrDefinitions ++ [use] }) })
            st
      | none => st)
    st3
  ⟨st4.arena, st4.refsMap, templates, rTemplates⟩

/-- `firstContent` (src/core/references.ts): first definition (inline before
list-defined) whose content is non-empty after trimming. -/
def hasRealContent (d : RefUseInternal) : Bool :=
  !(jsTrim (d.content.getD [])).isEmpty

def firstContent (ref : RefRecord) : Option Str :=
  match ref.definitions.find? hasRealContent with
  | some d => d.content
  | none =>
    match ref.ldrDefinitions.find? hasRealContent with
    | some d => d.content
    | none => none

/-- `content.replace(/\s+/g, ' ')`. -/
def collapseWsGo : Str → Bool → Str
  | [], _ => []
  | c :: cs, inWs =>
    if jsIsSpace c then
      if inWs then collapseWsGo cs true else ' ' :: collapseWsGo cs true
    else c :: collapseWsGo cs false

/-- `normalizeContent` (src/core/references.ts): collapse whitespace runs to
single spaces and trim. -/
def normalizeContent (content : Str) : Str :=
  jsTrim (collapseWsGo content false)

/-- `normalizeRefKeys` (src/core/references.ts): recompute keys from the
current names, rebuild the map, and merge (union of definitions, list
definitions and uses) records that now collide on a key; merged-away records
point `canonical` at the survivor. -/
def normalizeRefKeys (arena : Arena) (refsMap : List (Str × Nat)) :
    Arena × List (Str × Nat) :=
  let step := fun (acc : Arena × List (Str × Nat) × Nat) (i : Nat) =>
    let (arena, nextMap, counter) := acc
    let ref := aGet arena i
    let (key, counter') :=
      if strTruthy ref.name then (refKey ref.name ref.group, counter)
      else if !ref.key.isEmpty then (ref.key, counter)
      else if !ref.id.isEmpty then (ref.id, counter)
      else (namelessKey counter, counter + 1)
    let arena := aModify arena i (fun r =>
      { r with key := key, id := jsOrStr r.id key })
    match lookupKey nextMap key with
    | some j =>
      let moved := aGet arena i
      let arena := aModify arena j (fun r =>
        { r with definitions := r.definitions ++ moved.definitions,
                 ldrDefinitions := r.ldrDefinitions ++ moved.ldrDefinitions,
                 uses := r.uses ++ moved.uses })
      let arena := aModify arena i (fun r => { r with canonical := some j })
      (arena, nextMap, counter')
    | none => (arena, nextMap ++ [(key, i)], counter')
  let (arena', nextMap, _) :=
    (refIterator refsMap).foldl step (arena, ([] : List (Str × Nat)), 0)
  (arena', nextMap)

/-- Truthiness of a looked-up JS value of type `string | null | undefined`
(outer `none` = `undefined`, `some none` = `null`). -/
def jsValTruthy : Option (Option Str) → Bool
  | some (some s) => !s.isEmpty
  | _ => false

/-- Lookup in a JS record whose stored values may themselves be `undefined`:
both a missing key and a stored `undefined` read as `undefined`. -/
def jsGet (m : List (Str × Option (Option Str))) (k : Str) : Option (Option Str) :=
  (lookupKey m k).join

/-- `applyRenames` (src/core/references.ts): apply the name map to named
records and the nameless map to unnamed records, then hand out the remaining
nameless renames positionally to still-unnamed records in map order. -/
def applyRenames (arena : Arena) (refsMap : List (Str × Nat))
    (rename : List (Str × Option Str))
    (renameNameless : List (Str × Option (Option Str))) : Arena :=
  let step := fun (acc : Arena × List Str) (i : Nat) =>
    let (arena, applied) := acc
    let ref := aGet arena i
    if strTruthy ref.name then
      match lookupKey rename (ref.name.getD []) with
      | some none => (aModify arena i (fun r => { r with name := none }), applied)
      | some (some s) =>
        if !s.isEmpty && some s ≠ ref.name then
          (aModify arena i (fun r => { r with name := some s }), applied)
        else (arena, applied)
      | none => (arena, applied)
    else
      let a := jsGet renameNameless ref.id
      let next := if jsValTruthy a then a else jsGet renameNameless ref.key
      if next = some none then
        let newKey := jsOrStr ref.key (jsOrStr ref.id (refKey none ref.group))
        (aModify arena i (fun r => { r with name := none, key := newKey }),
          applied ++ [ref.id, newKey])
      else if jsValTruthy next then
        let newName := next.join
        let newKey := refKey newName ref.group
        (aModify arena i (fun r => { r with name := newName, key := newKey }),
          applied ++ [ref.id, newKey])
      else (arena, applied)
  let (arena1, applied) :=
    (refIterator refsMap).foldl step (arena, ([] : List Str))
  let remainingEntries := renameNameless.filter (fun p => !applied.contains p.1)
  if remainingEntries.isEmpty then arena1
  else
    ((refIterator refsMap).foldl
      (fun (acc : Arena × Nat) (i : Nat) =>
        let (arena, idx) := acc
        if idx ≥ remainingEntries.length then (arena, idx)
        else if strTruthy (aGet arena i).name then (arena, idx)
        else
          let newName := (remainingEntries.getD idx default).2.join
          let arena := aModify arena i (fun r =>
            { r with name := newName, key := refKey newName r.group })
          (arena, idx + 1))
      (arena1, 0)).1

/-- The loop body of `applyDedupe`'s `refIterator(refs).forEach`; the
accumulator carries (arena, canonicalByContent, changes). -/
def dedupeStep (acc : Arena × List (Str × Nat) × List (Str × Str)) (i : Nat) :
    Arena × List (Str × Nat) × List (Str × Str) :=
  let (arena, canonMap, changes) := acc
  let ref := aGet arena i
  match firstContent ref with
  | none => (arena, canonMap, changes)
  | some content =>
    if content.isEmpty || !strTruthy ref.name then (arena, canonMap, changes)
    else
      let norm := normalizeContent content
      match lookupKey canonMap norm with
      | some j =>
        if strTruthy (aGet arena j).name then
          let arena := aModify arena i (fun r => { r with canonical := some j })
          let arena :=
            if (aGet arena j).definitions.isEmpty && !ref.definitions.isEmpty then
              aModify arena j (fun r =>
                { r with definitions := r.definitions ++ ref.definitions })
            else arena
          let arena :=
            if (aGet arena j).ldrDefinitions.isEmpty && !ref.ldrDefinitions.isEmpty then
              aModify arena j (fun r =>
                { r with ldrDefinitions := r.ldrDefinitions ++ ref.ldrDefinitions })
            else arena
          (arena, canonMap,
            changes ++ [(ref.name.getD [], (aGet arena j).name.getD [])])
        else
          (aModify arena i (fun r => { r with canonical := some i }),
            mapSet canonMap norm i, changes)
      | none =>
        (aModify arena i (fun r => { r with canonical := some i }),
          mapSet canonMap norm i, changes)

/-- `applyDedupe` (src/core/references.ts): group named records by
whitespace-normalized first content; the first-seen record per group becomes
canonical, later ones point `canonical` at it, donate their definitions when
the canonical had none, and are reported as `{from, to}` pairs. -/
def applyDedupe (arena : Arena) (refsMap : List (Str × Nat)) :
    Arena × List (Str × Str) :=
  (refIterator refsMap).foldl dedupeStep (arena, [], []) |>
    (fun acc => (acc.1, acc.2.2))

/-- Stable insertion into an ascending list (equal elements keep their
original relative order, matching JS's stable `Array.prototype.sort`). -/
def insertLE {α : Type} (le : α → α → Bool) (x : α) : List α → List α
  | [] => [x]
  | y :: ys => if le y x then y :: insertLE le x ys else x :: y :: ys

/-- Stable sort (models JS `Array.prototype.sort` with a comparator). -/
def stableSortBy {α : Type} (le : α → α → Bool) (l : List α) : List α :=
  l.foldl (fun acc x => insertLE le x acc) []

/-- `aggregateUses` (src/core/references.ts): uses of every record whose
canonical is the given record, sorted by start offset. -/
def aggregateUses (arena : Arena) (refsMap : List (Str × Nat)) (c : Nat) :
    List RefUseInternal :=
  stableSortBy (fun a b => a.start ≤ b.start)
    ((refIterator refsMap).foldl
      (fun acc i =>
        let r := aGet arena i
        if (r.canonical.getD i) = c then acc ++ r.uses else acc)
      [])

/-- `LocationMode` (src/core/references.ts). -/
inductive LocationMode
  | keep
  | all_inline
  | all_ldr
  | threshold (minUsesForLdr : Nat)
deriving DecidableEq, Repr

/-- The loop body of `assignLocations`' iteration over `refIterator(refs)`;
the accumulator carries (arena, processed canonical ids). -/
def assignLocStep (refsMap : List (Str × Nat)) (mode : LocationMode)
    (acc : Arena × List Nat) (i : Nat) : Arena × List Nat :=
  let (arena, processed) := acc
  let ref := aGet arena i
  let c := ref.canonical.getD i
  if processed.contains c then (arena, processed)
  else
    match mode with
    | .keep =>
      let loc : RefLoc :=
        if (aGet arena c).ldrDefinitions.length > 0 then .ldr else .inline
      (aModify arena c (fun r => { r with targetLocation := loc }),
        processed ++ [c])
    | .all_inline =>
      if !strTruthy (aGet arena c).name then
        (aModify arena c (fun r => { r with targetLocation := .inline }),
          processed ++ [c])
      else
        (aModify arena c (fun r => { r with targetLocation := .inline }),
          processed ++ [c])
    | .all_ldr =>
      if !strTruthy (aGet arena c).name then
        (aModify arena c (fun r => { r with targetLocation := .inline }),
          processed ++ [c])
      else
        (aModify arena c (fun r => { r with targetLocation := .ldr }),
          processed ++ [c])
    | .threshold n =>
      if !strTruthy (aGet arena c).name then
        (aModify arena c (fun r => { r with targetLocation := .inline }),
          processed ++ [c])
      else
        let usesCount := (aggregateUses arena refsMap c).length
        let loc : RefLoc := if usesCount ≥ n then .ldr else .inline
        (aModify arena c (fun r => { r with targetLocation := loc }),
          processed ++ [c])

/-- `assignLocations` (src/core/references.ts): assign each canonical record
its target location, visiting every canonical once. Under `keep` the record
keeps `ldr` exactly when it has a list-defined definition; under the other
modes unnamed records are forced inline, then the mode decides. -/
def assignLocations (arena : Arena) (refsMap : List (Str × Nat))
    (mode : LocationMode) : Arena :=
  ((refIterator refsMap).foldl (assignLocStep refsMap mode) (arena, [])).1

/-- `renderRefSelf` (src/core/references.ts). -/
def renderRefSelf (name group : Option Str) (preferTemplateR : Bool) : Str :=
  if !strTruthy name then "<ref />".toList
  else if preferTemplateR then
    let parts := [name.getD []] ++
      (if strTruthy group then
        ["group=".toList ++ escapeAttr (group.getD [])] else [])
    "\x7b\x7br|".toList ++ List.intercalate "|".toList parts ++ "\x7d\x7d".toList
  else
    let attrs := ["name=\x22".toList ++ escapeAttr (name.getD []) ++ "\x22".toList] ++
      (if strTruthy group then
        ["group=\x22".toList ++ escapeAttr (group.getD []) ++ "\x22".toList] else [])
    "<ref ".toList ++ List.intercalate " ".toList attrs ++ " />".toList

/-- `text.replace(/[ \t]+\n/g, '\n')`: delete space/tab runs that precede a
newline. -/
def stripWsNlAux : Nat → Str → Str
  | 0, _ => []
  | _, [] => []
  | fuel + 1, c :: cs =>
    if c = ' ' || c = '\t' then
      let run := cs.takeWhile (fun x => x = ' ' || x = '\t')
      match cs.drop run.length with
      | '\n' :: rest => '\n' :: stripWsNlAux fuel rest
      | _ => c :: stripWsNlAux fuel cs
    else c :: stripWsNlAux fuel cs

/-- `text.replace(/\n{3,}/g, '\n\n')`: collapse runs of three or more
newlines to exactly two. -/
def collapseNlAux : Nat → Str → Str
  | 0, _ => []
  | _, [] => []
  | fuel + 1, c :: cs =>
    if c = '\n' then
      let run := cs.takeWhile (fun x => x = '\n')
      if run.length + 1 ≥ 3 then
        '\n' :: '\n' :: collapseNlAux fuel (cs.drop run.length)
      else (c :: run) ++ collapseNlAux fuel (cs.drop run.length)
    else c :: collapseNlAux fuel cs

/-- `normalizeContentBlock` (src/core/references.ts): trim trailing spaces on
lines, collapse excessive blank lines, trim the whole block. -/
def normalizeContentBlock (content : Str) : Str :=
  jsTrim (collapseNlAux (content.length + 1) (stripWsNlAux (content.length + 1) content))

/-- Generic global `String.prototype.replace` with a function callback:
unmatched characters are copied, a match of length `n > 0` is replaced by
the callback's result and the scan resumes after it. -/
def replaceAllAux {α : Type} (matchAt : Str → Option (α × Nat))
    (f : Str → α → Str) : Nat → Str → Str
  | 0, _ => []
  | _, [] => []
  | fuel + 1, c :: cs =>
    match matchAt (c :: cs) with
    | some (a, n) =>
      if n = 0 then c :: replaceAllAux matchAt f fuel cs
      else f ((c :: cs).take n) a ++ replaceAllAux matchAt f fuel ((c :: cs).drop n)
    | none => c :: replaceAllAux matchAt f fuel cs

def replaceAll {α : Type} (matchAt : Str → Option (α × Nat))
    (f : Str → α → Str) (s : Str) : Str :=
  replaceAllAux matchAt f (s.length + 1) s

/-- Matcher for the cite-template regex of `normalizeRefBody`
(`/\{\{\s*([Cc]ite\s+[^\|\}]+)\s*\|([\s\S]*?)\}\}/g`, case-sensitive apart
from the `[Cc]` class).  Payload: (captured name, captured parameter text). -/
def matchCiteAt (s : Str) : Option ((Str × Str) × Nat) :=
  match s with
  | '\x7b' :: '\x7b' :: rest =>
    let ws := rest.takeWhile jsIsSpace
    match rest.drop ws.length with
    | c :: rest2 =>
      if c = 'C' || c = 'c' then
        match stripPrefixCS "ite".toList rest2 with
        | some rest3 =>
          let run := rest3.takeWhile (fun x => x ≠ '|' && x ≠ '\x7d')
          if 2 ≤ run.length && (run.head?.map jsIsSpace).getD false then
            match rest3.drop run.length with
            | '|' :: rest4 =>
              match indexOfSub rest4 "\x7d\x7d".toList with
              | some j =>
                some (((c :: 'i' :: 't' :: 'e' :: run), rest4.take j),
                  2 + ws.length + 4 + run.length + 1 + j + 2)
              | none => none
            | _ => none
          else none
        | none => none
      else none
    | [] => none
  | _ => none

/-- The replace callback of `normalizeRefBody`: reorder recognized cite
parameters (title, url, website, language, dead-url, archive-url,
archive-date, access-date) to the front, preserving the rest in order. -/
def citeReorder (matched : Str) (payload : Str × Str) : Str :=
  let (name, paramText) := payload
  let params := parseTemplateParams ('|' :: paramText)
  if params.isEmpty then matched
  else
    let priority : List String :=
      ["title", "url", "website", "language", "dead-url", "archive-url",
       "archive-date", "access-date"]
    let findParamIndex := fun (key : String) =>
      params.findIdx? (fun p =>
        match p.name with
        | none => false
        | some n =>
          let n' := lcStr (jsTrim n)
          if n'.isEmpty then false
          else n' = key.toList || (key = "dead-url" && n' = "deadurl".toList))
    let (ordered, used) := priority.foldl
      (fun (acc : List TemplateParam × List Nat) key =>
        match findParamIndex key with
        | some idx =>
          if acc.2.contains idx then acc
          else (acc.1 ++ [params.getD idx default], acc.2 ++ [idx])
        | none => acc)
      ([], [])
    let (ordered, _) := params.enum.foldl
      (fun (acc : List TemplateParam × List Nat) (p : Nat × TemplateParam) =>
        if acc.2.contains p.1 then acc
        else (acc.1 ++ [p.2], acc.2 ++ [p.1]))
      (ordered, used)
    let parts := ordered.map (fun p =>
      let val := jsTrim p.value
      match p.name with
      | some n =>
        let n' := jsTrim n
        if n'.isEmpty then val else n' ++ "=".toList ++ val
      | none => val)
    "\x7b\x7b".toList ++ jsTrim name ++
      (if parts.isEmpty then [] else " |".toList ++ List.intercalate " |".toList parts) ++
      "\x7d\x7d".toList

/-- `normalizeRefBody` (src/core/references.ts): `normalizeContentBlock`
followed by cite-template parameter reordering. -/
def normalizeRefBody (content : Str) : Str :=
  replaceAll matchCiteAt citeReorder (normalizeContentBlock content)

/-- `renderRefTag` (src/core/references.ts). -/
def renderRefTag (name group : Option Str) (content : Str)
    (normalize : Bool := false) : Str :=
  let attrs :=
    (if strTruthy name then
      ["name=\x22".toList ++ escapeAttr (name.getD []) ++ "\x22".toList] else []) ++
    (if strTruthy group then
      ["group=\x22".toList ++ escapeAttr (group.getD []) ++ "\x22".toList] else [])
  let inner := if normalize then normalizeRefBody content else normalizeContentBlock content
  "<ref".toList ++
    (if attrs.isEmpty then [] else ' ' :: List.intercalate " ".toList attrs) ++
    ">".toList ++ inner ++ "</ref>".toList

/-- An entry of `buildLdrEntries`: (name, group, content). -/
structure LdrEntry where
  name : Str
  group : Option Str
  content : Str
deriving DecidableEq, Repr

/-- `buildLdrEntries` (src/core/references.ts): the canonical, named,
list-defined records that carry content. -/
def buildLdrEntries (arena : Arena) (refsMap : List (Str × Nat)) : List LdrEntry :=
  (refIterator refsMap).foldl
    (fun acc i =>
      let ref := aGet arena i
      let c := ref.canonical.getD i
      if c ≠ i then acc
      else if ref.targetLocation ≠ .ldr then acc
      else if !strTruthy ref.name then acc
      else
        match firstContent ref with
        | none => acc
        | some content =>
          if content.isEmpty then acc
          else acc ++ [⟨ref.name.getD [], ref.group, content⟩])
    []

/-- Collation tokens of the stand-in for
`localeCompare(..., { sensitivity: 'base', numeric: true })`: digit runs
compare numerically, other characters case-insensitively.  The exact ICU
order is environment-dependent; no theorem below depends on this order. -/
def collateTokens : Nat → Str → List (Nat ⊕ Char)
  | 0, _ => []
  | _, [] => []
  | fuel + 1, c :: cs =>
    if isAsciiDigit c then
      let run := cs.takeWhile isAsciiDigit
      Sum.inl (digitsToNat (c :: run)) :: collateTokens fuel (cs.drop run.length)
    else Sum.inr (lcChar c) :: collateTokens fuel cs

def collateTokLe : List (Nat ⊕ Char) → List (Nat ⊕ Char) → Bool
  | [], _ => true
  | _ :: _, [] => false
  | a :: as_, b :: bs =>
    match a, b with
    | Sum.inl m, Sum.inl n =>
      if m < n then true else if n < m then false else collateTokLe as_ bs
    | Sum.inl _, Sum.inr _ => true
    | Sum.inr _, Sum.inl _ => false
    | Sum.inr x, Sum.inr y =>
      if x < y then true else if y < x then false else collateTokLe as_ bs

/-- Name order used by `renderRefsValue` when sorting. -/
def localeNameLe (a b : Str) : Bool :=
  collateTokLe (collateTokens (a.length + 1) a) (collateTokens (b.length + 1) b)

/-- `renderRefsValue` (src/core/references.ts). -/
def renderRefsValue (entries : List LdrEntry) (sort : Bool) : Str :=
  let sorted := if sort then
    stableSortBy (fun a b => localeNameLe a.name b.name) entries else entries
  '\n' :: List.intercalate "\n".toList
    (sorted.map (fun e => renderRefTag (some e.name) e.group e.content)) ++ "\n".toList

/-- `renderTemplate` (src/core/references.ts). -/
def renderTemplate (name : Str) (params : List TemplateParam) : Str :=
  let parts := params.map (fun p =>
    match p.name with
    | some n => if n.isEmpty then p.value else n ++ "=".toList ++ p.value
    | none => p.value)
  "\x7b\x7b".toList ++ name ++
    (if parts.isEmpty then [] else '|' :: List.intercalate "|".toList parts) ++
    "\x7d\x7d".toList

/-- `updateReflistTemplate` (src/core/references.ts). -/
def updateReflistTemplate (tpl : TemplateMatch) (ldrEntries : List LdrEntry)
    (sort : Bool) : Str :=
  let isRefsParam := fun (p : TemplateParam) =>
    strTruthy p.name && lcStr (p.name.getD []) = "refs".toList
  let params := tpl.params
  let hasRefsParam := params.any isRefsParam
  let refsValue := renderRefsValue ldrEntries sort
  if ldrEntries.isEmpty then
    renderTemplate tpl.name (params.filter (fun p => !isRefsParam p))
  else if hasRefsParam then
    renderTemplate tpl.name
      (params.map (fun p => if isRefsParam p then { p with value := refsValue } else p))
  else
    renderTemplate tpl.name (params ++ [⟨some "refs".toList, refsValue⟩])

/-- `buildStandaloneReflist` (src/core/references.ts). -/
def buildStandaloneReflist (entries : List LdrEntry) (sort : Bool) : Str :=
  "\n\x7b\x7breflist|refs=".toList ++ renderRefsValue entries sort ++ "\x7d\x7d".toList

/-- `Replacement` (src/core/references.ts). `stop` is the source's `end`. -/
structure Replacement where
  start : Nat
  stop : Nat
  text : Str
deriving DecidableEq, Repr, Inhabited

/-- `Number.MAX_SAFE_INTEGER`, used for the appended-reflist sentinel span. -/
def MAX_SAFE_INTEGER : Nat := 2 ^ 53 - 1

/-- `collapseReplacements` (src/core/references.ts): stable sort descending
by start, then drop replacements whose exact `(start, end)` span was already
seen.  The source keys the seen-set by the string `${start}-${end}`, whose
decimal encoding is injective on naturals, so the pair is an equivalent key. -/
def collapseReplacements (repls : List Replacement) : List Replacement :=
  let sorted := stableSortBy (fun a b => b.start ≤ a.start) repls
  (sorted.foldl
    (fun (acc : List (Nat × Nat) × List Replacement) r =>
      if acc.1.contains (r.start, r.stop) then acc
      else (acc.1 ++ [(r.start, r.stop)], acc.2 ++ [r]))
    ([], [])).2

/-- `applyReplacements` (src/core/references.ts): stable sort ascending by
start, then apply left-to-right with a cumulative length-delta offset,
using JS `slice` clamping semantics. -/
def applyReplacements (source : Str) (replacements : List Replacement) : Str :=
  let sorted := stableSortBy (fun a b => a.start ≤ b.start) replacements
  (sorted.foldl
    (fun (acc : Str × Int) r =>
      let (output, offset) := acc
      let start := (r.start : Int) + offset
      let stop := (r.stop : Int) + offset
      (jsSlice output 0 start ++ r.text ++ jsSliceFrom output stop,
        offset + (r.text.length : Int) - ((r.stop : Int) - (r.start : Int))))
    (source, 0)).1

/-- `a ?? b` (JS nullish coalescing) on optional values. -/
def jsNullish {α : Type} (a b : Option α) : Option α :=
  match a with
  | some x => some x
  | none => b

/-- Matcher for the token alternative `<ref\b[^>]*\/>` (with the `i` flag):
the greedy `[^>]*` runs to the first `>`, which must be preceded by `/`. -/
def matchRefSelfSimpleAt (s : Str) : Option Nat :=
  match stripPrefixCI "<ref".toList s with
  | none => none
  | some rest =>
    if (rest.head?.map isWordChar).getD false then none
    else
      let run := rest.takeWhile (fun c => c ≠ '>')
      match rest.drop run.length with
      | '>' :: _ =>
        if run.getLast? = some '/' then some (4 + run.length + 1) else none
      | _ => none

/-- Matcher for `\{\{tag\|[^}]+\}\}` (with the `i` flag), `tag` a letter
tag such as `r` or `rp`. -/
def matchBraceTplAt (tag : String) (s : Str) : Option Nat :=
  match stripPrefixCI ("\x7b\x7b".toList ++ tag.toList ++ "|".toList) s with
  | none => none
  | some rest =>
    let run := rest.takeWhile (fun c => c ≠ '\x7d')
    if run.isEmpty then none
    else
      match rest.drop run.length with
      | '\x7d' :: '\x7d' :: _ => some (2 + tag.length + 1 + run.length + 2)
      | _ => none

/-- The tokenizer regex of `collapseRefsAndRp`
(`/<ref\b[^>]*\/>|{{r\|[^}]+}}|{{rp\|[^}]+}}/gi`): alternatives tried left
to right at each position; only the match length matters. -/
def matchAnyTokAt (s : Str) : Option (Unit × Nat) :=
  match matchRefSelfSimpleAt s with
  | some n => some ((), n)
  | none =>
    match matchBraceTplAt "r" s with
    | some n => some ((), n)
    | none =>
      match matchBraceTplAt "rp" s with
      | some n => some ((), n)
      | none => none

inductive RpTokKind
  | ref
  | r
  | rp
deriving DecidableEq, Repr, Inhabited

structure RpTok where
  kind : RpTokKind
  raw : Str
deriving DecidableEq, Repr, Inhabited

/-- `tokenize` (closure in `collapseRefsAndRp`): the token kind is decided by
a case-sensitive `startsWith`, although the regex matched case-insensitively
(an uppercase `<REF .../>` is therefore classified as `rp`, as the source
does). -/
def tokenize (block : Str) : List RpTok :=
  (scanAll matchAnyTokAt block).map (fun m =>
    let raw := (block.drop m.1).take (m.2.1 - m.1)
    let kind :=
      if "<ref".toList.isPrefixOf raw then RpTokKind.ref
      else if "\x7b\x7br|".toList.isPrefixOf raw then RpTokKind.r
      else RpTokKind.rp
    ⟨kind, raw⟩)

structure RpInfo where
  page : Option Str := none
  pages : Option Str := none
  atv : Option Str := none -- the source field `at`
  group : Option Str := none
  unsupported : Bool := false
deriving DecidableEq, Repr, Inhabited

/-- `parseRp` (closure in `collapseRefsAndRp`). -/
def parseRp (raw : Str) : RpInfo :=
  let inner0 :=
    match stripPrefixCI "\x7b\x7brp|".toList raw with
    | some rest => rest
    | none => raw
  let inner :=
    if ("\x7d\x7d".toList).isSuffixOf inner0 then
      inner0.take (inner0.length - 2)
    else inner0
  (splitTemplateParams inner).foldl
    (fun res p =>
      let (key, val) :=
        match indexOfSub p "=".toList with
        | some eqIdx => (jsTrim (p.take eqIdx), jsTrim (p.drop (eqIdx + 1)))
        | none => (([] : Str), p)
      let norm := lcStr key
      if key.isEmpty || norm = "p".toList || norm = "page".toList then
        { res with page := some val }
      else if norm = "pp".toList || norm = "pages".toList then
        { res with pages := some val }
      else if norm = "at".toList || norm = "location".toList || norm = "loc".toList then
        { res with atv := some val }
      else if norm = "group".toList || norm = "grp".toList || norm = "g".toList then
        { res with group := some val }
      else { res with unsupported := true })
    {}

/-- `refInfo` (closure in `collapseRefsAndRp`). -/
def refInfo (raw : Str) : Option Str × Option Str :=
  (extractAttr raw "name".toList, extractAttr raw "group".toList)

/-- `rEntriesFromR` (closure in `collapseRefsAndRp`): parse an `{{r|...}}`
token, refusing entries with unrecognized kinds, no names, or non-name
entries pointing past the name count. -/
def rEntriesFromR (raw : Str) : Option (List RTemplateEntry) :=
  match stripPrefixCI "\x7b\x7br|".toList raw with
  | none => none
  | some rest =>
    if ("\x7d\x7d".toList).isSuffixOf rest && rest.length ≥ 3 then
      let content := rest.take (rest.length - 2)
      let entries := parseRTemplateEntries content
      if entries.any (fun e => e.kind = RKind.other) then none
      else
        let nameCount := (entries.filter (fun e => e.isName)).length
        if nameCount = 0 then none
        else if entries.any (fun e => !e.isName && e.index > nameCount) then none
        else some entries
    else none

structure ChainItem where
  name : Str
  group : Option Str := none
  page : Option Str := none
  pages : Option Str := none
  atv : Option Str := none
deriving DecidableEq, Repr, Inhabited

/-- `buildChain` (closure in `collapseRefsAndRp`). -/
def buildChain (items : List ChainItem) : Str :=
  let hasDetail := items.any (fun it =>
    strTruthy it.page || strTruthy it.pages || strTruthy it.atv)
  let params := (items.enum.foldl
    (fun (acc : List Str) (p : Nat × ChainItem) =>
      let i := p.1 + 1
      let it := p.2
      let acc := acc ++ [it.name]
      let acc :=
        if strTruthy it.group then
          if hasDetail then
            acc ++ [(if i = 1 then "group=".toList
              else "group".toList ++ natToStr i ++ "=".toList) ++ it.group.getD []]
          else acc ++ ["group=".toList ++ it.group.getD []]
        else acc
      let acc :=
        if strTruthy it.page then
          acc ++ [(if i = 1 then "p=".toList
            else "p".toList ++ natToStr i ++ "=".toList) ++ it.page.getD []]
        else acc
      let acc :=
        if strTruthy it.pages then
          acc ++ [(if i = 1 then "pp=".toList
            else "pp".toList ++ natToStr i ++ "=".toList) ++ it.pages.getD []]
        else acc
      let acc :=
        if strTruthy it.atv then
          acc ++ [(if i = 1 then "loc=".toList
            else "loc".toList ++ natToStr i ++ "=".toList) ++ it.atv.getD []]
        else acc
      acc)
    [])
  "\x7b\x7br|".toList ++ List.intercalate "|".toList params ++ "\x7d\x7d".toList

/-- Replace the last element in place. -/
def updateLast {α : Type} (l : List α) (f : α → α) : List α :=
  match l.getLast? with
  | some x => l.dropLast ++ [f x]
  | none => l

/-- The token loop of `collapseRefsAndRp`'s block callback, with the
source's one-token `{{rp}}` lookahead; `chain` and `parts` are the loop's
mutable locals. -/
def chainLoopAux : Nat → List RpTok → List ChainItem → List Str → List Str
  | 0, _, chain, parts =>
    if chain.isEmpty then parts else parts ++ [buildChain chain]
  | _ + 1, [], chain, parts =>
    if chain.isEmpty then parts else parts ++ [buildChain chain]
  | fuel + 1, tok :: rest, chain, parts =>
    let look : Option RpTok × List RpTok :=
      match rest with
      | r2 :: rest2 =>
        if r2.kind = RpTokKind.rp then (some r2, rest2) else (none, rest)
      | [] => (none, [])
    let flush := fun (chain : List ChainItem) (parts : List Str) =>
      if chain.isEmpty then parts else parts ++ [buildChain chain]
    match tok.kind with
    | RpTokKind.ref =>
      let (rpTok, rest') := look
      let rpRaw := match rpTok with | some t => t.raw | none => []
      let info := refInfo tok.raw
      if !strTruthy info.1 then
        chainLoopAux fuel rest' [] (flush chain parts ++ [tok.raw ++ rpRaw])
      else
        let rp := match rpTok with | some t => parseRp t.raw | none => {}
        if rp.unsupported then
          chainLoopAux fuel rest' [] (flush chain parts ++ [tok.raw ++ rpRaw])
        else
          let item : ChainItem :=
            { name := (info.1).getD [], group := info.2,
              page := rp.page, pages := rp.pages, atv := rp.atv }
          chainLoopAux fuel rest' (chain ++ [item]) parts
    | RpTokKind.r =>
      let (rpTok, rest') := look
      let rpRaw := match rpTok with | some t => t.raw | none => []
      match rEntriesFromR tok.raw with
      | none =>
        chainLoopAux fuel rest' [] (flush chain parts ++ [tok.raw ++ rpRaw])
      | some entries =>
        let chain1 := (entries.filter (fun e => e.isName)).foldl
          (fun ch e =>
            let idx := if e.index = 0 then 1 else e.index
            let group := (entries.find? (fun en =>
              en.kind = RKind.group && en.index = idx)).map (fun en => en.value)
            let page := (entries.find? (fun en =>
              en.kind = RKind.page && en.index = idx)).map (fun en => en.value)
            let pages := (entries.find? (fun en =>
              en.kind = RKind.pages && en.index = idx)).map (fun en => en.value)
            let atv := (entries.find? (fun en =>
              en.kind = RKind.atLoc && en.index = idx)).map (fun en => en.value)
            let item : ChainItem :=
              { name := e.value, group := group, page := page,
                pages := pages, atv := atv }
            ch ++ [item])
          chain
        match rpTok with
        | some t =>
          let rp := parseRp t.raw
          if !rp.unsupported && !chain1.isEmpty then
            chainLoopAux fuel rest'
              (updateLast chain1 (fun last =>
                { last with
                  page := jsNullish rp.page last.page
                  pages := jsNullish rp.pages last.pages
                  atv := jsNullish rp.atv last.atv
                  group := jsNullish rp.group last.group }))
              parts
          else
            chainLoopAux fuel rest' [] (flush chain1 parts ++ [tok.raw ++ t.raw])
        | none => chainLoopAux fuel rest' chain1 parts
    | RpTokKind.rp =>
      chainLoopAux fuel rest [] (flush chain parts ++ [tok.raw])

/-- The block callback of `collapseRefsAndRp`'s `text.replace(chainRegex,
...)`: blocks containing a newline are returned unmodified; otherwise the
tokens are re-grouped into chained `{{r}}` templates. -/
def processBlock (block : Str) : Str :=
  if block.contains '\n' || block.contains '\r' then block
  else
    let trailingWs := (block.reverse.takeWhile jsIsSpace).reverse
    let trimmedBlock := block.take (block.length - trailingWs.length)
    let tokens := tokenize trimmedBlock
    if tokens.isEmpty then block
    else
      List.intercalate " ".toList (chainLoopAux (tokens.length + 1) tokens [] []) ++
        trailingWs

/-- One unit of the chain regex of `collapseRefsAndRp`:
`(?:<ref\b[^>]*\/>|\{\{r\|[^}]+\}\})\s*(?:\{\{rp\|[^}]+\}\}\s*)?`. -/
def matchChainUnitAt (s : Str) : Option Nat :=
  let afterTok : Option Nat :=
    match matchRefSelfSimpleAt s with
    | some n => some n
    | none => matchBraceTplAt "r" s
  match afterTok with
  | none => none
  | some n =>
    let ws1 := (s.drop n).takeWhile jsIsSpace
    let n1 := n + ws1.length
    match matchBraceTplAt "rp" (s.drop n1) with
    | some n2 =>
      let ws2 := (s.drop (n1 + n2)).takeWhile jsIsSpace
      some (n1 + n2 + ws2.length)
    | none => some n1

/-- Greedy `+` over chain units. -/
def matchChainBlockAux (s : Str) : Nat → Nat → Nat
  | 0, acc => acc
  | fuel + 1, acc =>
    match matchChainUnitAt (s.drop acc) with
    | some n => if n = 0 then acc else matchChainBlockAux s fuel (acc + n)
    | none => acc

/-- Matcher for the chain regex of `collapseRefsAndRp` (a maximal run of
adjacent self-closing-ref / `{{r}}` tokens with optional `{{rp}}`
companions). -/
def matchChainBlockAt (s : Str) : Option (Unit × Nat) :=
  let n := matchChainBlockAux s (s.length + 1) 0
  if n = 0 then none else some ((), n)

/-- `collapseRefsAndRp` (src/core/references.ts). -/
def collapseRefsAndRp (text : Str) (preferTemplateR : Bool) : Str :=
  if !preferTemplateR then text
  else replaceAll matchChainBlockAt (fun matched _ => processBlock matched) text

/-- `e.key.replace(/\d+$/, '')` plus the `hadDigits` flag of
`buildRTemplateString`. -/
def stripTrailingDigits (k : Str) : Str × Bool :=
  let base := (k.reverse.dropWhile isAsciiDigit).reverse
  (base, base.length ≠ k.length)

/-- `buildRTemplateString` (src/core/references.ts): serialize `{{r}}`
entries, optionally renumbering name indices contiguously from 1. -/
def buildRTemplateString (entries : List RTemplateEntry)
    (renameLookup : Option (Str → Option (Option Str))) (renumber : Bool) :
    Option Str :=
  if !entries.any (fun e => e.isName) then none
  else
    let nameIndexMap : List (Nat × Nat) :=
      if renumber then
        (entries.foldl
          (fun (acc : List (Nat × Nat) × Nat) e =>
            if !e.isName then acc
            else if (acc.1.find? (fun p => p.1 = e.index)).isSome then acc
            else (acc.1 ++ [(e.index, acc.2 + 1)], acc.2 + 1))
          ([], 0)).1
      else []
    let getTarget := fun (i : Nat) =>
      if renumber then
        match (nameIndexMap.find? (fun p => p.1 = i)).map Prod.snd with
        | some v => v
        | none =>
          if !nameIndexMap.isEmpty then
            (nameIndexMap.map Prod.snd).foldl max 0
          else i
      else i
    let renumKey := fun (k : Str) (targetIndex : Nat) =>
      if renumber then
        let (base, had) := stripTrailingDigits k
        if had then
          base ++ (if targetIndex > 1 then natToStr targetIndex else [])
        else base
      else k
    let parts := entries.foldl
      (fun (acc : List Str) e =>
        let targetIndex := getTarget e.index
        if e.isName then
          let val :=
            match renameLookup with
            | some f =>
              match f e.value with
              | some m => m.getD e.value
              | none => e.value
            | none => e.value
          match e.key with
          | some k => acc ++ [renumKey k targetIndex ++ "=".toList ++ val]
          | none => acc ++ [val]
        else
          match e.key with
          | some k => acc ++ [renumKey k targetIndex ++ "=".toList ++ e.value]
          | none =>
            let idxSuffix := if targetIndex > 1 then natToStr targetIndex else []
            let mappedKey : Option Str :=
              match e.kind with
              | RKind.group => some "group".toList
              | RKind.page => some ("p".toList ++ idxSuffix)
              | RKind.pages => some ("pp".toList ++ idxSuffix)
              | RKind.atLoc => some ("loc".toList ++ idxSuffix)
              | _ => none
            match mappedKey with
            | some mk => acc ++ [mk ++ "=".toList ++ e.value]
            | none => acc)
      []
    some ("\x7b\x7br|".toList ++ List.intercalate "|".toList parts ++ "\x7d\x7d".toList)

/-- `renderRTemplate` (src/core/references.ts): re-render a chained `{{r}}`
occurrence, either preserving the template form with renamed names, or
converting losslessly-representable entries to `<ref/>` (+`{{rp}}`) while
re-chaining unsupported entries with renumbered indices.  Entry identity
(the source's `Set`/`!==` on entry objects) is modelled by list position. -/
def renderRTemplate (entries : List RTemplateEntry) (arena : Arena)
    (refsMap : List (Str × Nat)) (preferTemplateR : Bool)
    (renameLookup : Str → Option (Option Str)) : Option Str :=
  let nameEntriesOnly := entries.filter (fun e => e.isName)
  if nameEntriesOnly.isEmpty then none
  else
    let resolveName := fun (raw : Str) =>
      let ref? := lookupKey refsMap (refKey (some raw) none)
      match renameLookup raw with
      | some v => v
      | none =>
        match ref? with
        | some i => (aGet arena ((aGet arena i).canonical.getD i)).name
        | none => some raw
    if preferTemplateR then
      let adjusted := entries.map (fun e =>
        if !e.isName then e
        else
          match resolveName e.value with
          | some next => if next.isEmpty then e else { e with value := next }
          | none => e)
      buildRTemplateString adjusted none false
    else
      let idxed := entries.enum
      let mapEntry := fun (p : Nat × RTemplateEntry) =>
        if !p.2.isName then p.2
        else
          match resolveName p.2.value with
          | some next => if next.isEmpty then p.2 else { p.2 with value := next }
          | none => p.2
      let nameEntries := idxed.filter (fun p => p.2.isName)
      let step := fun (acc : List Str × List Nat × List RTemplateEntry)
          (pe : Nat × (Nat × RTemplateEntry)) =>
        let (segments, used, pending) := acc
        let (nameIdx, pos, e) := pe
        let idxNum := if e.index = 0 then nameIdx + 1 else e.index
        let relevant := idxed.filter (fun q =>
          q.2.index = idxNum && !used.contains q.1)
        let withoutName := relevant.filter (fun q => q.1 ≠ pos)
        let orderedRelevant := (pos, e) :: withoutName
        let mappedRelevant := relevant.map mapEntry
        let hasUnsupported := mappedRelevant.any (fun en => en.kind = RKind.other)
        let target := resolveName e.value
        if !strTruthy target then acc
        else if hasUnsupported then
          (segments, used ++ orderedRelevant.map Prod.fst,
            pending ++ orderedRelevant.map mapEntry)
        else
          let (segments, pending) :=
            if pending.isEmpty then (segments, pending)
            else
              match buildRTemplateString pending none true with
              | some t => (segments ++ [t], ([] : List RTemplateEntry))
              | none => (segments, ([] : List RTemplateEntry))
          let group := (mappedRelevant.find? (fun r =>
            r.kind = RKind.group && r.index = idxNum)).map (fun r => r.value)
          let page := (mappedRelevant.find? (fun r =>
            r.kind = RKind.page && r.index = idxNum)).map (fun r => r.value)
          let pagesEntry := mappedRelevant.find? (fun r =>
            r.kind = RKind.pages && r.index = idxNum)
          let pages := pagesEntry.map (fun r => r.value)
          let pagesLabel :=
            match pagesEntry with
            | some pe' =>
              match pe'.key with
              | some k =>
                if !k.isEmpty && ("pages".toList).isPrefixOf (lcStr k) then
                  "pages".toList
                else "pp".toList
              | none => "pp".toList
            | none => "pp".toList
          let atv := (mappedRelevant.find? (fun r =>
            r.kind = RKind.atLoc && r.index = idxNum)).map (fun r => r.value)
          let chunk := renderRefSelf target group false
          let rpParts :=
            (if strTruthy page then ["p=".toList ++ page.getD []] else []) ++
            (if strTruthy pages then [pagesLabel ++ "=".toList ++ pages.getD []] else []) ++
            (if strTruthy atv then ["at=".toList ++ atv.getD []] else [])
          let chunk :=
            if rpParts.isEmpty then chunk
            else chunk ++ "\x7b\x7brp|".toList ++
              List.intercalate "|".toList rpParts ++ "\x7d\x7d".toList
          (segments ++ [chunk], used ++ orderedRelevant.map Prod.fst, pending)
      let (segments, used, pending) := nameEntries.enum.foldl step ([], [], [])
      let pending :=
        if !pending.isEmpty then
          pending ++ (idxed.filter (fun q => !used.contains q.1)).map Prod.snd
        else pending
      let segments :=
        if pending.isEmpty then segments
        else
          match buildRTemplateString pending none true with
          | some t => segments ++ [t]
          | none => segments
      if segments.isEmpty then none
      else some (List.intercalate " ".toList segments)

/-- The option projections of `buildReplacementPlan`. -/
structure PlanOpts where
  useTemplateR : Bool
  sortRefs : Bool
  normalizeAll : Bool
  locationModeKeep : Bool
deriving DecidableEq, Repr

/-- The per-use body of `buildReplacementPlan`'s `ref.uses.forEach` loop:
returns the replacement (at most one) and the `movedInline` / `movedLdr`
contributions for one use.  `templateR` uses are skipped (the whole
template's span is replaced via the `rTemplates` pass); under `keep` with no
shorthand preference, no normalization and an unchanged name/group/content,
no replacement is emitted. -/
def planUseStep (opts : PlanOpts) (ref : RefRecord) (refIdx canonIdx : Nat)
    (targetName : Option Str) (targetLocation : RefLoc) (content : Option Str)
    (use : RefUseInternal) (useIdx : Nat) :
    List Replacement × List Str × List Str :=
  if use.kind = RefUseKind.templateR && use.rTemplateId.isSome then ([], [], [])
  else
    let isDefinition := ref.definitions.contains use
    let canonicalContent := content.getD []
    if opts.locationModeKeep && !opts.useTemplateR && !opts.normalizeAll &&
        targetName = use.name && ref.group = use.group &&
        ((use.kind = RefUseKind.full && some canonicalContent = use.content) ||
          use.kind ≠ RefUseKind.full) then
      ([], [], [])
    else
      let (repl, movedI) :=
        if targetLocation = RefLoc.inline && canonIdx = refIdx && useIdx = 0 &&
            !canonicalContent.isEmpty then
          ([⟨use.start, use.stop,
            renderRefTag targetName ref.group canonicalContent opts.normalizeAll⟩],
            if strTruthy targetName then [targetName.getD []] else [])
        else
          ([⟨use.start, use.stop,
            renderRefSelf targetName ref.group opts.useTemplateR⟩], [])
      let movedL :=
        if isDefinition && targetLocation = RefLoc.ldr && strTruthy targetName then
          [targetName.getD []]
        else []
      (repl, movedI, movedL)

/-- The per-definition body of `buildReplacementPlan`'s
`ref.ldrDefinitions.forEach` loop (reached only under `keep`): skip when
nothing about the definition changed and no re-rendering option is active. -/
def planLdrDefStep (opts : PlanOpts) (ref : RefRecord) (targetName : Option Str)
    (ldrDef : RefUseInternal) : List Replacement × List Str :=
  let content := ldrDef.content.getD []
  let targetGroup := jsNullish ldrDef.group ref.group
  if !opts.useTemplateR && !opts.normalizeAll && targetName = ldrDef.name &&
      targetGroup = ldrDef.group then
    ([], [])
  else
    let rendered :=
      if !content.isEmpty then
        renderRefTag targetName targetGroup content opts.normalizeAll
      else renderRefSelf targetName targetGroup opts.useTemplateR
    ([⟨ldrDef.start, ldrDef.stop, rendered⟩],
      if strTruthy targetName then [targetName.getD []] else [])

structure PlanResult where
  replacements : List Replacement
  movedInline : List Str
  movedLdr : List Str
deriving DecidableEq, Repr

/-- `buildReplacementPlan` (src/core/references.ts): `{{r}}` template
replacements, per-use replacements, and (when the location mode is not
`keep`) the output-list rebuild and standalone-list append; finally
de-duplicated by span. -/
def buildReplacementPlan (ctx : ParseCtx) (opts : PlanOpts)
    (renameLookup : Str → Option (Option Str)) : PlanResult :=
  let rRepls := ctx.rTemplates.foldl
    (fun acc tpl =>
      match renderRTemplate tpl.entries ctx.arena ctx.refsMap
          opts.useTemplateR renameLookup with
      | some rendered => acc ++ [⟨tpl.start, tpl.stop, rendered⟩]
      | none => acc)
    ([] : List Replacement)
  let (refRepls, movedInline, movedLdr) := (refIterator ctx.refsMap).foldl
    (fun (acc : List Replacement × List Str × List Str) i =>
      let (repls, movedI, movedL) := acc
      let ref := aGet ctx.arena i
      let canonIdx := ref.canonical.getD i
      let canonical := aGet ctx.arena canonIdx
      let targetName := jsNullish canonical.name ref.name
      let targetLocation := canonical.targetLocation
      let content := firstContent canonical
      let (repls, movedI, movedL) := (ref.uses.enum.foldl
        (fun (acc2 : List Replacement × List Str × List Str)
            (u : Nat × RefUseInternal) =>
          let (r2, mi2, ml2) := acc2
          let (r3, mi3, ml3) := planUseStep opts ref i canonIdx targetName
            targetLocation content u.2 u.1
          (r2 ++ r3, mi2 ++ mi3, ml2 ++ ml3))
        (repls, movedI, movedL))
      if opts.locationModeKeep && ref.ldrDefinitions.length > 0 then
        ref.ldrDefinitions.foldl
          (fun (acc2 : List Replacement × List Str × List Str) d =>
            let (r2, mi2, ml2) := acc2
            let (r3, ml3) := planLdrDefStep opts ref targetName d
            (r2 ++ r3, mi2, ml2 ++ ml3))
          (repls, movedI, movedL)
      else (repls, movedI, movedL))
    ([], [], [])
  let (tplRepls, appendRepls) :=
    if !opts.locationModeKeep then
      let ldrEntries := buildLdrEntries ctx.arena ctx.refsMap
      let tplRepls := ctx.templates.foldl
        (fun acc tpl =>
          let updated := updateReflistTemplate tpl ldrEntries opts.sortRefs
          if updated ≠ tpl.content then acc ++ [⟨tpl.start, tpl.stop, updated⟩]
          else acc)
        ([] : List Replacement)
      let appendRepls : List Replacement :=
        if ldrEntries.length > 0 && ctx.templates.isEmpty then
          [⟨MAX_SAFE_INTEGER, MAX_SAFE_INTEGER,
            buildStandaloneReflist ldrEntries opts.sortRefs⟩]
        else []
      (tplRepls, appendRepls)
    else ([], [])
  { replacements :=
      collapseReplacements (rRepls ++ refRepls ++ tplRepls ++ appendRepls),
    movedInline := movedInline,
    movedLdr := movedLdr }

/-- `TransformOptions` (src/core/references.ts).  Record values of type
`string | null` that might also be `undefined` are modelled as
`Option (Option Str)` (outer `none` = `undefined`, `some none` = `null`);
optional fields are `Option`s with `none` for `undefined`. -/
structure TransformOptions where
  renameMap : List (Str × Option (Option Str)) := []
  renameNameless : List (Str × Option (Option Str)) := []
  dedupe : Option Bool := none
  locationMode : Option LocationMode := none
  sortRefs : Option Bool := none
  useTemplateR : Option Bool := none
  reflistTemplates : Option (List Str) := none
  normalizeAll : Option Bool := none
deriving Repr, Inhabited

structure TransformChanges where
  renamed : List (Str × Option Str)
  deduped : List (Str × Str)
  movedToLdr : List Str
  movedToInline : List Str
deriving DecidableEq, Repr

structure TransformResult where
  wikitext : Str
  changes : TransformChanges
  warnings : List Str
deriving DecidableEq, Repr

def DEFAULT_REFLIST_TEMPLATES : List Str :=
  ["reflist".toList, "references".toList]

/-- `normalizeLocationMode` (src/core/references.ts). -/
def normalizeLocationMode (mode : Option LocationMode) : LocationMode :=
  match mode with
  | some LocationMode.keep => LocationMode.keep
  | none => LocationMode.keep
  | some LocationMode.all_inline => LocationMode.all_inline
  | some LocationMode.all_ldr => LocationMode.all_ldr
  | some (LocationMode.threshold n) =>
    if n ≥ 1 then LocationMode.threshold n else LocationMode.threshold 2

/-- `normalizeRenameMap` (src/core/references.ts): drop empty keys,
`undefined` values and identity entries; later duplicate keys overwrite
earlier ones (JS object assignment). -/
def normalizeRenameMap (rename : List (Str × Option (Option Str))) :
    List (Str × Option Str) :=
  rename.foldl
    (fun map kv =>
      let (k, v) := kv
      if k.isEmpty then map
      else
        match v with
        | none => map
        | some w => if w = some k then map else mapSet map k w)
    []

/-- `transformWikitext` (src/core/references.ts): the full pipeline —
parse, normalize keys, rename, re-normalize keys, optional dedupe, location
assignment, replacement planning, replacement application, and the final
`{{r}}` collapse pass when the shorthand is preferred. -/
def transformWikitext (wikitext : Str) (options : TransformOptions := {}) :
    TransformResult :=
  let warnings : List Str := []
  let renameMap := normalizeRenameMap options.renameMap
  let renameNameless := options.renameNameless
  let dedupe := options.dedupe.getD false
  let sortRefs := options.sortRefs.getD false
  let useTemplateR := options.useTemplateR.getD false
  let normalizeAll := options.normalizeAll.getD false
  let reflistNames :=
    (match options.reflistTemplates with
     | some l => if l.length > 0 then l else DEFAULT_REFLIST_TEMPLATES
     | none => DEFAULT_REFLIST_TEMPLATES).map lcStr
  let targetMode := normalizeLocationMode options.locationMode
  let ctx0 := parseWikitext wikitext reflistNames
  let (arena1, map1) := normalizeRefKeys ctx0.arena ctx0.refsMap
  let arena2 := applyRenames arena1 map1 renameMap renameNameless
  let (arena3, map3) := normalizeRefKeys arena2 map1
  let (arena4, deduped) :=
    if dedupe then applyDedupe arena3 map3 else (arena3, [])
  let arena5 := assignLocations arena4 map3 targetMode
  let ctx : ParseCtx := ⟨arena5, map3, ctx0.templates, ctx0.rTemplates⟩
  let plan := buildReplacementPlan ctx
    { useTemplateR := useTemplateR, sortRefs := sortRefs,
      normalizeAll := normalizeAll,
      locationModeKeep := targetMode = LocationMode.keep }
    (fun name => lookupKey renameMap name)
  let replaced := applyReplacements wikitext plan.replacements
  let finalText := if useTemplateR then collapseRefsAndRp replaced true else replaced
  { wikitext := finalText
    changes :=
      { renamed := renameMap
        deduped := deduped
        movedToInline := plan.movedInline
        movedToLdr := plan.movedLdr }
    warnings := warnings }

/-! ### The read-only extractor `parseReferences`

`parseReferences` (src/core/references.ts, lines 12–75) funnels every
occurrence found by its three regex passes — self-closing tags, full tags,
and `{{r}}` name entries, in that pass order — through its `getOrCreateRef`
closure, passing `(name, group, content)` where `content` is the trimmed
body for full tags and `''` otherwise.  The closure (and therefore the
identity resolution and content retention of `parseReferences`) is embedded
here verbatim over that occurrence stream. -/

structure PUse where
  index : Nat
deriving DecidableEq, Repr

/-- The public `Reference` shape (src/types.ts), without the DOM anchor. -/
structure Reference where
  id : Str
  name : Option Str
  group : Option Str
  contentWikitext : Str
  uses : List PUse
deriving DecidableEq, Repr

/-- One occurrence handed to `getOrCreateRef`, in scan order. -/
structure ParsedOcc where
  name : Option Str
  group : Option Str
  content : Str
deriving DecidableEq, Repr

/-- The key computation of `getOrCreateRef`:
`name ?? \`__nameless_${namelessCounter++}\`` (nullish — an empty-string
name is kept as the key). -/
def getOrCreateKey (name : Option Str) (counter : Nat) : Str × Nat :=
  match name with
  | some n => (n, counter)
  | none => (namelessKey counter, counter + 1)

/-- One `getOrCreateRef` call plus the caller's `uses.push`. -/
def parseReferencesStep (st : List (Str × Reference) × Nat) (occ : ParsedOcc) :
    List (Str × Reference) × Nat :=
  let (refs, counter) := st
  let (key, counter') := getOrCreateKey occ.name counter
  match lookupKey refs key with
  | some existing =>
    let updated :=
      if !occ.content.isEmpty && existing.contentWikitext.isEmpty then
        { existing with contentWikitext := occ.content }
      else existing
    let updated := { updated with uses := updated.uses ++ [⟨updated.uses.length⟩] }
    (mapSet refs key updated, counter')
  | none =>
    let ref : Reference :=
      { id := key, name := occ.name, group := occ.group,
        contentWikitext := occ.content, uses := [⟨0⟩] }
    (refs ++ [(key, ref)], counter')

/-- The body of `parseReferences` over its occurrence stream:
`Array.from(refs.values())`. -/
def parseReferencesOccs (occs : List ParsedOcc) : List Reference :=
  ((occs.foldl parseReferencesStep ([], 0)).1).map Prod.snd

/-- One step of `parseReferencesTrace`: run the `getOrCreateRef` step and
record the key it resolved to. -/
def parseTraceStep (acc : (List (Str × Reference) × Nat) × List Str)
    (occ : ParsedOcc) : (List (Str × Reference) × Nat) × List Str :=
  let (st, ks) := acc
  let (key, _) := getOrCreateKey occ.name st.2
  (parseReferencesStep st occ, ks ++ [key])

/-- The identity key each occurrence resolves to, in scan order. -/
def parseReferencesTrace (occs : List ParsedOcc) : List Str :=
  (occs.foldl parseTraceStep (([], 0), [])).2

/-! ### Specification-side comparison definitions

The definitions below are not translations of source functions: each states,
in an independent formulation, what a spec sentence asserts, to be compared
with the corresponding source-translated definition by a theorem. -/

/-- Substitute one span of the original string, independently of any other
replacement (the replacement-applier contract's right-hand side). -/
def substOne (r : Replacement) (s : Str) : Str :=
  s.take r.start ++ r.text ++ s.drop r.stop

/-- All spans independently substituted, rightmost first so that earlier
spans keep their original coordinates. -/
def substAll (rs : List Replacement) (s : Str) : Str :=
  rs.foldr substOne s

/-- The spans of `rs` are pairwise non-overlapping, listed in ascending
order, starting at or after `lo` and ending at or before `hi`. -/
def Chained (lo hi : Nat) : List Replacement → Prop
  | [] => True
  | r :: rest => lo ≤ r.start ∧ r.start ≤ r.stop ∧ r.stop ≤ hi ∧ Chained r.stop hi rest

/-- Left-to-right piecewise reading of a chained replacement list. -/
def piecewise (s : Str) : Nat → List Replacement → Str
  | lo, [] => s.drop lo
  | lo, r :: rest => (s.drop lo).take (r.start - lo) ++ r.text ++ piecewise s r.stop rest

/-- The location the spec's words assign to a canonical record: under `keep`
the existing inline/list-defined split; otherwise unnamed records inline,
`all_inline`/`all_ldr` as named, and the threshold policy by aggregated use
count. -/
def locationSpec (arena : Arena) (refsMap : List (Str × Nat))
    (mode : LocationMode) (c : Nat) : RefLoc :=
  match mode with
  | LocationMode.keep =>
    if (aGet arena c).ldrDefinitions.length > 0 then RefLoc.ldr else RefLoc.inline
  | LocationMode.all_inline => RefLoc.inline
  | LocationMode.all_ldr =>
    if !strTruthy (aGet arena c).name then RefLoc.inline else RefLoc.ldr
  | LocationMode.threshold n =>
    if !strTruthy (aGet arena c).name then RefLoc.inline
    else if (aggregateUses arena refsMap c).length ≥ n then RefLoc.ldr
    else RefLoc.inline

/-- Is a record eligible for dedupe, and under which whitespace-normalized
content key? (Named, with non-empty first content.) -/
def dedupeEligible (arena : Arena) (i : Nat) : Option Str :=
  match firstContent (aGet arena i) with
  | none => none
  | some c =>
    if c.isEmpty || !strTruthy (aGet arena i).name then none
    else some (normalizeContent c)

/-- The dedupe pairs the spec's words describe: every eligible record that
has an eligible predecessor (in iteration order) with the same normalized
content reports `{from := its name, to := the first such predecessor's
name}`. -/
def dedupeSpecPairs (arena : Arena) (order : List Nat) : List (Str × Str) :=
  order.enum.filterMap (fun p =>
    match dedupeEligible arena p.2 with
    | none => none
    | some nc =>
      match (order.take p.1).find? (fun j => dedupeEligible arena j = some nc) with
      | some j =>
        some ((aGet arena p.2).name.getD [], (aGet arena j).name.getD [])
      | none => none)

/-- The first predecessor an eligible record dedupes into. -/
def dedupeSpecTarget (arena : Arena) (order : List Nat) (p : Nat) : Option Nat :=
  match order[p]? with
  | none => none
  | some i =>
    match dedupeEligible arena i with
    | none => none
    | some nc => (order.take p).find? (fun j => dedupeEligible arena j = some nc)

/-- The key each occurrence resolves to in `parseReferences`, stated
structurally: a named occurrence keys by its name alone, an unnamed one by
the count of unnamed occurrences before it. -/
def traceSpec : List ParsedOcc → Nat → List Str
  | [], _ => []
  | occ :: rest, c =>
    match occ.name with
    | some n => n :: traceSpec rest c
    | none => namelessKey c :: traceSpec rest (c + 1)

/-- The contents handed to `getOrCreateRef` under a given key, in scan
order. -/
def keyContents (occs : List ParsedOcc) (k : Str) : List Str :=
  ((occs.zip (traceSpec occs 0)).filter (fun p => p.2 = k)).map (fun p => p.1.content)

/-- First non-empty content of a content stream (the spec's retained
content). -/
def contentSpec (cs : List Str) : Str :=
  (cs.find? (fun c => !c.isEmpty)).getD []

/-- Every field of a record except `targetLocation` (used to state that a
pass mutates only target locations). -/
def coreOf (r : RefRecord) : Str × Option Str × Option Str × Str ×
    List RefUseInternal × List RefUseInternal × List RefUseInternal × Option Nat :=
  (r.id, r.name, r.group, r.key, r.definitions, r.uses, r.ldrDefinitions, r.canonical)


/-- Invariant for the `assignLocations` fold: the non-location core of every
record is preserved and every processed canonical already carries its spec
location. -/
def LocInv (arena0 : Arena) (refsMap : List (Str × Nat)) (mode : LocationMode)
    (st : Arena × List Nat) : Prop :=
  (∀ k, coreOf (aGet st.1 k) = coreOf (aGet arena0 k)) ∧
  (∀ x ∈ st.2, (aGet st.1 x).targetLocation = locationSpec arena0 refsMap mode x)

/-- Concrete single-record arena exercising the threshold policy. -/
def w5use : RefUseInternal :=
  { name := some "x".toList
    group := none
    start := 0
    stop := 5
    kind := RefUseKind.full }

def w5rec : RefRecord :=
  { id := "w".toList
    name := some "x".toList
    group := none
    key := "::x".toList
    definitions := [w5use]
    uses := [w5use]
    ldrDefinitions := []
    canonical := none
    targetLocation := RefLoc.inline }

/-- The key the next occurrence resolves to, given the occurrences already
scanned. -/
def nextKey (occs : List ParsedOcc) (occ : ParsedOcc) : Str :=
  match occ.name with
  | some n => n
  | none => namelessKey (occs.countP (fun o => o.name.isNone))

/-- Invariant of the `parseReferences` fold: the nameless counter counts the
unnamed occurrences scanned, each stored reference carries the first
non-empty content seen under its key, and every key that has occurred is
stored. -/
def PRInv (done : List ParsedOcc) (st : List (Str × Reference) × Nat) : Prop :=
  st.2 = done.countP (fun o => o.name.isNone) ∧
  (∀ p ∈ st.1, p.2.id = p.1 ∧
    p.2.contentWikitext = contentSpec (keyContents done p.1)) ∧
  (∀ k ∈ traceSpec done 0, ∃ p ∈ st.1, p.1 = k)

def w8occs : List ParsedOcc :=
  [{ name := some "x".toList, group := none, content := "A".toList },
   { name := some "x".toList, group := none, content := "B".toList }]

def w8ref : Reference :=
  { id := "x".toList
    name := some "x".toList
    group := none
    contentWikitext := "A".toList
    uses := [⟨0⟩, ⟨1⟩] }

def w8d1 : RefUseInternal :=
  { name := some "x".toList
    group := none
    start := 0
    stop := 3
    kind := RefUseKind.full
    content := some "A".toList }

def w8d2 : RefUseInternal :=
  { name := some "x".toList
    group := none
    start := 10
    stop := 13
    kind := RefUseKind.full
    content := some "B".toList }

def w8recD : RefRecord :=
  { id := "w".toList
    name := some "x".toList
    group := none
    key := "::x".toList
    definitions := [w8d1]
    uses := []
    ldrDefinitions := []
    canonical := none
    targetLocation := RefLoc.inline }

def w2st : BuildSt :=
  { arena := []
    refsMap := [("g::x".toList, 0)]
    namelessCounter := 0 }

def w2rec : RefRecord :=
  { id := "u".toList
    name := none
    group := none
    key := "__nameless_0".toList
    definitions := []
    uses := []
    ldrDefinitions := []
    canonical := none
    targetLocation := RefLoc.inline }

/-- Invariant of the `applyDedupe` fold over the processed prefix `done` of
the iteration order: unvisited records are untouched, names are never
changed, the content map holds the first eligible index per normalized
content, the change list matches the spec pairs, and every visited record's
canonical pointer matches the spec target. -/
def DInv (arena0 : Arena) (done : List Nat)
    (acc : Arena × List (Str × Nat) × List (Str × Str)) : Prop :=
  (∀ k, k ∉ done → aGet acc.1 k = aGet arena0 k) ∧
  (∀ k, (aGet acc.1 k).name = (aGet arena0 k).name) ∧
  (∀ s : Str, lookupKey acc.2.1 s =
    done.find? (fun j => dedupeEligible arena0 j = some s)) ∧
  acc.2.2 = dedupeSpecPairs arena0 done ∧
  (∀ k ∈ done, (aGet acc.1 k).canonical =
    (match dedupeEligible arena0 k with
     | none => (aGet arena0 k).canonical
     | some nc =>
       some ((done.find? (fun j => dedupeEligible arena0 j = some nc)).getD k)))

def w4d : RefUseInternal :=
  { name := some "x".toList
    group := none
    start := 0
    stop := 3
    kind := RefUseKind.full
    content := some "S".toList }

def w4a : RefRecord :=
  { id := "a".toList
    name := some "x".toList
    group := none
    key := "::x".toList
    definitions := [w4d]
    uses := []
    ldrDefinitions := []
    canonical := none
    targetLocation := RefLoc.inline }

def w4b : RefRecord :=
  { id := "b".toList
    name := some "y".toList
    group := none
    key := "::y".toList
    definitions := [w4d]
    uses := []
    ldrDefinitions := []
    canonical := none
    targetLocation := RefLoc.inline }

def w4u : RefRecord :=
  { id := "c".toList
    name := none
    group := none
    key := "__nameless_0".toList
    definitions := []
    uses := []
    ldrDefinitions := []
    canonical := none
    targetLocation := RefLoc.inline }

def w4arena : Arena := [w4a, w4b, w4u]

def w4map : List (Str × Nat) :=
  [("::x".toList, 0), ("::y".toList, 1), ("__nameless_0".toList, 2)]

/-! ## Helper lemmas -/

theorem mem_mapSet {α : Type} (m : List (Str × α)) (k : Str) (v : α) (p : Str × α)
    (hp : p ∈ mapSet m k v) : p ∈ m ∨ p = (k, v) := by
  unfold mapSet at hp
  split at hp
  · rcases List.mem_map.1 hp with ⟨q, hq, hfq⟩
    by_cases h : q.1 = k
    · right
      rw [if_pos h] at hfq
      rw [← hfq, h]
    · left
      rw [if_neg h] at hfq
      rwa [← hfq]
  · rcases List.mem_append.1 hp with h | h
    · exact Or.inl h
    · right
      simpa using h

theorem mem_normalizeRenameMap_aux (l : List (Str × Option (Option Str)))
    (map : List (Str × Option Str)) (p : Str × Option Str)
    (hp : p ∈ l.foldl
      (fun map kv =>
        let (k, v) := kv
        if k.isEmpty then map
        else
          match v with
          | none => map
          | some w => if w = some k then map else mapSet map k w)
      map) :
    p ∈ map ∨ (p.1.isEmpty = false ∧ p.2 ≠ some p.1 ∧ (p.1, some p.2) ∈ l) := by
  induction l generalizing map with
  | nil => exact Or.inl hp
  | cons kv l' ih =>
    obtain ⟨k, v⟩ := kv
    rcases ih _ hp with h | h
    · by_cases hk : k.isEmpty
      · simp [hk] at h
        exact Or.inl h
      · match v with
        | none =>
          simp [hk] at h
          exact Or.inl h
        | some w =>
          by_cases hw : w = some k
          · simp [hk, hw] at h
            exact Or.inl h
          · simp [hk, hw] at h
            rcases mem_mapSet _ _ _ _ h with h2 | h2
            · exact Or.inl h2
            · right
              subst h2
              refine ⟨by simpa using hk, ?_, ?_⟩
              · simpa using hw
              · exact List.mem_cons_self _ _
    · right
      exact ⟨h.1, h.2.1, List.mem_cons_of_mem _ h.2.2⟩

theorem mem_normalizeRenameMap (rename : List (Str × Option (Option Str)))
    (p : Str × Option Str) (hp : p ∈ normalizeRenameMap rename) :
    p.1.isEmpty = false ∧ p.2 ≠ some p.1 ∧ (p.1, some p.2) ∈ rename := by
  rcases mem_normalizeRenameMap_aux rename [] p hp with h | h
  · simp at h
  · exact h

theorem keep_skip_use (opts : PlanOpts) (ref : RefRecord) (refIdx canonIdx : Nat)
    (targetName : Option Str) (targetLocation : RefLoc) (content : Option Str)
    (use : RefUseInternal) (useIdx : Nat)
    (hkeep : opts.locationModeKeep = true) (htr : opts.useTemplateR = false)
    (hnorm : opts.normalizeAll = false) (hname : targetName = use.name)
    (hgroup : ref.group = use.group)
    (hcontent : use.kind = RefUseKind.full → use.content = some (content.getD [])) :
    planUseStep opts ref refIdx canonIdx targetName targetLocation content use useIdx
      = ([], [], []) := by
  unfold planUseStep
  split
  · rfl
  · rw [if_pos]
    rcases hk : use.kind with _ | _ | _
    · simp [hkeep, htr, hnorm, hname, hgroup, hk]
    · simp [hkeep, htr, hnorm, hname, hgroup, hk, hcontent hk]
    · simp [hkeep, htr, hnorm, hname, hgroup, hk]

theorem keep_skip_ldr (opts : PlanOpts) (ref : RefRecord) (targetName : Option Str)
    (d : RefUseInternal)
    (htr : opts.useTemplateR = false) (hnorm : opts.normalizeAll = false)
    (hname : targetName = d.name) (hgroup : jsNullish d.group ref.group = d.group) :
    planLdrDefStep opts ref targetName d = ([], []) := by
  unfold planLdrDefStep
  rw [if_pos]
  simp [htr, hnorm, hname, hgroup]

theorem processBlock_newline (block : Str)
    (h : block.contains '\n' = true ∨ block.contains '\r' = true) :
    processBlock block = block := by
  have h' : (block.contains '\n' || block.contains '\r') = true := by
    rcases h with h | h <;> simp at h <;> simp [h]
  unfold processBlock
  rw [if_pos h']

theorem chainLoop_parts_mono (fuel : Nat) :
    ∀ (toks : List RpTok) (chain : List ChainItem) (parts : List Str) (p : Str),
      p ∈ parts → p ∈ chainLoopAux fuel toks chain parts := by
  induction fuel with
  | zero =>
    intro toks chain parts p hp
    unfold chainLoopAux
    split <;> simp [hp]
  | succ n ih =>
    intro toks chain parts p hp
    match toks with
    | [] =>
      unfold chainLoopAux
      split <;> simp [hp]
    | tok :: rest =>
      unfold chainLoopAux
      rcases tok.kind with _ | _ | _ <;>
        (simp only []
         repeat' split) <;>
        exact ih _ _ _ p (by simp [hp])

theorem chainLoop_offender_verbatim (fuel : Nat) (t r : RpTok) (rest : List RpTok)
    (chain : List ChainItem) (parts : List Str)
    (ht : t.kind = RpTokKind.ref) (hr : r.kind = RpTokKind.rp)
    (hname : strTruthy (refInfo t.raw).1 = true)
    (hunsup : (parseRp r.raw).unsupported = true) :
    (t.raw ++ r.raw) ∈ chainLoopAux (fuel + 1) (t :: r :: rest) chain parts := by
  unfold chainLoopAux
  rw [ht]
  have hmem := chainLoop_parts_mono fuel rest []
    ((if chain.isEmpty = true then parts else parts ++ [buildChain chain]) ++
      [t.raw ++ r.raw]) (t.raw ++ r.raw) (by simp)
  simpa [hr, hname, hunsup] using hmem

theorem length_takeWhile_le' {α : Type} (p : α → Bool) (l : List α) :
    (l.takeWhile p).length ≤ l.length := by
  induction l with
  | nil => simp
  | cons a as ih =>
    rw [List.takeWhile_cons]
    split
    · simp
      omega
    · simp

theorem indexOfFromAux_bound (hay needle : Str) :
    ∀ (fuel i idx : Nat), indexOfFromAux hay needle fuel i = some idx →
      idx + needle.length ≤ hay.length := by
  intro fuel
  induction fuel with
  | zero => intro i idx h; simp [indexOfFromAux] at h
  | succ n ih =>
    intro i idx h
    unfold indexOfFromAux at h
    split at h
    · split at h
      · cases h; assumption
      · exact ih _ _ h
    · cases h

theorem braceScanGo_bound (source : Str) :
    ∀ (fuel k depth k' : Nat), k ≤ source.length →
      braceScanGo source fuel k depth = some k' →
      k ≤ k' ∧ k' ≤ source.length := by
  intro fuel
  induction fuel with
  | zero => intro k depth k' hk h; simp [braceScanGo] at h
  | succ n ih =>
    intro k depth k' hk h
    unfold braceScanGo at h
    split at h
    · rename_i hcond
      split at h
      · rename_i hbr
        have h1 : k + 1 < source.length := by
          simp only [Bool.and_eq_true, decide_eq_true_eq] at hbr
          rcases hbr with ⟨hb1, hb2⟩
          by_contra hgt
          push_neg at hgt
          rw [List.getElem?_eq_none_iff.mpr hgt] at hb2
          cases hb2
        have := ih (k + 2) _ k' (by omega) h
        omega
      · split at h
        · rename_i hbr
          have h1 : k + 1 < source.length := by
            simp only [Bool.and_eq_true, decide_eq_true_eq] at hbr
            rcases hbr with ⟨hb1, hb2⟩
            by_contra hgt
            push_neg at hgt
            rw [List.getElem?_eq_none_iff.mpr hgt] at hb2
            cases hb2
          have := ih (k + 2) _ k' (by omega) h
          omega
        · have hlt : k < source.length := by
            simp at hcond
            exact hcond.1
          have := ih (k + 1) _ k' (by omega) h
          omega
    · split at h
      · cases h; omega
      · cases h

theorem findTemplatesGo_bounds (source : Str) (lowerNames : List Str) :
    ∀ (fuel i : Nat) (m : TemplateMatch),
      m ∈ findTemplatesGo source lowerNames fuel i →
      m.start ≤ m.stop ∧ m.stop ≤ source.length := by
  intro fuel
  induction fuel with
  | zero => intro i m hm; simp [findTemplatesGo] at hm
  | succ n ih =>
    intro i m hm
    unfold findTemplatesGo at hm
    split at hm
    · simp at hm
    · rename_i idx hidx
      dsimp only at hm
      split at hm
      · exact ih _ m hm
      · split at hm
        · exact ih _ m hm
        · rename_i k hk
          rcases List.mem_cons.1 hm with h | h
          · subst h
            unfold indexOfFrom at hidx
            have hidx2 := indexOfFromAux_bound source ("\x7b\x7b".toList) _ _ _ hidx
            have hlen2 : ("\x7b\x7b".toList : Str).length = 2 := rfl
            rw [hlen2] at hidx2
            have hws : ((source.drop (idx + 2)).takeWhile jsIsSpace).length ≤
                source.length - (idx + 2) := by
              calc ((source.drop (idx + 2)).takeWhile jsIsSpace).length
                  ≤ (source.drop (idx + 2)).length := length_takeWhile_le' _ _
                _ = source.length - (idx + 2) := List.length_drop _ _
            have hnc : ∀ j : Nat, ((source.drop j).takeWhile isTplNameChar).length ≤
                source.length - j := by
              intro j
              calc ((source.drop j).takeWhile isTplNameChar).length
                  ≤ (source.drop j).length := length_takeWhile_le' _ _
                _ = source.length - j := List.length_drop _ _
            have hne : idx + 2 + ((source.drop (idx + 2)).takeWhile jsIsSpace).length +
                ((source.drop (idx + 2 + ((source.drop (idx + 2)).takeWhile jsIsSpace).length)).takeWhile
                  isTplNameChar).length ≤ source.length := by
              have := hnc (idx + 2 + ((source.drop (idx + 2)).takeWhile jsIsSpace).length)
              omega
            have hbs := braceScanGo_bound source _ _ _ _ hne hk
            constructor
            · simp only []
              omega
            · simp only []
              exact hbs.2
          · exact ih _ m h

theorem findTemplates_bounds (source : Str) (names : List Str) (m : TemplateMatch)
    (hm : m ∈ findTemplates source names) :
    m.start ≤ m.stop ∧ m.stop ≤ source.length :=
  findTemplatesGo_bounds source (names.map lcStr) _ _ m hm

theorem insertLE_append {α : Type} (le : α → α → Bool) (x : α) (acc : List α)
    (h : ∀ y ∈ acc, le y x = true) : insertLE le x acc = acc ++ [x] := by
  induction acc with
  | nil => rfl
  | cons a as ih =>
    unfold insertLE
    rw [h a (by simp)]
    simp only [if_true]
    rw [ih (fun y hy => h y (by simp [hy]))]
    rfl

theorem stableSortBy_sorted_id_aux {α : Type} (le : α → α → Bool) :
    ∀ (l acc : List α), l.Pairwise (fun a b => le a b = true) →
      (∀ x ∈ l, ∀ y ∈ acc, le y x = true) →
      l.foldl (fun acc x => insertLE le x acc) acc = acc ++ l := by
  intro l
  induction l with
  | nil => intro acc _ _; simp
  | cons x l' ih =>
    intro acc hpw hcross
    simp only [List.foldl_cons]
    rw [insertLE_append le x acc (hcross x (by simp))]
    rw [ih (acc ++ [x]) (List.Pairwise.of_cons hpw) ?_]
    · simp
    · intro z hz y hy
      rcases List.mem_append.1 hy with hy | hy
      · exact hcross z (by simp [hz]) y hy
      · simp at hy
        subst hy
        exact (List.pairwise_cons.1 hpw).1 z hz

theorem stableSortBy_sorted_id {α : Type} (le : α → α → Bool) (l : List α)
    (h : l.Pairwise (fun a b => le a b = true)) : stableSortBy le l = l := by
  unfold stableSortBy
  rw [stableSortBy_sorted_id_aux le l [] h (by simp)]
  simp

theorem chained_head_le (hi : Nat) :
    ∀ (rs : List Replacement) (lo : Nat), Chained lo hi rs →
      ∀ r ∈ rs, lo ≤ r.start := by
  intro rs
  induction rs with
  | nil => intro lo _ r hr; simp at hr
  | cons q rest ih =>
    intro lo h r hr
    obtain ⟨h1, h2, h3, h4⟩ := h
    rcases List.mem_cons.1 hr with h | h
    · subst h; exact h1
    · have := ih q.stop h4 r h
      omega

theorem chained_pairwise (hi : Nat) :
    ∀ (rs : List Replacement) (lo : Nat), Chained lo hi rs →
      rs.Pairwise (fun a b => (decide (a.start ≤ b.start)) = true) := by
  intro rs
  induction rs with
  | nil => intro lo _; simp
  | cons r rest ih =>
    intro lo h
    obtain ⟨h1, h2, h3, h4⟩ := h
    refine List.pairwise_cons.2 ⟨?_, ih r.stop h4⟩
    intro b hb
    have := chained_head_le hi rest r.stop h4 b hb
    simp
    omega



theorem jsSlice_zero_toNat (l : List Char) (b : Nat) (hb : b ≤ l.length) :
    jsSlice l 0 (b : Int) = l.take b := by
  unfold jsSlice
  have h0 : ¬((0 : Int) < 0) := by omega
  have h1 : ¬((b : Int) < 0) := by omega
  simp only [if_neg h0, if_neg h1]
  have h2 : min (0 : Int) (l.length : Int) = 0 := by omega
  have h3 : min (b : Int) (l.length : Int) = (b : Int) := by omega
  rw [h2, h3]
  simp

theorem jsSliceFrom_toNat (l : List Char) (b : Nat) (hb : b ≤ l.length) :
    jsSliceFrom l (b : Int) = l.drop b := by
  unfold jsSliceFrom jsSlice
  have h1 : ¬((b : Int) < 0) := by omega
  have h1' : ¬((l.length : Int) < 0) := by omega
  simp only [if_neg h1, if_neg h1']
  have h3 : min (b : Int) (l.length : Int) = (b : Int) := by omega
  have h4 : min (l.length : Int) (l.length : Int) = (l.length : Int) := by omega
  rw [h3, h4]
  have h5 : ((l.length : Int)).toNat - ((b : Int)).toNat = l.length - b := by omega
  rw [h5]
  apply List.take_of_length_le
  simp

theorem piecewise_nil (s : Str) (lo : Nat) : piecewise s lo [] = s.drop lo := rfl

theorem piecewise_cons (s : Str) (lo : Nat) (r : Replacement) (rest : List Replacement) :
    piecewise s lo (r :: rest) =
      (s.drop lo).take (r.start - lo) ++ r.text ++ piecewise s r.stop rest := rfl

theorem substAll_eq_piecewise (s : Str) :
    ∀ (rs : List Replacement) (lo : Nat), Chained lo s.length rs →
      substAll rs s = s.take lo ++ piecewise s lo rs := by
  intro rs
  induction rs with
  | nil =>
    intro lo _
    simp [substAll, piecewise_nil]
  | cons r rest ih =>
    intro lo h
    obtain ⟨h1, h2, h3, h4⟩ := h
    show substOne r (substAll rest s) = _
    rw [ih r.stop h4]
    unfold substOne
    have hlen : (s.take r.stop).length = r.stop := by
      simp
      omega
    have hT1 : ((s.take r.stop ++ piecewise s r.stop rest).take r.start) = s.take r.start := by
      rw [List.take_append_of_le_length (by omega)]
      rw [List.take_take]
      congr 1
      omega
    have hT2 : ((s.take r.stop ++ piecewise s r.stop rest).drop r.stop) =
        piecewise s r.stop rest :=
      List.drop_left' hlen
    have hkey : s.take lo ++ (s.drop lo).take (r.start - lo) = s.take r.start := by
      rw [← List.take_add]
      congr 1
      omega
    rw [hT1, hT2, piecewise_cons, ← hkey]
    simp [List.append_assoc]

theorem applyReplacements_fold (s : Str) :
    ∀ (rs : List Replacement) (done : Str) (lo : Nat), lo ≤ s.length →
      Chained lo s.length rs →
      (rs.foldl
        (fun (acc : Str × Int) r =>
          let (output, offset) := acc
          let start := (r.start : Int) + offset
          let stop := (r.stop : Int) + offset
          (jsSlice output 0 start ++ r.text ++ jsSliceFrom output stop,
            offset + (r.text.length : Int) - ((r.stop : Int) - (r.start : Int))))
        (done ++ s.drop lo, (done.length : Int) - (lo : Int))).1
      = done ++ piecewise s lo rs := by
  intro rs
  induction rs with
  | nil =>
    intro done lo _ _
    simp [piecewise_nil]
  | cons r rest ih =>
    intro done lo hlo h
    obtain ⟨h1, h2, h3, h4⟩ := h
    simp only [List.foldl_cons]
    have hstart : (r.start : Int) + ((done.length : Int) - (lo : Int)) =
        ((done.length + (r.start - lo) : Nat) : Int) := by
      push_cast
      omega
    have hstop : (r.stop : Int) + ((done.length : Int) - (lo : Int)) =
        ((done.length + (r.stop - lo) : Nat) : Int) := by
      push_cast
      omega
    have hlength : (done ++ s.drop lo).length = done.length + (s.length - lo) := by
      simp
    have hsl1 : jsSlice (done ++ s.drop lo) 0
        ((r.start : Int) + ((done.length : Int) - (lo : Int))) =
        done ++ (s.drop lo).take (r.start - lo) := by
      rw [hstart, jsSlice_zero_toNat _ _ (by rw [hlength]; omega)]
      exact List.take_append _
    have hsl2 : jsSliceFrom (done ++ s.drop lo)
        ((r.stop : Int) + ((done.length : Int) - (lo : Int))) = s.drop r.stop := by
      rw [hstop, jsSliceFrom_toNat _ _ (by rw [hlength]; omega)]
      rw [List.drop_append]
      rw [List.drop_drop]
      congr 1
      omega
    have htakelen : ((s.drop lo).take (r.start - lo)).length = r.start - lo := by
      simp
      omega
    have hdone' : done ++ (s.drop lo).take (r.start - lo) ++ r.text ++ s.drop r.stop =
        (done ++ (s.drop lo).take (r.start - lo) ++ r.text) ++ s.drop r.stop := by
      simp [List.append_assoc]
    rw [hsl1, hsl2]
    have hpair : ((done ++ (s.drop lo).take (r.start - lo)) ++ r.text ++ s.drop r.stop,
          (done.length : Int) - (lo : Int) + (r.text.length : Int) -
            ((r.stop : Int) - (r.start : Int))) =
        ((done ++ (s.drop lo).take (r.start - lo) ++ r.text) ++ s.drop r.stop,
          (((done ++ (s.drop lo).take (r.start - lo) ++ r.text).length : Int) -
            (r.stop : Int))) := by
      refine Prod.ext ?_ ?_
      · simp [List.append_assoc]
      · simp only [List.length_append, htakelen]
        push_cast
        omega
    rw [hpair]
    rw [ih (done ++ (s.drop lo).take (r.start - lo) ++ r.text) r.stop (by omega) h4]
    rw [piecewise_cons]
    simp [List.append_assoc]

theorem applyReplacements_chained (s : Str) (rs : List Replacement)
    (h : Chained 0 s.length rs) : applyReplacements s rs = substAll rs s := by
  unfold applyReplacements
  rw [stableSortBy_sorted_id _ _ (chained_pairwise s.length rs 0 h)]
  have hinit : ((s : Str), (0 : Int)) =
      (([] : Str) ++ s.drop 0, ((([] : Str).length : Int) - ((0 : Nat) : Int))) := by
    simp
  rw [hinit]
  rw [applyReplacements_fold s rs [] 0 (by omega) h]
  rw [substAll_eq_piecewise s rs 0 h]
  simp

theorem collapse_two_same_span (r1 r2 : Replacement) (h1 : r1.start = r2.start)
    (h2 : r1.stop = r2.stop) : collapseReplacements [r1, r2] = [r1] := by
  unfold collapseReplacements stableSortBy
  simp only [List.foldl_cons, List.foldl_nil]
  unfold insertLE insertLE
  simp [← h1, ← h2]

/-- C6 (amended): the applier de-duplicates by exact `(start, end)` span with
the *earlier*-listed replacement winning on conflict (`collapseReplacements`
stable-sorts descending by start and keeps the first occurrence of each
span); `applyReplacements` then stable-sorts ascending by start and applies
left-to-right with a cumulative length-delta offset, and for pairwise
non-overlapping spans (listed in ascending order) the result equals the
original text with each span independently substituted. -/
theorem replacement_applier_contract :
    (∀ (r1 r2 : Replacement), r1.start = r2.start → r1.stop = r2.stop →
      collapseReplacements [r1, r2] = [r1]) ∧
    (∀ (s : Str) (rs : List Replacement), Chained 0 s.length rs →
      applyReplacements s rs = substAll rs s) :=
  ⟨collapse_two_same_span, applyReplacements_chained⟩

/-- Witness for C6's amended theorem on concrete spans. -/
theorem replacement_applier_contract_witness :
    collapseReplacements [⟨2, 3, "P".toList⟩, ⟨2, 3, "Q".toList⟩] =
      [⟨2, 3, "P".toList⟩] ∧
    applyReplacements ("abcdef".toList)
        [⟨1, 2, "XY".toList⟩, ⟨4, 5, "Z".toList⟩] =
      substAll [⟨1, 2, "XY".toList⟩, ⟨4, 5, "Z".toList⟩] ("abcdef".toList) :=
  ⟨replacement_applier_contract.1 _ _ rfl rfl,
    replacement_applier_contract.2 ("abcdef".toList) _
      (by simp [Chained])⟩


theorem length_aModify (a : Arena) (i : Nat) (f : RefRecord → RefRecord) :
    (aModify a i f).length = a.length := by
  simp [aModify]

theorem aGet_aModify_self (a : Arena) (i : Nat) (f : RefRecord → RefRecord)
    (h : i < a.length) : aGet (aModify a i f) i = f (aGet a i) := by
  simp [aGet, aModify, List.getD_eq_getElem?_getD, List.getElem?_set_self h]

theorem aGet_aModify_ne (a : Arena) (i k : Nat) (f : RefRecord → RefRecord)
    (h : i ≠ k) : aGet (aModify a i f) k = aGet a k := by
  simp [aGet, aModify, List.getD_eq_getElem?_getD, List.getElem?_set_ne h]

theorem aModify_oob (a : Arena) (i : Nat) (f : RefRecord → RefRecord)
    (h : a.length ≤ i) : aModify a i f = a := by
  simp [aModify, List.set_eq_of_length_le h]

theorem aGet_oob (a : Arena) (i : Nat) (h : a.length ≤ i) :
    aGet a i = default :=
  List.getD_eq_default _ _ h

theorem foldl_congr_fn {α β : Type} (f g : α → β → α) (h : ∀ x y, f x y = g x y) :
    ∀ (l : List β) (a : α), l.foldl f a = l.foldl g a := by
  intro l
  induction l with
  | nil => intro a; rfl
  | cons b t ih => intro a; rw [List.foldl_cons, List.foldl_cons, h, ih]

theorem aggregateUses_congr (a b : Arena) (refsMap : List (Str × Nat)) (c : Nat)
    (h : ∀ k, coreOf (aGet a k) = coreOf (aGet b k)) :
    aggregateUses a refsMap c = aggregateUses b refsMap c := by
  unfold aggregateUses
  congr 1
  apply foldl_congr_fn
  intro acc i
  have hcanc : (aGet a i).canonical = (aGet b i).canonical :=
    congrArg (fun t => t.2.2.2.2.2.2.2) (h i)
  have huse : (aGet a i).uses = (aGet b i).uses :=
    congrArg (fun t => t.2.2.2.2.2.1) (h i)
  simp only [hcanc, huse]

theorem locationSpec_default_core (arena0 : Arena) (refsMap : List (Str × Nat))
    (mode : LocationMode) (c : Nat)
    (h : coreOf (default : RefRecord) = coreOf (aGet arena0 c)) :
    locationSpec arena0 refsMap mode c = RefLoc.inline := by
  have hname : (aGet arena0 c).name = none :=
    (congrArg (fun t => t.2.1) h).symm
  have hldr : (aGet arena0 c).ldrDefinitions = [] :=
    (congrArg (fun t => t.2.2.2.2.2.2.1) h).symm
  cases mode <;> simp [locationSpec, hname, hldr, strTruthy]

theorem assignLoc_branch (arena0 arena : Arena) (refsMap : List (Str × Nat))
    (mode : LocationMode) (processed : List Nat) (c : Nat) (loc : RefLoc)
    (hcore : ∀ k, coreOf (aGet arena k) = coreOf (aGet arena0 k))
    (hspec : loc = locationSpec arena0 refsMap mode c)
    (hproc : ∀ x ∈ processed,
      (aGet arena x).targetLocation = locationSpec arena0 refsMap mode x)
    (hnot : c ∉ processed) :
    LocInv arena0 refsMap mode
      (aModify arena c (fun r => { r with targetLocation := loc }),
        processed ++ [c]) := by
  constructor
  · intro k
    by_cases hk : c = k
    · subst hk
      by_cases hb : c < arena.length
      · rw [aGet_aModify_self _ _ _ hb]
        exact hcore c
      · rw [aModify_oob _ _ _ (Nat.le_of_not_lt hb)]
        exact hcore c
    · rw [aGet_aModify_ne _ _ _ _ hk]
      exact hcore k
  · intro x hx
    rcases List.mem_append.1 hx with hx | hx
    · have hne : c ≠ x := fun he => hnot (he ▸ hx)
      rw [aGet_aModify_ne _ _ _ _ hne]
      exact hproc x hx
    · have hx0 : x = c := by simpa using hx
      subst hx0
      by_cases hb : x < arena.length
      · rw [aGet_aModify_self _ _ _ hb]
        exact hspec
      · rw [aModify_oob _ _ _ (Nat.le_of_not_lt hb)]
        have hdef : aGet arena x = default := aGet_oob _ _ (Nat.le_of_not_lt hb)
        rw [hdef]
        have hcd : coreOf (default : RefRecord) = coreOf (aGet arena0 x) :=
          hdef ▸ hcore x
        rw [locationSpec_default_core arena0 refsMap mode x hcd]
        rfl

theorem assignLocStep_inv (arena0 : Arena) (refsMap : List (Str × Nat))
    (mode : LocationMode) (arena : Arena) (processed : List Nat) (i : Nat)
    (h : LocInv arena0 refsMap mode (arena, processed)) :
    LocInv arena0 refsMap mode (assignLocStep refsMap mode (arena, processed) i) ∧
    (∀ x ∈ processed, x ∈ (assignLocStep refsMap mode (arena, processed) i).2) ∧
    (aGet arena0 i).canonical.getD i ∈
      (assignLocStep refsMap mode (arena, processed) i).2 := by
  obtain ⟨hcore, hproc⟩ := h
  have hcan : (aGet arena i).canonical = (aGet arena0 i).canonical :=
    congrArg (fun t => t.2.2.2.2.2.2.2) (hcore i)
  by_cases hmem : processed.contains ((aGet arena i).canonical.getD i) = true
  · have hstep : assignLocStep refsMap mode (arena, processed) i = (arena, processed) := by
      cases mode <;> (simp only [assignLocStep]; rw [if_pos hmem])
    rw [hstep]
    refine ⟨⟨hcore, hproc⟩, fun x hx => hx, ?_⟩
    rw [← hcan]
    exact List.elem_iff.mp hmem
  · have hmem' : ((aGet arena i).canonical.getD i) ∉ processed :=
      fun hx => hmem (List.elem_iff.mpr hx)
    have hnm : ∀ k, (aGet arena k).name = (aGet arena0 k).name :=
      fun k => congrArg (fun t => t.2.1) (hcore k)
    obtain ⟨loc, hstep, hspec⟩ :
        ∃ loc, assignLocStep refsMap mode (arena, processed) i =
          (aModify arena ((aGet arena i).canonical.getD i)
             (fun r => { r with targetLocation := loc }),
           processed ++ [(aGet arena i).canonical.getD i]) ∧
          loc = locationSpec arena0 refsMap mode
            ((aGet arena i).canonical.getD i) := by
      cases mode with
      | keep =>
        refine ⟨if (aGet arena ((aGet arena i).canonical.getD i)).ldrDefinitions.length > 0
            then RefLoc.ldr else RefLoc.inline, ?_, ?_⟩
        · simp only [assignLocStep]
          rw [if_neg hmem]
        · have hldr : (aGet arena ((aGet arena i).canonical.getD i)).ldrDefinitions
              = (aGet arena0 ((aGet arena i).canonical.getD i)).ldrDefinitions :=
            congrArg (fun t => t.2.2.2.2.2.2.1) (hcore _)
          rw [hldr]
          rfl
      | all_inline =>
        refine ⟨RefLoc.inline, ?_, ?_⟩
        · simp only [assignLocStep]
          rw [if_neg hmem]
          rw [ite_self]
        · rfl
      | all_ldr =>
        cases hname : strTruthy (aGet arena ((aGet arena i).canonical.getD i)).name with
        | true =>
          refine ⟨RefLoc.ldr, ?_, ?_⟩
          · simp only [assignLocStep]
            rw [if_neg hmem]
            rw [if_neg (by simp [hname])]
          · simp [locationSpec, ← hnm, hname]
        | false =>
          refine ⟨RefLoc.inline, ?_, ?_⟩
          · simp only [assignLocStep]
            rw [if_neg hmem]
            rw [if_pos (by simp [hname])]
          · simp [locationSpec, ← hnm, hname]
      | threshold n =>
        cases hname : strTruthy (aGet arena ((aGet arena i).canonical.getD i)).name with
        | true =>
          refine ⟨if (aggregateUses arena refsMap ((aGet arena i).canonical.getD i)).length ≥ n
              then RefLoc.ldr else RefLoc.inline, ?_, ?_⟩
          · simp only [assignLocStep]
            rw [if_neg hmem]
            rw [if_neg (by simp [hname])]
          · rw [aggregateUses_congr arena arena0 refsMap _ hcore]
            simp [locationSpec, ← hnm, hname]
        | false =>
          refine ⟨RefLoc.inline, ?_, ?_⟩
          · simp only [assignLocStep]
            rw [if_neg hmem]
            rw [if_pos (by simp [hname])]
          · simp [locationSpec, ← hnm, hname]
    rw [hstep]
    refine ⟨assignLoc_branch arena0 arena refsMap mode processed _ loc hcore hspec hproc hmem', ?_, ?_⟩
    · intro x hx
      exact List.mem_append.2 (Or.inl hx)
    · rw [← hcan]
      exact List.mem_append.2 (Or.inr (List.mem_singleton.2 rfl))

theorem assignLoc_fold (arena0 : Arena) (refsMap : List (Str × Nat))
    (mode : LocationMode) :
    ∀ (l : List Nat) (st : Arena × List Nat), LocInv arena0 refsMap mode st →
      LocInv arena0 refsMap mode (l.foldl (assignLocStep refsMap mode) st) ∧
      (∀ x ∈ st.2, x ∈ (l.foldl (assignLocStep refsMap mode) st).2) ∧
      (∀ i ∈ l, (aGet arena0 i).canonical.getD i ∈
        (l.foldl (assignLocStep refsMap mode) st).2) := by
  intro l
  induction l with
  | nil =>
    intro st h
    exact ⟨h, fun x hx => hx, by simp⟩
  | cons b t ih =>
    intro st h
    obtain ⟨arena, processed⟩ := st
    obtain ⟨h1, h2, h3⟩ := assignLocStep_inv arena0 refsMap mode arena processed b h
    obtain ⟨ih1, ih2, ih3⟩ := ih (assignLocStep refsMap mode (arena, processed) b) h1
    rw [List.foldl_cons]
    refine ⟨ih1, fun x hx => ih2 x (h2 x hx), ?_⟩
    intro i hi
    rcases List.mem_cons.1 hi with hi | hi
    · subst hi
      exact ih2 _ h3
    · exact ih3 i hi

theorem assignLocations_spec (arena : Arena) (refsMap : List (Str × Nat))
    (mode : LocationMode) (i : Nat) (hi : i ∈ refIterator refsMap) :
    (aGet (assignLocations arena refsMap mode)
        ((aGet arena i).canonical.getD i)).targetLocation =
      locationSpec arena refsMap mode ((aGet arena i).canonical.getD i) := by
  have h0 : LocInv arena refsMap mode (arena, []) := by
    refine ⟨fun k => rfl, ?_⟩
    intro x hx
    simp at hx
  obtain ⟨hinv, _, hcov⟩ :=
    assignLoc_fold arena refsMap mode (refIterator refsMap) (arena, []) h0
  exact hinv.2 _ (hcov i hi)

theorem traceSpec_append (xs ys : List ParsedOcc) :
    ∀ c, traceSpec (xs ++ ys) c =
      traceSpec xs c ++ traceSpec ys (c + xs.countP (fun o => o.name.isNone)) := by
  induction xs with
  | nil => intro c; simp [traceSpec]
  | cons o t ih =>
    intro c
    cases hn : o.name with
    | some n =>
      have hcnt : (o :: t).countP (fun o => o.name.isNone) =
          t.countP (fun o => o.name.isNone) := by
        simp [List.countP_cons, hn]
      rw [List.cons_append, hcnt]
      simp only [traceSpec, hn]
      rw [ih c]
      simp
    | none =>
      have hcnt : (o :: t).countP (fun o => o.name.isNone) =
          t.countP (fun o => o.name.isNone) + 1 := by
        simp [List.countP_cons, hn]
      rw [List.cons_append, hcnt]
      simp only [traceSpec, hn]
      rw [ih (c + 1)]
      have harith : c + 1 + t.countP (fun o => o.name.isNone) =
          c + (t.countP (fun o => o.name.isNone) + 1) := by omega
      rw [harith]
      simp

theorem length_traceSpec (xs : List ParsedOcc) (c : Nat) :
    (traceSpec xs c).length = xs.length := by
  induction xs generalizing c with
  | nil => rfl
  | cons o t ih =>
    cases hn : o.name <;> simp [traceSpec, hn, ih]

theorem keyContents_snoc (occs : List ParsedOcc) (occ : ParsedOcc) (k : Str) :
    keyContents (occs ++ [occ]) k =
      keyContents occs k ++ (if nextKey occs occ = k then [occ.content] else []) := by
  unfold keyContents
  rw [traceSpec_append]
  have hz : (occs ++ [occ]).zip
        (traceSpec occs 0 ++ traceSpec [occ] (0 + occs.countP (fun o => o.name.isNone)))
      = occs.zip (traceSpec occs 0) ++
        [occ].zip (traceSpec [occ] (0 + occs.countP (fun o => o.name.isNone))) :=
    List.zip_append (length_traceSpec occs 0).symm
  rw [hz, List.filter_append, List.map_append]
  congr 1
  have hsing : traceSpec [occ] (0 + occs.countP (fun o => o.name.isNone))
      = [nextKey occs occ] := by
    cases hn : occ.name <;> simp [traceSpec, nextKey, hn]
  rw [hsing]
  by_cases hk : nextKey occs occ = k
  · simp [hk]
  · simp [hk]

theorem keyContents_nil_of_not_mem (occs : List ParsedOcc) (k : Str)
    (h : k ∉ traceSpec occs 0) : keyContents occs k = [] := by
  unfold keyContents
  rw [List.map_eq_nil_iff, List.filter_eq_nil_iff]
  intro p hp
  have hmem := List.of_mem_zip hp
  intro hk
  exact h (by simpa [of_decide_eq_true hk] using hmem.2)

theorem contentSpec_snoc (cs : List Str) (c : Str) :
    contentSpec (cs ++ [c]) =
      (if (cs.find? (fun x => !x.isEmpty)).isSome then contentSpec cs
       else if !c.isEmpty then c else []) := by
  unfold contentSpec
  rw [List.find?_append]
  cases h : cs.find? (fun x => !x.isEmpty) with
  | some a => simp [h]
  | none =>
    cases hc : c.isEmpty with
    | true =>
      have hce : c = [] := List.isEmpty_iff.mp hc
      subst hce
      simp [h, List.find?]
    | false =>
      have hne : c ≠ [] := fun he => by simp [he] at hc
      simp [h, List.find?, hc, hne]

theorem contentSpec_isEmpty (cs : List Str) :
    (contentSpec cs).isEmpty = true ↔ cs.find? (fun x => !x.isEmpty) = none := by
  cases h : cs.find? (fun x => !x.isEmpty) with
  | some a =>
    have ha := List.find?_some h
    simp only [contentSpec, h, Option.getD_some]
    simp at ha
    simp [ha]
  | none => simp [contentSpec, h]

/-- Strengthened membership for `mapSet`: a surviving old entry never carries
the written key. -/
theorem mem_mapSet_strong {α : Type} (m : List (Str × α)) (k : Str) (v : α)
    (p : Str × α) (hp : p ∈ mapSet m k v) :
    (p ∈ m ∧ p.1 ≠ k) ∨ p = (k, v) := by
  unfold mapSet at hp
  split at hp
  case isTrue hf =>
    rcases List.mem_map.1 hp with ⟨q, hq, hfq⟩
    by_cases h : q.1 = k
    · right
      rw [if_pos h] at hfq
      rw [← hfq, h]
    · left
      rw [if_neg h] at hfq
      rw [← hfq]
      exact ⟨hq, h⟩
  case isFalse hf =>
    rcases List.mem_append.1 hp with h | h
    · left
      refine ⟨h, ?_⟩
      intro hk
      apply hf
      rw [Option.isSome_iff_exists]
      have : ∃ q ∈ m, (fun p => decide (p.1 = k)) q = true :=
        ⟨p, h, by simp [hk]⟩
      rcases List.find?_isSome.mpr this with h'
      rcases Option.isSome_iff_exists.mp h' with ⟨a, ha⟩
      exact ⟨a, ha⟩
    · right
      simpa using h

/-- Keys survive `mapSet`. -/
theorem mapSet_keys_cover {α : Type} (m : List (Str × α)) (k : Str) (v : α)
    (p : Str × α) (hp : p ∈ m) : ∃ q ∈ mapSet m k v, q.1 = p.1 := by
  unfold mapSet
  split
  case isTrue hf =>
    refine ⟨if p.1 = k then (p.1, v) else p, List.mem_map.2 ⟨p, hp, ?_⟩, ?_⟩
    · by_cases h : p.1 = k <;> simp [h]
    · by_cases h : p.1 = k <;> simp [h]
  case isFalse hf =>
    exact ⟨p, List.mem_append.2 (Or.inl hp), rfl⟩

theorem parseReferencesStep_inv (done : List ParsedOcc)
    (st : List (Str × Reference) × Nat) (occ : ParsedOcc)
    (h : PRInv done st) : PRInv (done ++ [occ]) (parseReferencesStep st occ) := by
  obtain ⟨hA, hB, hC⟩ := h
  obtain ⟨refs, counter⟩ := st
  simp only at hA hB hC
  have hkey : (getOrCreateKey occ.name counter).1 = nextKey done occ := by
    cases hn : occ.name <;> simp [getOrCreateKey, nextKey, hn, hA]
  have hcnt : (getOrCreateKey occ.name counter).2 =
      (done ++ [occ]).countP (fun o => o.name.isNone) := by
    cases hn : occ.name <;>
      simp [getOrCreateKey, hn, hA, List.countP_append, List.countP_cons]
  have htrace : traceSpec (done ++ [occ]) 0 = traceSpec done 0 ++ [nextKey done occ] := by
    rw [traceSpec_append]
    congr 1
    cases hn : occ.name <;> simp [traceSpec, nextKey, hn]
  simp only [parseReferencesStep]
  cases hfind : lookupKey refs (getOrCreateKey occ.name counter).1 with
  | some existing =>
    simp only [hfind]
    have hpex : ∃ q ∈ refs, q.1 = (getOrCreateKey occ.name counter).1 ∧ q.2 = existing := by
      unfold lookupKey at hfind
      cases hq : refs.find? (fun p => p.1 = (getOrCreateKey occ.name counter).1) with
      | none => rw [hq] at hfind; simp at hfind
      | some q =>
        rw [hq] at hfind
        simp at hfind
        have h1 := List.mem_of_find?_eq_some hq
        have h2 := List.find?_some hq
        simp at h2
        exact ⟨q, h1, h2, hfind⟩
    obtain ⟨q, hqmem, hqkey, hqval⟩ := hpex
    have hqinv := hB q hqmem
    refine ⟨?_, ?_, ?_⟩
    · exact hcnt
    · intro p hp
      rcases mem_mapSet_strong _ _ _ p hp with ⟨hpm, hpne⟩ | hpe
      · obtain ⟨hid, hcw⟩ := hB p hpm
        refine ⟨hid, ?_⟩
        rw [keyContents_snoc]
        rw [if_neg (by rw [← hkey]; exact fun he => hpne (he ▸ rfl))]
        simpa using hcw
      · subst hpe
        have hid : existing.id = (getOrCreateKey occ.name counter).1 := by
          rw [← hqval, hqinv.1, hqkey]
        have hcur : existing.contentWikitext =
            contentSpec (keyContents done (getOrCreateKey occ.name counter).1) := by
          rw [← hqval, ← hqkey]
          exact hqinv.2
        refine ⟨?_, ?_⟩
        · by_cases hcond :
              (!occ.content.isEmpty && existing.contentWikitext.isEmpty) = true
          · simp [hcond, hid]
          · simp [hcond, hid]
        · rw [keyContents_snoc]
          rw [if_pos hkey.symm]
          rw [contentSpec_snoc]
          by_cases hfound :
              ((keyContents done (getOrCreateKey occ.name counter).1).find?
                (fun x => !x.isEmpty)).isSome
          · rw [if_pos hfound]
            have hne : existing.contentWikitext.isEmpty = false := by
              rw [hcur]
              by_contra hcon
              simp only [Bool.not_eq_false] at hcon
              rw [contentSpec_isEmpty] at hcon
              rw [hcon] at hfound
              simp at hfound
            have hns : contentSpec
                (keyContents done (getOrCreateKey occ.name counter).1) ≠ [] := by
              intro he
              rw [← hcur] at he
              rw [he] at hne
              simp at hne
            simp [hns, hcur]
          · rw [if_neg hfound]
            have hnone : (keyContents done (getOrCreateKey occ.name counter).1).find?
                (fun x => !x.isEmpty) = none := by
              cases hx : (keyContents done (getOrCreateKey occ.name counter).1).find?
                  (fun x => !x.isEmpty)
              · rfl
              · rw [hx] at hfound; simp at hfound
            have hemp : existing.contentWikitext.isEmpty = true := by
              rw [hcur, contentSpec_isEmpty]
              exact hnone
            by_cases hoc : occ.content.isEmpty = true
            · have hcond :
                  (!occ.content.isEmpty && existing.contentWikitext.isEmpty) = false := by
                simp [hoc]
              rw [List.isEmpty_iff] at hemp
              simp [hcond, hoc, hemp]
            · have hocn : occ.content.isEmpty = false := by
                cases hx : occ.content.isEmpty
                · rfl
                · exact absurd hx hoc
              rw [List.isEmpty_iff] at hemp
              simp [hocn, hemp]
    · intro k hk
      rw [htrace] at hk
      rcases List.mem_append.1 hk with hk | hk
      · obtain ⟨p, hpmem, hpk⟩ := hC k hk
        obtain ⟨q', hq'⟩ := mapSet_keys_cover refs _ _ p hpmem
        exact ⟨q', hq'.1, hq'.2.trans hpk⟩
      · have hk0 : k = nextKey done occ := by simpa using hk
        subst hk0
        obtain ⟨q', hq'⟩ := mapSet_keys_cover refs _ _ q hqmem
        refine ⟨q', hq'.1, ?_⟩
        rw [hq'.2, hqkey, hkey]
  | none =>
    simp only [hfind]
    have hnotin : nextKey done occ ∉ traceSpec done 0 := by
      intro hmem
      obtain ⟨p, hpmem, hpk⟩ := hC _ hmem
      unfold lookupKey at hfind
      rw [Option.map_eq_none'] at hfind
      have := List.find?_eq_none.mp hfind p hpmem
      simp [hpk, hkey] at this
    refine ⟨hcnt, ?_, ?_⟩
    · intro p hp
      rcases List.mem_append.1 hp with hpm | hpe
      · obtain ⟨hid, hcw⟩ := hB p hpm
        refine ⟨hid, ?_⟩
        rw [keyContents_snoc]
        have hpne : p.1 ≠ nextKey done occ := by
          intro he
          unfold lookupKey at hfind
          rw [Option.map_eq_none'] at hfind
          have := List.find?_eq_none.mp hfind p hpm
          simp [he, hkey] at this
        rw [if_neg (fun he => hpne he.symm)]
        simpa using hcw
      · have hpe' : p = ((getOrCreateKey occ.name counter).1,
            ({ id := (getOrCreateKey occ.name counter).1, name := occ.name,
               group := occ.group, contentWikitext := occ.content,
               uses := [⟨0⟩] } : Reference)) := by simpa using hpe
        subst hpe'
        refine ⟨rfl, ?_⟩
        simp only
        rw [keyContents_snoc, hkey]
        rw [if_pos rfl]
        rw [keyContents_nil_of_not_mem done _ hnotin]
        simp only [List.nil_append]
        by_cases hoc : occ.content.isEmpty = true
        · rw [List.isEmpty_iff] at hoc
          simp [contentSpec, hoc]
        · simp only [Bool.not_eq_true] at hoc
          simp [contentSpec, List.find?, hoc]
    · intro k hk
      rw [htrace] at hk
      rcases List.mem_append.1 hk with hk | hk
      · obtain ⟨p, hpmem, hpk⟩ := hC k hk
        exact ⟨p, List.mem_append.2 (Or.inl hpmem), hpk⟩
      · have hk0 : k = nextKey done occ := by simpa using hk
        subst hk0
        exact ⟨_, List.mem_append.2 (Or.inr (List.mem_singleton.2 rfl)), hkey⟩

theorem parseReferences_fold_inv :
    ∀ (rest done : List ParsedOcc) (st : List (Str × Reference) × Nat),
      PRInv done st →
      PRInv (done ++ rest) (rest.foldl parseReferencesStep st) := by
  intro rest
  induction rest with
  | nil =>
    intro done st h
    simpa using h
  | cons o t ih =>
    intro done st h
    rw [List.foldl_cons]
    have h1 := parseReferencesStep_inv done st o h
    have h2 := ih (done ++ [o]) _ h1
    simpa [List.append_assoc] using h2

theorem parseReferencesOccs_content (occs : List ParsedOcc) (ref : Reference)
    (h : ref ∈ parseReferencesOccs occs) :
    ref.contentWikitext = contentSpec (keyContents occs ref.id) := by
  have h0 : PRInv [] (([] : List (Str × Reference)), 0) := by
    refine ⟨rfl, ?_, ?_⟩
    · intro p hp
      simp at hp
    · intro k hk
      simp [traceSpec] at hk
  have hinv := parseReferences_fold_inv occs [] ([], 0) h0
  simp only [List.nil_append] at hinv
  obtain ⟨-, hB, -⟩ := hinv
  unfold parseReferencesOccs at h
  rcases List.mem_map.1 h with ⟨p, hpmem, hps⟩
  have hp := hB p hpmem
  rw [← hps, hp.1]
  exact hp.2

theorem digitChar_val (n : Nat) (h : n < 10) :
    (digitChar n).toNat - 48 = n := by
  interval_cases n <;> decide

theorem natToStrAux_foldl (fuel : Nat) :
    ∀ n acc, n < fuel →
      (natToStrAux fuel n).foldl
          (fun acc c => acc * 10 + (c.toNat - Char.toNat '0')) acc =
        acc * 10 ^ (natToStrAux fuel n).length + n := by
  have h48 : Char.toNat '0' = 48 := rfl
  induction fuel with
  | zero =>
    intro n acc h
    omega
  | succ fuel ih =>
    intro n acc h
    by_cases h10 : n < 10
    · simp only [natToStrAux, if_pos h10, List.foldl_cons, List.foldl_nil,
        List.length_cons, List.length_nil, h48]
      rw [digitChar_val n h10]
      simp [pow_one]
    · simp only [natToStrAux, if_neg h10]
      rw [List.foldl_append]
      have hdiv : n / 10 < fuel := by omega
      rw [ih (n / 10) acc hdiv]
      simp only [List.foldl_cons, List.foldl_nil, h48]
      rw [digitChar_val _ (Nat.mod_lt _ (by norm_num))]
      rw [List.length_append]
      have hn : 10 * (n / 10) + n % 10 = n := Nat.div_add_mod n 10
      calc (acc * 10 ^ (natToStrAux fuel (n / 10)).length + n / 10) * 10 + n % 10
          = acc * (10 ^ (natToStrAux fuel (n / 10)).length * 10) +
              (10 * (n / 10) + n % 10) := by ring
        _ = acc * 10 ^ ((natToStrAux fuel (n / 10)).length +
              [digitChar (n % 10)].length) + n := by
            rw [hn]
            simp [pow_succ]

theorem digitsToNat_natToStr (n : Nat) : digitsToNat (natToStr n) = n := by
  unfold digitsToNat natToStr
  rw [natToStrAux_foldl (n + 1) n 0 (Nat.lt_succ_self n)]
  simp

theorem namelessKey_inj (m n : Nat) (h : namelessKey m = namelessKey n) : m = n := by
  unfold namelessKey at h
  have h2 : natToStr m = natToStr n := List.append_cancel_left h
  rw [← digitsToNat_natToStr m, ← digitsToNat_natToStr n, h2]

theorem refKey_group_cancel (n g1 g2 : Option Str)
    (h : refKey n g1 = refKey n g2) : g1.getD [] = g2.getD [] := by
  unfold refKey at h
  have h1 : g1.getD [] ++ "::".toList = g2.getD [] ++ "::".toList :=
    List.append_cancel_right h
  exact List.append_cancel_right h1

theorem parseReferencesStep_counter (st : List (Str × Reference) × Nat)
    (occ : ParsedOcc) :
    (parseReferencesStep st occ).2 =
      (if occ.name.isNone then st.2 + 1 else st.2) := by
  obtain ⟨refs, counter⟩ := st
  cases hn : occ.name with
  | some n =>
    simp only [parseReferencesStep, getOrCreateKey, hn]
    cases hf : lookupKey refs n <;> simp [hf]
  | none =>
    simp only [parseReferencesStep, getOrCreateKey, hn]
    cases hf : lookupKey refs (namelessKey counter) <;> simp [hf]

theorem parseReferencesTrace_aux :
    ∀ (rest : List ParsedOcc) (st : List (Str × Reference) × Nat) (ks : List Str),
      (rest.foldl parseTraceStep (st, ks)).2 = ks ++ traceSpec rest st.2 := by
  intro rest
  induction rest with
  | nil =>
    intro st ks
    simp [traceSpec]
  | cons o t ih =>
    intro st ks
    rw [List.foldl_cons]
    cases hn : o.name with
    | some n =>
      have hstep : parseTraceStep (st, ks) o = (parseReferencesStep st o, ks ++ [n]) := by
        simp [parseTraceStep, getOrCreateKey, hn]
      rw [hstep, ih]
      rw [parseReferencesStep_counter]
      simp [traceSpec, hn]
    | none =>
      have hstep : parseTraceStep (st, ks) o =
          (parseReferencesStep st o, ks ++ [namelessKey st.2]) := by
        simp [parseTraceStep, getOrCreateKey, hn]
      rw [hstep, ih]
      rw [parseReferencesStep_counter]
      simp [traceSpec, hn]

theorem parseReferencesTrace_eq (occs : List ParsedOcc) :
    parseReferencesTrace occs = traceSpec occs 0 := by
  unfold parseReferencesTrace
  rw [parseReferencesTrace_aux]
  simp

theorem getRefStep_lookup (st : BuildSt) (name group : Option Str)
    (h : strTruthy name = true) :
    lookupKey (getRefStep st name group).2.refsMap (refKey name group) =
      some (getRefStep st name group).1 := by
  simp only [getRefStep, h, if_pos]
  cases hf : lookupKey st.refsMap (refKey name group) with
  | some i => simp [hf]
  | none =>
    simp only [hf]
    unfold lookupKey at hf ⊢
    rw [Option.map_eq_none'] at hf
    rw [List.find?_append, hf]
    simp

theorem getRefStep_found (st : BuildSt) (name group : Option Str) (i : Nat)
    (h : strTruthy name = true)
    (hf : lookupKey st.refsMap (refKey name group) = some i) :
    getRefStep st name group = (i, st) := by
  simp only [getRefStep, h, if_pos, hf]

theorem aGet_aModify_name (a : Arena) (m k : Nat) (f : RefRecord → RefRecord)
    (hf : ∀ r, (f r).name = r.name) :
    (aGet (aModify a m f) k).name = (aGet a k).name := by
  by_cases hk : m = k
  · subst hk
    by_cases hb : m < a.length
    · rw [aGet_aModify_self _ _ _ hb, hf]
    · rw [aModify_oob _ _ _ (Nat.le_of_not_lt hb)]
  · rw [aGet_aModify_ne _ _ _ _ hk]

theorem aGet_set_canonical_name (a : Arena) (m k : Nat) (j' : Option Nat) :
    (aGet (aModify a m (fun r => { r with canonical := j' })) k).name =
      (aGet a k).name :=
  aGet_aModify_name a m k _ (fun _ => rfl)

theorem aGet_append_defs_name (a : Arena) (m k : Nat) (ds : List RefUseInternal) :
    (aGet (aModify a m (fun r =>
      { r with definitions := r.definitions ++ ds })) k).name = (aGet a k).name :=
  aGet_aModify_name a m k _ (fun _ => rfl)

theorem aGet_append_ldr_name (a : Arena) (m k : Nat) (ds : List RefUseInternal) :
    (aGet (aModify a m (fun r =>
      { r with ldrDefinitions := r.ldrDefinitions ++ ds })) k).name = (aGet a k).name :=
  aGet_aModify_name a m k _ (fun _ => rfl)

theorem dedupeStep_name (acc : Arena × List (Str × Nat) × List (Str × Str))
    (i0 k : Nat) :
    (aGet (dedupeStep acc i0).1 k).name = (aGet acc.1 k).name := by
  obtain ⟨arena, canonMap, changes⟩ := acc
  simp only [dedupeStep]
  split
  · rfl
  · split
    · rfl
    · split
      · split
        · split <;> split <;>
            simp [aGet_set_canonical_name, aGet_append_defs_name, aGet_append_ldr_name]
        · simp [aGet_set_canonical_name]
      · simp [aGet_set_canonical_name]

theorem lookupKey_mem {α : Type} (m : List (Str × α)) (k : Str) (v : α)
    (h : lookupKey m k = some v) : ∃ p ∈ m, p.2 = v := by
  unfold lookupKey at h
  cases hq : m.find? (fun p => p.1 = k) with
  | none => rw [hq] at h; simp at h
  | some q =>
    rw [hq] at h
    simp at h
    exact ⟨q, List.mem_of_find?_eq_some hq, h⟩

theorem dedupeStep_untouched (arena0 : Arena)
    (acc : Arena × List (Str × Nat) × List (Str × Str)) (i0 i : Nat)
    (hname : ∀ k, (aGet acc.1 k).name = (aGet arena0 k).name)
    (hmap : ∀ p ∈ acc.2.1, strTruthy (aGet arena0 p.2).name = true)
    (hi : strTruthy (aGet arena0 i).name = false) :
    aGet (dedupeStep acc i0).1 i = aGet acc.1 i := by
  obtain ⟨arena, canonMap, changes⟩ := acc
  simp only at hname hmap
  simp only [dedupeStep]
  split
  · rfl
  case h_2 content hfc =>
    split
    · rfl
    case isFalse hguard =>
      have htr : strTruthy (aGet arena i0).name = true := by
        cases hx : strTruthy (aGet arena i0).name with
        | true => rfl
        | false => exact absurd (by simp [hx]) hguard
      have hne0 : i0 ≠ i := by
        intro he
        rw [he, hname i, hi] at htr
        simp at htr
      split
      case h_1 j hlk =>
        obtain ⟨p, hpmem, hpj⟩ := lookupKey_mem _ _ _ hlk
        have htrj : strTruthy (aGet arena0 j).name = true := hpj ▸ hmap p hpmem
        have hnej : j ≠ i := by
          intro he
          rw [he, hi] at htrj
          simp at htrj
        split
        · split <;> split <;>
            simp [aGet_aModify_ne _ _ _ _ hne0, aGet_aModify_ne _ _ _ _ hnej]
        · simp [aGet_aModify_ne _ _ _ _ hne0]
      case h_2 hlk =>
        simp [aGet_aModify_ne _ _ _ _ hne0]

theorem dedupeStep_map (arena0 : Arena)
    (acc : Arena × List (Str × Nat) × List (Str × Str)) (i0 : Nat)
    (hname : ∀ k, (aGet acc.1 k).name = (aGet arena0 k).name)
    (hmap : ∀ p ∈ acc.2.1, strTruthy (aGet arena0 p.2).name = true) :
    ∀ p ∈ (dedupeStep acc i0).2.1, strTruthy (aGet arena0 p.2).name = true := by
  obtain ⟨arena, canonMap, changes⟩ := acc
  simp only at hname hmap
  simp only [dedupeStep]
  split
  · exact hmap
  case h_2 content hfc =>
    split
    · exact hmap
    case isFalse hguard =>
      have htr : strTruthy (aGet arena i0).name = true := by
        cases hx : strTruthy (aGet arena i0).name with
        | true => rfl
        | false => exact absurd (by simp [hx]) hguard
      have htr0 : strTruthy (aGet arena0 i0).name = true := by
        rw [← hname i0]
        exact htr
      split
      case h_1 j hlk =>
        split
        · exact hmap
        · intro p hp
          rcases mem_mapSet _ _ _ p hp with hp | hp
          · exact hmap p hp
          · rw [hp]
            exact htr0
      case h_2 hlk =>
        intro p hp
        rcases mem_mapSet _ _ _ p hp with hp | hp
        · exact hmap p hp
        · rw [hp]
          exact htr0

theorem applyDedupe_fold_untouched (arena0 : Arena) :
    ∀ (l : List Nat) (acc : Arena × List (Str × Nat) × List (Str × Str)),
      (∀ k, (aGet acc.1 k).name = (aGet arena0 k).name) →
      (∀ p ∈ acc.2.1, strTruthy (aGet arena0 p.2).name = true) →
      (∀ i, strTruthy (aGet arena0 i).name = false → aGet acc.1 i = aGet arena0 i) →
      (∀ k, (aGet (l.foldl dedupeStep acc).1 k).name = (aGet arena0 k).name) ∧
      (∀ i, strTruthy (aGet arena0 i).name = false →
        aGet (l.foldl dedupeStep acc).1 i = aGet arena0 i) := by
  intro l
  induction l with
  | nil =>
    intro acc h1 h2 h3
    exact ⟨h1, h3⟩
  | cons b t ih =>
    intro acc h1 h2 h3
    rw [List.foldl_cons]
    refine ih (dedupeStep acc b) ?_ ?_ ?_
    · intro k
      rw [dedupeStep_name, h1]
    · exact dedupeStep_map arena0 acc b h1 h2
    · intro i hi
      rw [dedupeStep_untouched arena0 acc b i h1 h2 hi, h3 i hi]

theorem applyDedupe_unnamed_untouched (arena : Arena) (refsMap : List (Str × Nat))
    (i : Nat) (h : strTruthy (aGet arena i).name = false) :
    aGet (applyDedupe arena refsMap).1 i = aGet arena i := by
  unfold applyDedupe
  have hfold := applyDedupe_fold_untouched arena (refIterator refsMap)
    (arena, [], []) (fun k => rfl) (by intro p hp; simp at hp) (fun i hi => rfl)
  exact hfold.2 i h

theorem lookupKey_mapSet_self {α : Type} (m : List (Str × α)) (k : Str) (v : α) :
    lookupKey (mapSet m k v) k = some v := by
  unfold mapSet
  split
  case isTrue hf =>
    induction m with
    | nil => simp at hf
    | cons a t ih =>
      by_cases ha : a.1 = k
      · simp [lookupKey, List.find?, ha]
      · simp only [List.map_cons, if_neg ha]
        have hf' : (t.find? (fun p => p.1 = k)).isSome = true := by
          rw [List.find?_cons_of_neg] at hf
          · exact hf
          · simp [ha]
        have := ih hf'
        unfold lookupKey at this ⊢
        rw [List.find?_cons_of_neg]
        · exact this
        · simp [ha]
  case isFalse hf =>
    unfold lookupKey
    rw [List.find?_append]
    have hnone : m.find? (fun p => p.1 = k) = none := by
      cases hx : m.find? (fun p => p.1 = k)
      · rfl
      · rw [hx] at hf; simp at hf
    rw [hnone]
    simp [List.find?]

theorem lookupKey_mapSet_ne {α : Type} (m : List (Str × α)) (k s : Str) (v : α)
    (h : s ≠ k) : lookupKey (mapSet m k v) s = lookupKey m s := by
  unfold mapSet
  split
  case isTrue hf =>
    clear hf
    induction m with
    | nil => rfl
    | cons a t ih =>
      by_cases ha : a.1 = k
      · have has : ¬(a.1 = s) := by rw [ha]; exact fun he => h he.symm
        simp only [List.map_cons, if_pos ha]
        unfold lookupKey
        rw [List.find?_cons_of_neg, List.find?_cons_of_neg]
        · exact ih
        · simp [has]
        · simp [has]
      · simp only [List.map_cons, if_neg ha]
        by_cases has : a.1 = s
        · unfold lookupKey
          rw [List.find?_cons_of_pos, List.find?_cons_of_pos]
          · simp [has]
          · simp [has]
        · unfold lookupKey
          rw [List.find?_cons_of_neg, List.find?_cons_of_neg]
          · exact ih
          · simp [has]
          · simp [has]
  case isFalse hf =>
    unfold lookupKey
    rw [List.find?_append]
    cases hx : m.find? (fun p => p.1 = s) with
    | some q => simp [hx]
    | none =>
      simp only [hx, Option.none_or]
      rw [List.find?_cons_of_neg]
      · rfl
      · simp [h.symm]

theorem aGet_aModify_canonical (a : Arena) (m k : Nat) (f : RefRecord → RefRecord)
    (hf : ∀ r, (f r).canonical = r.canonical) :
    (aGet (aModify a m f) k).canonical = (aGet a k).canonical := by
  by_cases hk : m = k
  · subst hk
    by_cases hb : m < a.length
    · rw [aGet_aModify_self _ _ _ hb, hf]
    · rw [aModify_oob _ _ _ (Nat.le_of_not_lt hb)]
  · rw [aGet_aModify_ne _ _ _ _ hk]

theorem aGet_append_defs_canonical (a : Arena) (m k : Nat)
    (ds : List RefUseInternal) :
    (aGet (aModify a m (fun r =>
      { r with definitions := r.definitions ++ ds })) k).canonical =
      (aGet a k).canonical :=
  aGet_aModify_canonical a m k _ (fun _ => rfl)

theorem aGet_append_ldr_canonical (a : Arena) (m k : Nat)
    (ds : List RefUseInternal) :
    (aGet (aModify a m (fun r =>
      { r with ldrDefinitions := r.ldrDefinitions ++ ds })) k).canonical =
      (aGet a k).canonical :=
  aGet_aModify_canonical a m k _ (fun _ => rfl)

theorem getElem?_drop_cons {α : Type} (l : List α) (p : Nat) (i : α)
    (h : l[p]? = some i) : l.drop p = i :: l.drop (p + 1) := by
  have hp : p < l.length := by
    by_contra hc
    push_neg at hc
    rw [List.getElem?_eq_none_iff.mpr hc] at h
    simp at h
  rw [List.drop_eq_getElem_cons hp]
  congr 1
  have hg := List.getElem?_eq_getElem hp
  rw [hg] at h
  simpa using h

theorem nodup_middle_not_mem {α : Type} (done : List α) (i : α) (t : List α)
    [DecidableEq α] (h : (done ++ i :: t).Nodup) : i ∉ done := by
  simp [List.nodup_append] at h
  exact h.2.2.1

theorem dedupeSpecPairs_snoc (a : Arena) (done : List Nat) (i : Nat) :
    dedupeSpecPairs a (done ++ [i]) =
      dedupeSpecPairs a done ++
      (match dedupeEligible a i with
       | none => []
       | some nc =>
         match done.find? (fun j => dedupeEligible a j = some nc) with
         | some j => [((aGet a i).name.getD [], (aGet a j).name.getD [])]
         | none => []) := by
  unfold dedupeSpecPairs
  rw [List.enum_append]
  rw [List.filterMap_append]
  congr 1
  · apply List.filterMap_congr
    intro p hp
    have hlt : p.1 < done.length := List.fst_lt_of_mem_enum hp
    rw [List.take_append_of_le_length (Nat.le_of_lt hlt)]
  · show List.filterMap _ [(done.length, i)] = _
    simp only [List.filterMap_cons, List.filterMap_nil]
    rw [List.take_left]
    cases hel : dedupeEligible a i with
    | none => rfl
    | some nc =>
      cases hf : done.find? (fun j => dedupeEligible a j = some nc) <;> simp [hf]

theorem dedupeSpecTarget_full_find (a : Arena) (order : List Nat) (p i : Nat)
    (nc : Str) (hp : order[p]? = some i) (hel : dedupeEligible a i = some nc) :
    (order.find? (fun j => dedupeEligible a j = some nc)).getD i =
      (dedupeSpecTarget a order p).getD i := by
  unfold dedupeSpecTarget
  rw [hp]
  simp only [hel]
  have hsplit : order = order.take p ++ (i :: order.drop (p + 1)) := by
    rw [← getElem?_drop_cons order p i hp]
    exact (List.take_append_drop p order).symm
  have hplen : (order.take p).length = p := by
    have hpl : p < order.length := by
      by_contra hc
      push_neg at hc
      rw [List.getElem?_eq_none_iff.mpr hc] at hp
      simp at hp
    simp [List.length_take, Nat.min_eq_left (Nat.le_of_lt hpl)]
  rw [hsplit]
  rw [List.find?_append]
  rw [List.take_append_of_le_length (le_of_eq hplen.symm)]
  rw [List.take_take, Nat.min_self]
  cases hf : (order.take p).find? (fun j => dedupeEligible a j = some nc) with
  | some j => simp [hf]
  | none =>
    simp only [hf, Option.none_or]
    rw [List.find?_cons_of_pos]
    · rfl
    · simp [hel]

theorem find?_append_of_isSome {α : Type} (l1 l2 : List α) (p : α → Bool)
    (h : (l1.find? p).isSome) : (l1 ++ l2).find? p = l1.find? p := by
  rw [List.find?_append]
  cases hx : l1.find? p with
  | none => rw [hx] at h; simp at h
  | some a => simp [hx]

theorem dedupeStep_skip (arena : Arena) (canonMap : List (Str × Nat))
    (changes : List (Str × Str)) (i : Nat)
    (h : dedupeEligible arena i = none) :
    dedupeStep (arena, canonMap, changes) i = (arena, canonMap, changes) := by
  unfold dedupeEligible at h
  simp only [dedupeStep]
  cases hfc : firstContent (aGet arena i) with
  | none => rfl
  | some content =>
    rw [hfc] at h
    dsimp only
    dsimp only at h
    by_cases hguard : (content.isEmpty || !strTruthy (aGet arena i).name) = true
    · rw [if_pos hguard]
    · rw [if_neg hguard] at h
      simp at h

theorem dedupeStep_insert_eq (arena : Arena) (canonMap : List (Str × Nat))
    (changes : List (Str × Str)) (i : Nat) (content : Str)
    (hfc : firstContent (aGet arena i) = some content)
    (hguard : ¬(content.isEmpty || !strTruthy (aGet arena i).name) = true)
    (hlk : lookupKey canonMap (normalizeContent content) = none) :
    dedupeStep (arena, canonMap, changes) i =
      (aModify arena i (fun r => { r with canonical := some i }),
        mapSet canonMap (normalizeContent content) i, changes) := by
  simp only [dedupeStep, hfc]
  rw [if_neg hguard]
  simp only [hlk]

theorem dedupeStep_merge_eq (arena : Arena) (canonMap : List (Str × Nat))
    (changes : List (Str × Str)) (i j : Nat) (content : Str)
    (hfc : firstContent (aGet arena i) = some content)
    (hguard : ¬(content.isEmpty || !strTruthy (aGet arena i).name) = true)
    (hlk : lookupKey canonMap (normalizeContent content) = some j)
    (hjt : strTruthy (aGet arena j).name = true) :
    ∃ arena', dedupeStep (arena, canonMap, changes) i =
      (arena', canonMap,
        changes ++ [((aGet arena i).name.getD [], (aGet arena' j).name.getD [])]) ∧
      (∀ k, (aGet arena' k).name = (aGet arena k).name) ∧
      (∀ k, k ≠ i → k ≠ j → aGet arena' k = aGet arena k) ∧
      (∀ k, k ≠ i → (aGet arena' k).canonical = (aGet arena k).canonical) ∧
      (aGet arena' i).canonical =
        (if i < arena.length then some j else (aGet arena i).canonical) := by
  simp only [dedupeStep, hfc]
  rw [if_neg hguard]
  simp only [hlk]
  rw [if_pos hjt]
  refine ⟨_, rfl, ?_, ?_, ?_, ?_⟩
  · intro k
    split <;> split <;>
      simp [aGet_append_ldr_name, aGet_append_defs_name, aGet_set_canonical_name]
  · intro k hki hkj
    have h1 : i ≠ k := Ne.symm hki
    have h2 : j ≠ k := Ne.symm hkj
    split <;> split <;>
      simp [aGet_aModify_ne _ _ _ _ h1, aGet_aModify_ne _ _ _ _ h2]
  · intro k hki
    have h1 : i ≠ k := Ne.symm hki
    split <;> split <;>
      simp [aGet_append_ldr_canonical, aGet_append_defs_canonical,
        aGet_aModify_ne _ _ _ _ h1]
  · by_cases hb : i < arena.length
    · rw [if_pos hb]
      split <;> split <;>
        simp [aGet_append_ldr_canonical, aGet_append_defs_canonical,
          aGet_aModify_self _ _ _ hb]
    · rw [if_neg hb]
      rw [aModify_oob _ _ _ (Nat.le_of_not_lt hb)]
      split <;> split <;>
        simp [aGet_append_ldr_canonical, aGet_append_defs_canonical]

theorem canon_match_extend (arena0 : Arena) (done : List Nat) (i k : Nat)
    (hk : k ∈ done) (c : Option Nat)
    (h : c = (match dedupeEligible arena0 k with
       | none => (aGet arena0 k).canonical
       | some nck =>
         some ((done.find? (fun j => dedupeEligible arena0 j = some nck)).getD k))) :
    c = (match dedupeEligible arena0 k with
       | none => (aGet arena0 k).canonical
       | some nck =>
         some (((done ++ [i]).find?
           (fun j => dedupeEligible arena0 j = some nck)).getD k)) := by
  cases helk : dedupeEligible arena0 k with
  | none => simpa [helk] using h
  | some nck =>
    simp only [helk] at h ⊢
    have hsome : (done.find? (fun j => dedupeEligible arena0 j = some nck)).isSome :=
      List.find?_isSome.mpr ⟨k, hk, by simp [helk]⟩
    rw [find?_append_of_isSome _ _ _ hsome]
    exact h

theorem eligible_truthy (arena0 : Arena) (j : Nat) (nc : Str)
    (h : dedupeEligible arena0 j = some nc) :
    strTruthy (aGet arena0 j).name = true := by
  unfold dedupeEligible at h
  cases hx : firstContent (aGet arena0 j) with
  | none => rw [hx] at h; simp at h
  | some cj =>
    rw [hx] at h
    dsimp only at h
    by_cases hg : (cj.isEmpty || !strTruthy (aGet arena0 j).name) = true
    · rw [if_pos hg] at h
      simp at h
    · cases hy : strTruthy (aGet arena0 j).name
      · exact absurd (by simp [hy]) hg
      · rfl

theorem eligible_parts (arena0 : Arena) (i : Nat) (nc : Str)
    (h : dedupeEligible arena0 i = some nc) :
    ∃ content, firstContent (aGet arena0 i) = some content ∧
      ¬(content.isEmpty || !strTruthy (aGet arena0 i).name) = true ∧
      normalizeContent content = nc := by
  unfold dedupeEligible at h
  cases hx : firstContent (aGet arena0 i) with
  | none => rw [hx] at h; simp at h
  | some c =>
    rw [hx] at h
    dsimp only at h
    by_cases hg : (c.isEmpty || !strTruthy (aGet arena0 i).name) = true
    · rw [if_pos hg] at h
      simp at h
    · rw [if_neg hg] at h
      simp at h
      exact ⟨c, rfl, hg, h⟩

theorem dedupeStep_dinv (arena0 : Arena) (done : List Nat)
    (acc : Arena × List (Str × Nat) × List (Str × Str)) (i : Nat)
    (hni : i ∉ done) (h : DInv arena0 done acc) :
    DInv arena0 (done ++ [i]) (dedupeStep acc i) := by
  obtain ⟨arena, canonMap, changes⟩ := acc
  obtain ⟨hU, hN, hM, hC, hK⟩ := h
  simp only at hU hN hM hC hK
  have hAi : aGet arena i = aGet arena0 i := hU i hni
  cases hel : dedupeEligible arena0 i with
  | none =>
    have hel' : dedupeEligible arena i = none := by
      unfold dedupeEligible
      rw [hAi]
      unfold dedupeEligible at hel
      exact hel
    rw [dedupeStep_skip _ _ _ _ hel']
    refine ⟨?_, hN, ?_, ?_, ?_⟩
    · intro k hk
      exact hU k (fun hkd => hk (List.mem_append.2 (Or.inl hkd)))
    · intro s
      rw [List.find?_append]
      have hsing : [i].find? (fun j => dedupeEligible arena0 j = some s) = none := by
        simp [List.find?, hel]
      rw [hsing]
      rw [hM s]
      cases hx : done.find? (fun j => dedupeEligible arena0 j = some s) <;> simp
    · rw [dedupeSpecPairs_snoc]
      simp only [hel]
      simpa using hC
    · intro k hk
      rcases List.mem_append.1 hk with hk | hk
      · exact canon_match_extend arena0 done i k hk _ (hK k hk)
      · have hk' : k = i := by simpa using hk
        subst hk'
        rw [hAi]
        simp [hel]
  | some nc =>
    obtain ⟨content, hfc, hguard, hnorm⟩ := eligible_parts arena0 i nc hel
    have hfc' : firstContent (aGet arena i) = some content := by
      rw [hAi]
      exact hfc
    have hguard' : ¬(content.isEmpty || !strTruthy (aGet arena i).name) = true := by
      rw [hAi]
      exact hguard
    have htri : strTruthy (aGet arena i).name = true := by
      cases hx : strTruthy (aGet arena i).name
      · exact absurd (by simp [hx]) hguard'
      · rfl
    have hbound : i < arena.length := by
      by_contra hc
      push_neg at hc
      rw [aGet_oob arena i hc] at htri
      simp [strTruthy] at htri
    cases hfd : done.find? (fun j => dedupeEligible arena0 j = some nc) with
    | some j =>
      have hlk : lookupKey canonMap (normalizeContent content) = some j := by
        rw [hnorm, hM nc]
        exact hfd
      have hjmem : j ∈ done := List.mem_of_find?_eq_some hfd
      have hjel : dedupeEligible arena0 j = some nc := by
        have := List.find?_some hfd
        simpa using this
      have hjtr : strTruthy (aGet arena j).name = true := by
        rw [hN j]
        exact eligible_truthy arena0 j nc hjel
      obtain ⟨arena', heq, hname', hun', hcoff', hci'⟩ :=
        dedupeStep_merge_eq arena canonMap changes i j content hfc' hguard' hlk hjtr
      rw [heq]
      refine ⟨?_, ?_, ?_, ?_, ?_⟩
      · intro k hk
        have hkd : k ∉ done := fun hkd => hk (List.mem_append.2 (Or.inl hkd))
        have hki : k ≠ i := fun he => hk (List.mem_append.2 (Or.inr (by simp [he])))
        have hkj : k ≠ j := fun he => hkd (he ▸ hjmem)
        rw [hun' k hki hkj]
        exact hU k hkd
      · intro k
        rw [hname' k]
        exact hN k
      · intro s
        rw [List.find?_append]
        by_cases hs : s = nc
        · subst hs
          rw [hM s, hfd]
          rfl
        · rw [hM s]
          have hsing : [i].find? (fun j => dedupeEligible arena0 j = some s) = none := by
            simp [List.find?, hel, Ne.symm hs]
          rw [hsing]
          cases hx : done.find? (fun j => dedupeEligible arena0 j = some s) <;> simp
      · rw [dedupeSpecPairs_snoc]
        simp only [hel, hfd]
        have hp1 : (aGet arena i).name = (aGet arena0 i).name := by rw [hAi]
        have hp2 : (aGet arena' j).name = (aGet arena0 j).name := by
          rw [hname' j]
          exact hN j
        rw [hp1, hp2, hC]
      · intro k hk
        rcases List.mem_append.1 hk with hk | hk
        · have hki : k ≠ i := fun he => hni (he ▸ hk)
          rw [hcoff' k hki]
          exact canon_match_extend arena0 done i k hk _ (hK k hk)
        · have hk' : k = i := by simpa using hk
          subst hk'
          simp only [hel]
          have hfind' : (done ++ [k]).find?
              (fun j => dedupeEligible arena0 j = some nc) = some j := by
            rw [find?_append_of_isSome _ _ _ (by rw [hfd]; rfl), hfd]
          rw [hfind']
          rw [hci', if_pos hbound]
          rfl
    | none =>
      have hlk : lookupKey canonMap (normalizeContent content) = none := by
        rw [hnorm, hM nc]
        exact hfd
      rw [dedupeStep_insert_eq arena canonMap changes i content hfc' hguard' hlk]
      refine ⟨?_, ?_, ?_, ?_, ?_⟩
      · intro k hk
        have hkd : k ∉ done := fun hkd => hk (List.mem_append.2 (Or.inl hkd))
        have hki : k ≠ i := fun he => hk (List.mem_append.2 (Or.inr (by simp [he])))
        rw [aGet_aModify_ne _ _ _ _ (Ne.symm hki)]
        exact hU k hkd
      · intro k
        rw [aGet_set_canonical_name]
        exact hN k
      · intro s
        by_cases hs : s = nc
        · subst hs
          rw [hnorm, lookupKey_mapSet_self]
          rw [List.find?_append, hfd]
          simp [List.find?, hel]
        · rw [hnorm, lookupKey_mapSet_ne _ _ _ _ hs, hM s]
          rw [List.find?_append]
          have hsing : [i].find? (fun j => dedupeEligible arena0 j = some s) = none := by
            simp [List.find?, hel, Ne.symm hs]
          rw [hsing]
          cases hx : done.find? (fun j => dedupeEligible arena0 j = some s) <;> simp
      · rw [dedupeSpecPairs_snoc]
        simp only [hel, hfd]
        simpa using hC
      · intro k hk
        rcases List.mem_append.1 hk with hk | hk
        · have hki : k ≠ i := fun he => hni (he ▸ hk)
          rw [aGet_aModify_ne _ _ _ _ (Ne.symm hki)]
          exact canon_match_extend arena0 done i k hk _ (hK k hk)
        · have hk' : k = i := by simpa using hk
          subst hk'
          simp only [hel]
          have hfind' : (done ++ [k]).find?
              (fun j => dedupeEligible arena0 j = some nc) = some k := by
            rw [List.find?_append, hfd]
            simp [List.find?, hel]
          rw [hfind']
          rw [aGet_aModify_self _ _ _ hbound]
          rfl

theorem dedupe_fold_dinv (arena0 : Arena) :
    ∀ (rest done : List Nat) (acc : Arena × List (Str × Nat) × List (Str × Str)),
      (done ++ rest).Nodup →
      DInv arena0 done acc →
      DInv arena0 (done ++ rest) (rest.foldl dedupeStep acc) := by
  intro rest
  induction rest with
  | nil =>
    intro done acc _ h
    simpa using h
  | cons b t ih =>
    intro done acc hnd h
    rw [List.foldl_cons]
    have hb : b ∉ done := nodup_middle_not_mem done b t hnd
    have h1 := dedupeStep_dinv arena0 done acc b hb h
    have hnd' : ((done ++ [b]) ++ t).Nodup := by
      rw [List.append_assoc]
      simpa using hnd
    have h2 := ih (done ++ [b]) (dedupeStep acc b) hnd' h1
    rw [List.append_assoc] at h2
    simpa using h2

theorem dinv_init (arena0 : Arena) : DInv arena0 [] (arena0, [], []) := by
  refine ⟨fun k _ => rfl, fun k => rfl, ?_, ?_, ?_⟩
  · intro s
    simp [lookupKey, List.find?]
  · simp [dedupeSpecPairs]
  · intro k hk
    simp at hk

theorem applyDedupe_dinv (arena : Arena) (refsMap : List (Str × Nat))
    (hnd : (refIterator refsMap).Nodup) :
    DInv arena (refIterator refsMap)
      ((refIterator refsMap).foldl dedupeStep (arena, [], [])) := by
  have h := dedupe_fold_dinv arena (refIterator refsMap) [] (arena, [], [])
    (by simpa using hnd) (dinv_init arena)
  simpa using h

theorem applyDedupe_changes_spec (arena : Arena) (refsMap : List (Str × Nat))
    (hnd : (refIterator refsMap).Nodup) :
    (applyDedupe arena refsMap).2 = dedupeSpecPairs arena (refIterator refsMap) :=
  (applyDedupe_dinv arena refsMap hnd).2.2.2.1

theorem applyDedupe_canonical_eligible (arena : Arena)
    (refsMap : List (Str × Nat)) (p i : Nat) (nc : Str)
    (hnd : (refIterator refsMap).Nodup)
    (hp : (refIterator refsMap)[p]? = some i)
    (hel : dedupeEligible arena i = some nc) :
    (aGet (applyDedupe arena refsMap).1 i).canonical =
      some ((dedupeSpecTarget arena (refIterator refsMap) p).getD i) := by
  have hm : i ∈ refIterator refsMap := List.getElem?_mem hp
  have hK := (applyDedupe_dinv arena refsMap hnd).2.2.2.2 i hm
  simp only [hel] at hK
  rw [← dedupeSpecTarget_full_find arena (refIterator refsMap) p i nc hp hel]
  exact hK

theorem applyDedupe_canonical_ineligible (arena : Arena)
    (refsMap : List (Str × Nat)) (i : Nat)
    (hnd : (refIterator refsMap).Nodup)
    (hm : i ∈ refIterator refsMap)
    (hel : dedupeEligible arena i = none) :
    (aGet (applyDedupe arena refsMap).1 i).canonical = (aGet arena i).canonical := by
  have hK := (applyDedupe_dinv arena refsMap hnd).2.2.2.2 i hm
  simp only [hel] at hK
  exact hK

/-! ## Claim theorems -/

/-- C9: every template match reported by the brace-depth scanner lies inside
the input (the scan never escapes the string and skips past an unterminated
`{{`), and on concrete malformed inputs — an unterminated output-list
template with an unmatched `<ref>`, and an unterminated `{{r` — the whole
transform returns the input text unchanged instead of failing.  Totality
itself holds by construction: every embedded function is total. -/
theorem totality_on_malformed_input :
    (∀ (source : Str) (names : List Str) (m : TemplateMatch),
      m ∈ findTemplates source names →
      m.start ≤ m.stop ∧ m.stop ≤ source.length) ∧
    (transformWikitext ("a\x7b\x7breflist|b<ref name=\x22c\x22>unmatched".toList)
      {}).wikitext = "a\x7b\x7breflist|b<ref name=\x22c\x22>unmatched".toList ∧
    (transformWikitext ("\x7b\x7br|x".toList) {}).wikitext = "\x7b\x7br|x".toList ∧
    findTemplates ("a\x7b\x7breflist|b".toList) DEFAULT_REFLIST_TEMPLATES = [] := by
  refine ⟨findTemplates_bounds, ?_, ?_, ?_⟩
  · decide
  · decide
  · decide

/-- Witness for C9's bounds statement at a concrete well-formed match. -/
theorem totality_on_malformed_input_witness :
    (⟨0, 11, "reflist".toList, "\x7b\x7breflist\x7d\x7d".toList, []⟩ :
      TemplateMatch).start ≤
      (⟨0, 11, "reflist".toList, "\x7b\x7breflist\x7d\x7d".toList, []⟩ :
        TemplateMatch).stop ∧
    (⟨0, 11, "reflist".toList, "\x7b\x7breflist\x7d\x7d".toList, []⟩ :
      TemplateMatch).stop ≤ ("\x7b\x7breflist\x7d\x7d".toList : Str).length :=
  totality_on_malformed_input.1 ("\x7b\x7breflist\x7d\x7d".toList)
    DEFAULT_REFLIST_TEMPLATES _ (by decide)

/-- C3 (amended): a run containing a newline is returned unmodified by the
collapse pass; but on an unsupported `{{rp}}` companion the run is *not*
abandoned as a whole: the offending token and its companion are emitted
verbatim (they appear as one output part), while the chain collected from
earlier tokens of the run is flushed as a converted `{{r}}` template. -/
theorem collapse_abstention_behaviour :
    (∀ block : Str,
      block.contains '\n' = true ∨ block.contains '\r' = true →
      processBlock block = block) ∧
    (∀ (fuel : Nat) (t r : RpTok) (rest : List RpTok) (chain : List ChainItem)
        (parts : List Str),
      t.kind = RpTokKind.ref → r.kind = RpTokKind.rp →
      strTruthy (refInfo t.raw).1 = true → (parseRp r.raw).unsupported = true →
      (t.raw ++ r.raw) ∈ chainLoopAux (fuel + 1) (t :: r :: rest) chain parts) :=
  ⟨processBlock_newline, chainLoop_offender_verbatim⟩

/-- Witness for C3's amended theorem: a concrete newline-containing block is
untouched, and a concrete offending ref+rp pair appears verbatim in the
loop's output. -/
theorem collapse_abstention_behaviour_witness :
    processBlock ("<ref name=\x22a\x22 />\n<ref name=\x22b\x22 />".toList) =
      "<ref name=\x22a\x22 />\n<ref name=\x22b\x22 />".toList ∧
    ("<ref name=\x22b\x22 />".toList ++ "\x7b\x7brp|foo=bar\x7d\x7d".toList) ∈
      chainLoopAux 1
        [⟨RpTokKind.ref, "<ref name=\x22b\x22 />".toList⟩,
          ⟨RpTokKind.rp, "\x7b\x7brp|foo=bar\x7d\x7d".toList⟩] [] [] :=
  ⟨collapse_abstention_behaviour.1 _ (Or.inl (by decide)),
    collapse_abstention_behaviour.2 0 _ _ [] [] [] rfl rfl (by decide) (by decide)⟩

/-- C1 (counterexample): with no options set, a chained shorthand `{{r|foo}}`
occurrence is rewritten into `<ref name="foo" />`, so
`transformWikitext(text, {}).wikitext` is not byte-identical to the input
— the no-op law fails as stated. -/
theorem transform_defaults_rewrite_r_template :
    (transformWikitext ("\x7b\x7br|foo\x7d\x7d".toList) {}).wikitext =
      "<ref name=\x22foo\x22 />".toList ∧
    (transformWikitext ("\x7b\x7br|foo\x7d\x7d".toList) {}).wikitext ≠
      "\x7b\x7br|foo\x7d\x7d".toList := by
  constructor
  · decide
  · decide

/-- C1 (amended): under the `keep` location policy with shorthand preference
and normalization off, an occurrence whose rename/dedupe target name, group
and (for full tags) content are unchanged receives no replacement — neither
from the per-use planner nor from the list-defined-definition planner.
(Occurrences of the `{{r}}` template are excluded: they are re-rendered
unconditionally by the template pass, as the counterexample shows.) -/
theorem keep_unchanged_occurrence_emits_no_replacement :
    (∀ (opts : PlanOpts) (ref : RefRecord) (refIdx canonIdx : Nat)
        (targetName : Option Str) (targetLocation : RefLoc) (content : Option Str)
        (use : RefUseInternal) (useIdx : Nat),
      opts.locationModeKeep = true → opts.useTemplateR = false →
      opts.normalizeAll = false → targetName = use.name →
      ref.group = use.group →
      (use.kind = RefUseKind.full → use.content = some (content.getD [])) →
      planUseStep opts ref refIdx canonIdx targetName targetLocation content use
        useIdx = ([], [], [])) ∧
    (∀ (opts : PlanOpts) (ref : RefRecord) (targetName : Option Str)
        (d : RefUseInternal),
      opts.useTemplateR = false → opts.normalizeAll = false →
      targetName = d.name → jsNullish d.group ref.group = d.group →
      planLdrDefStep opts ref targetName d = ([], [])) :=
  ⟨keep_skip_use, keep_skip_ldr⟩

/-- Witness for C1's amended theorem at a concrete unchanged full-tag use
and a concrete unchanged list-defined definition. -/
theorem keep_unchanged_occurrence_emits_no_replacement_witness :
    planUseStep ⟨false, false, false, true⟩
      ⟨"::x".toList, some ("x".toList), none, "::x".toList, [], [], [], none,
        RefLoc.inline⟩
      0 0 (some ("x".toList)) RefLoc.inline (some ("C".toList))
      ⟨some ("x".toList), none, 0, 21, RefUseKind.full, some ("C".toList), none⟩ 0
      = ([], [], []) ∧
    planLdrDefStep ⟨false, false, false, true⟩
      ⟨"::x".toList, some ("x".toList), none, "::x".toList, [], [], [], none,
        RefLoc.inline⟩
      (some ("x".toList))
      ⟨some ("x".toList), none, 30, 51, RefUseKind.full, some ("C".toList), none⟩
      = ([], []) :=
  ⟨keep_unchanged_occurrence_emits_no_replacement.1 _ _ _ _ _ _ _ _ _
      rfl rfl rfl rfl rfl (fun _ => rfl),
    keep_unchanged_occurrence_emits_no_replacement.2 _ _ _ _
      rfl rfl rfl rfl⟩

/-- C10: for every input string and options value the returned `warnings`
array is empty (no code path appends a warning), and `changes.renamed` is
exactly the normalized rename-map entry list — whose entries all have a
non-empty key and a defined value different from the key — independent of
whether a reference with that name occurs in the document. -/
theorem warnings_empty_and_renamed_entries :
    (∀ (s : Str) (opts : TransformOptions),
      (transformWikitext s opts).warnings = [] ∧
      (transformWikitext s opts).changes.renamed = normalizeRenameMap opts.renameMap) ∧
    (∀ (rename : List (Str × Option (Option Str))) (p : Str × Option Str),
      p ∈ normalizeRenameMap rename →
      p.1.isEmpty = false ∧ p.2 ≠ some p.1 ∧ (p.1, some p.2) ∈ rename) := by
  constructor
  · intro s opts
    exact ⟨rfl, rfl⟩
  · exact mem_normalizeRenameMap

/-- Witness for C10 on a concrete one-entry rename map. -/
theorem warnings_empty_and_renamed_entries_witness :
    (("a".toList, (some ("b".toList) : Option Str)).1.isEmpty = false ∧
      ("a".toList, (some ("b".toList) : Option Str)).2 ≠
        some ("a".toList, (some ("b".toList) : Option Str)).1 ∧
      (("a".toList, (some ("b".toList) : Option Str)).1,
        some ("a".toList, (some ("b".toList) : Option Str)).2) ∈
        [("a".toList, some (some ("b".toList)))]) ∧
    (transformWikitext ("hello".toList) {}).warnings = [] :=
  ⟨warnings_empty_and_renamed_entries.2 [("a".toList, some (some ("b".toList)))]
      ("a".toList, some ("b".toList)) (by decide),
    (warnings_empty_and_renamed_entries.1 ("hello".toList) {}).1⟩

/-- C2 (counterexample): in `parseReferences`, two occurrences with the same
name but different groups resolve to one single record (identity is keyed by
name alone; the first occurrence's group is retained), not to two distinct
records as claimed. -/
theorem parseReferences_merges_same_name_different_groups :
    parseReferencesOccs
      [⟨some ("a".toList), some ("g1".toList), []⟩,
        ⟨some ("a".toList), some ("g2".toList), []⟩] =
      [⟨"a".toList, some ("a".toList), some ("g1".toList), [], [⟨0⟩, ⟨1⟩]⟩] := by
  decide

/-- C3 (counterexample): a run `<ref name="a" /><ref name="b" />{{rp|foo=bar}}`
whose second token carries an unsupported `{{rp}}` parameter is *partially*
converted — the first token is collapsed into `{{r|a}}` while only the
offending token and its companion are kept verbatim — so the whole run is
not abandoned as claimed. -/
theorem collapse_converts_run_prefix_despite_unsupported_rp :
    collapseRefsAndRp
      ("<ref name=\x22a\x22 /><ref name=\x22b\x22 />\x7b\x7brp|foo=bar\x7d\x7d".toList)
      true =
      "\x7b\x7br|a\x7d\x7d <ref name=\x22b\x22 />\x7b\x7brp|foo=bar\x7d\x7d".toList ∧
    collapseRefsAndRp
      ("<ref name=\x22a\x22 /><ref name=\x22b\x22 />\x7b\x7brp|foo=bar\x7d\x7d".toList)
      true ≠
      "<ref name=\x22a\x22 /><ref name=\x22b\x22 />\x7b\x7brp|foo=bar\x7d\x7d".toList := by
  constructor
  · decide
  · decide

/-- C5 (counterexample): under the `keep` policy a nameless record that has a
list-defined definition is assigned `ldr`, not `inline` — the claim's
"unnamed references are always assigned inline under every policy" fails
for `keep`. -/
theorem assignLocations_keep_unnamed_ldr :
    (aGet
      (assignLocations
        [⟨"__nameless_0".toList, none, none, "__nameless_0".toList, [], [],
          [⟨none, none, 5, 10, RefUseKind.full, some ("X".toList), none⟩], none,
          RefLoc.inline⟩]
        [("__nameless_0".toList, 0)] LocationMode.keep)
      0).targetLocation = RefLoc.ldr ∧
    (RefLoc.ldr ≠ RefLoc.inline) := by
  constructor
  · decide
  · decide

/-- C6 (counterexample): on two replacements with the identical span, the
de-duplication keeps the *earlier-listed* one (stable descending sort, first
span occurrence wins), not the later-listed one as claimed. -/
theorem collapseReplacements_earlier_listed_wins :
    collapseReplacements [⟨0, 1, "A".toList⟩, ⟨0, 1, "B".toList⟩] =
      [⟨0, 1, "A".toList⟩] ∧
    collapseReplacements [⟨0, 1, "A".toList⟩, ⟨0, 1, "B".toList⟩] ≠
      [⟨0, 1, "B".toList⟩] := by
  constructor
  · decide
  · decide

/-- C7 (counterexample): in `{{r|a|b|p=5}}` the un-suffixed `p` annotation is
bound to logical index 1, not to the most recently seen name `b` (logical
index 2) as claimed. -/
theorem parseRTemplateEntries_unsuffixed_p_binds_index_one :
    (parseRTemplateEntries ("|a|b|p=5".toList)).map
        (fun e => (e.kind, e.index, e.value)) =
      [(RKind.name, 1, "a".toList), (RKind.name, 2, "b".toList),
        (RKind.page, 1, "5".toList)] := by
  decide

/-- C7 (amended): a key with a numeric suffix binds the parameter to that
1-based logical index (for name keys additionally recording it as the last
name index); an un-suffixed `p`/`pp`/`loc` annotation always binds to
logical index 1 regardless of the counters; an un-suffixed `g` (group) key
binds to index 1 the first time, and to the most recently seen name's index
once a group at index 1 exists and the last name index exceeds 1. -/
theorem shorthand_parameter_binding :
    (∀ st : RState, classifyRKey st ("p2".toList) = (RKind.page, 2, st)) ∧
    (∀ st : RState, classifyRKey st ("pp3".toList) = (RKind.pages, 3, st)) ∧
    (∀ st : RState, classifyRKey st ("loc2".toList) = (RKind.atLoc, 2, st)) ∧
    (∀ st : RState, classifyRKey st ("name3".toList) =
      (RKind.name, 3, { st with lastNameIndex := 3 })) ∧
    (∀ st : RState, classifyRKey st ("p".toList) = (RKind.page, 1, st)) ∧
    (∀ st : RState, classifyRKey st ("pp".toList) = (RKind.pages, 1, st)) ∧
    (∀ st : RState, classifyRKey st ("loc".toList) = (RKind.atLoc, 1, st)) ∧
    (∀ st : RState, st.hasGroupIndex1 = false →
      classifyRKey st ("g".toList) = (RKind.group, 1, { st with hasGroupIndex1 := true })) ∧
    (∀ st : RState, st.hasGroupIndex1 = true → st.lastNameIndex > 1 →
      classifyRKey st ("g".toList) = (RKind.group, st.lastNameIndex, st)) := by
  refine ⟨fun st => rfl, fun st => rfl, fun st => rfl, fun st => rfl,
    fun st => rfl, fun st => rfl, fun st => rfl, ?_, ?_⟩
  · intro st h
    obtain ⟨nc, lni, hg⟩ := st
    simp at h
    subst h
    simp [classifyRKey, matchKeyOpt, stripPrefixCI, testPrefsDigits, testPrefDigits,
      allDigits, eqCI, lcChar, isAsciiDigit]
  · intro st h1 h2
    obtain ⟨nc, lni, hg⟩ := st
    simp at h1 h2
    subst h1
    simp [classifyRKey, matchKeyOpt, stripPrefixCI, testPrefsDigits, testPrefDigits,
      allDigits, eqCI, lcChar, isAsciiDigit, h2, Nat.ne_of_gt h2]

/-- Witness for C7's amended theorem at concrete counter states. -/
theorem shorthand_parameter_binding_witness :
    classifyRKey ⟨0, 0, false⟩ ("p2".toList) = (RKind.page, 2, ⟨0, 0, false⟩) ∧
    classifyRKey ⟨7, 0, false⟩ ("g".toList) =
      (RKind.group, 1, ⟨7, 0, true⟩) ∧
    classifyRKey ⟨5, 2, true⟩ ("g".toList) = (RKind.group, 2, ⟨5, 2, true⟩) :=
  ⟨shorthand_parameter_binding.1 ⟨0, 0, false⟩,
    shorthand_parameter_binding.2.2.2.2.2.2.2.1 ⟨7, 0, false⟩ rfl,
    shorthand_parameter_binding.2.2.2.2.2.2.2.2 ⟨5, 2, true⟩ rfl (by decide)⟩



/-- C5: threshold assigns by aggregated use count for
named canonicals; non-keep modes force unnamed canonicals inline; keep assigns
ldr exactly when the record has a list-defined definition, named or not. -/
theorem location_assignment_policy :
    (∀ (arena : Arena) (refsMap : List (Str × Nat)) (n i : Nat),
      i ∈ refIterator refsMap →
      strTruthy (aGet arena ((aGet arena i).canonical.getD i)).name = true →
      (aGet (assignLocations arena refsMap (LocationMode.threshold n))
          ((aGet arena i).canonical.getD i)).targetLocation =
        (if (aggregateUses arena refsMap ((aGet arena i).canonical.getD i)).length ≥ n
         then RefLoc.ldr else RefLoc.inline)) ∧
    (∀ (arena : Arena) (refsMap : List (Str × Nat)) (mode : LocationMode) (i : Nat),
      mode ≠ LocationMode.keep →
      i ∈ refIterator refsMap →
      strTruthy (aGet arena ((aGet arena i).canonical.getD i)).name = false →
      (aGet (assignLocations arena refsMap mode)
          ((aGet arena i).canonical.getD i)).targetLocation = RefLoc.inline) ∧
    (∀ (arena : Arena) (refsMap : List (Str × Nat)) (i : Nat),
      i ∈ refIterator refsMap →
      (aGet (assignLocations arena refsMap LocationMode.keep)
          ((aGet arena i).canonical.getD i)).targetLocation =
        (if (aGet arena ((aGet arena i).canonical.getD i)).ldrDefinitions.length > 0
         then RefLoc.ldr else RefLoc.inline)) := by
  refine ⟨?_, ?_, ?_⟩
  · intro arena refsMap n i hi hname
    rw [assignLocations_spec arena refsMap (LocationMode.threshold n) i hi]
    simp [locationSpec, hname]
  · intro arena refsMap mode i hm hi hname
    rw [assignLocations_spec arena refsMap mode i hi]
    cases mode with
    | keep => exact absurd rfl hm
    | all_inline => simp [locationSpec]
    | all_ldr => simp [locationSpec, hname]
    | threshold n => simp [locationSpec, hname]
  · intro arena refsMap i hi
    rw [assignLocations_spec arena refsMap LocationMode.keep i hi]
    rfl

theorem location_assignment_policy_witness :
    (aGet (assignLocations [w5rec] [("::x".toList, 0)] (LocationMode.threshold 1))
        0).targetLocation = RefLoc.ldr := by
  have h := location_assignment_policy.1 [w5rec] [("::x".toList, 0)] 1 0
    (by decide) (by decide)
  rw [show ((aGet [w5rec] 0).canonical.getD 0) = 0 from rfl] at h
  rw [h]
  decide

/-- **C8.** First definition wins: every reference returned by
`parseReferences` carries, as `contentWikitext`, the first non-empty content
handed in under its identity key in scan order; and once a record has a
definition with real content, appending further definitions never changes
`firstContent` (the transform engine's canonical content). -/
theorem first_definition_wins_content :
    (∀ (occs : List ParsedOcc) (ref : Reference), ref ∈ parseReferencesOccs occs →
      ref.contentWikitext = contentSpec (keyContents occs ref.id)) ∧
    (∀ (ref : RefRecord) (ds : List RefUseInternal),
      (ref.definitions.find? hasRealContent).isSome = true →
      firstContent { ref with definitions := ref.definitions ++ ds } =
        firstContent ref) := by
  constructor
  · exact parseReferencesOccs_content
  · intro ref ds hfind
    rcases Option.isSome_iff_exists.mp hfind with ⟨d, hd⟩
    have happ : (ref.definitions ++ ds).find? hasRealContent = some d := by
      rw [List.find?_append, hd]
      rfl
    simp only [firstContent, happ, hd]

theorem first_definition_wins_content_witness :
    w8ref.contentWikitext = contentSpec (keyContents w8occs w8ref.id) ∧
    firstContent { w8recD with definitions := w8recD.definitions ++ [w8d2] } =
      firstContent w8recD := by
  constructor
  · exact first_definition_wins_content.1 w8occs w8ref (by decide)
  · exact first_definition_wins_content.2 w8recD [w8d2] (by decide)

/-- **C2.** Identity resolution, corrected: in `parseReferences` an
occurrence's identity is its name alone when named — the group plays no
role, so equal names with different groups merge — and a fresh
`__nameless_` key otherwise, with distinct counters giving distinct keys.
In the transform engine a truthy name keys by `refKey(group, name)`, so a
repeated (name, group) pair resolves to the same arena index while equal
names with different groups stay distinct; and `applyDedupe` never touches
an unnamed record. -/
theorem reference_identity_resolution :
    (∀ occs : List ParsedOcc, parseReferencesTrace occs = traceSpec occs 0) ∧
    (∀ m n : Nat, namelessKey m = namelessKey n → m = n) ∧
    (∀ (st : BuildSt) (name group : Option Str), strTruthy name = true →
      lookupKey (getRefStep st name group).2.refsMap (refKey name group) =
        some (getRefStep st name group).1) ∧
    (∀ (st : BuildSt) (name group : Option Str) (i : Nat), strTruthy name = true →
      lookupKey st.refsMap (refKey name group) = some i →
      getRefStep st name group = (i, st)) ∧
    (∀ (n g1 g2 : Option Str), refKey n g1 = refKey n g2 →
      g1.getD [] = g2.getD []) ∧
    (∀ (arena : Arena) (refsMap : List (Str × Nat)) (i : Nat),
      strTruthy (aGet arena i).name = false →
      aGet (applyDedupe arena refsMap).1 i = aGet arena i) :=
  ⟨parseReferencesTrace_eq, namelessKey_inj, getRefStep_lookup, getRefStep_found,
    refKey_group_cancel, applyDedupe_unnamed_untouched⟩

theorem reference_identity_resolution_witness :
    (7 : Nat) = 7 ∧
    lookupKey (getRefStep ⟨[], [], 0⟩ (some "x".toList) (some "g".toList)).2.refsMap
        (refKey (some "x".toList) (some "g".toList)) =
      some (getRefStep ⟨[], [], 0⟩ (some "x".toList) (some "g".toList)).1 ∧
    getRefStep w2st (some "x".toList) (some "g".toList) = (0, w2st) ∧
    (some "g".toList : Option Str).getD [] = (some "g".toList : Option Str).getD [] ∧
    aGet (applyDedupe [w2rec] [("__nameless_0".toList, 0)]).1 0 = aGet [w2rec] 0 := by
  refine ⟨?_, ?_, ?_, ?_, ?_⟩
  · exact reference_identity_resolution.2.1 7 7 rfl
  · exact reference_identity_resolution.2.2.1 ⟨[], [], 0⟩ (some "x".toList)
      (some "g".toList) (by decide)
  · exact reference_identity_resolution.2.2.2.1 w2st (some "x".toList)
      (some "g".toList) 0 (by decide) (by decide)
  · exact reference_identity_resolution.2.2.2.2.1 (some "x".toList)
      (some "g".toList) (some "g".toList) rfl
  · exact reference_identity_resolution.2.2.2.2.2 [w2rec] [("__nameless_0".toList, 0)]
      0 (by decide)

/-- **C4.** Dedupe merge correctness: with a duplicate-free iteration order,
`applyDedupe` reports exactly the spec's `{from, to}` pairs — one per
eligible record that has an earlier eligible record with the same
whitespace-normalized first content, from its name to the first such
predecessor's — sets each such record's canonical pointer to that first
predecessor (an eligible record without one points at itself), leaves
ineligible records' canonical pointers alone; and in the concrete two-
duplicate document the losing name disappears from the transformed
output. -/
theorem dedupe_merge_correctness :
    (∀ (arena : Arena) (refsMap : List (Str × Nat)),
      (refIterator refsMap).Nodup →
      (applyDedupe arena refsMap).2 = dedupeSpecPairs arena (refIterator refsMap)) ∧
    (∀ (arena : Arena) (refsMap : List (Str × Nat)) (p i : Nat) (nc : Str),
      (refIterator refsMap).Nodup →
      (refIterator refsMap)[p]? = some i →
      dedupeEligible arena i = some nc →
      (aGet (applyDedupe arena refsMap).1 i).canonical =
        some ((dedupeSpecTarget arena (refIterator refsMap) p).getD i)) ∧
    (∀ (arena : Arena) (refsMap : List (Str × Nat)) (i : Nat),
      (refIterator refsMap).Nodup →
      i ∈ refIterator refsMap →
      dedupeEligible arena i = none →
      (aGet (applyDedupe arena refsMap).1 i).canonical =
        (aGet arena i).canonical) ∧
    ((transformWikitext "<ref name=\"x\">S</ref> a <ref name=\"y\">S</ref>".toList
        { dedupe := some true }).wikitext =
      "<ref name=\"x\">S</ref> a <ref name=\"x\" />".toList ∧
     (transformWikitext "<ref name=\"x\">S</ref> a <ref name=\"y\">S</ref>".toList
        { dedupe := some true }).changes.deduped = [("y".toList, "x".toList)] ∧
     containsSub
       (transformWikitext "<ref name=\"x\">S</ref> a <ref name=\"y\">S</ref>".toList
         { dedupe := some true }).wikitext "\"y\"".toList = false) := by
  refine ⟨applyDedupe_changes_spec, applyDedupe_canonical_eligible,
    applyDedupe_canonical_ineligible, ?_, ?_, ?_⟩ <;> decide

theorem dedupe_merge_correctness_witness :
    (applyDedupe w4arena w4map).2 = dedupeSpecPairs w4arena (refIterator w4map) ∧
    (aGet (applyDedupe w4arena w4map).1 1).canonical =
      some ((dedupeSpecTarget w4arena (refIterator w4map) 1).getD 1) ∧
    (aGet (applyDedupe w4arena w4map).1 2).canonical = (aGet w4arena 2).canonical := by
  refine ⟨?_, ?_, ?_⟩
  · exact dedupe_merge_correctness.1 w4arena w4map (by decide)
  · exact dedupe_merge_correctness.2.1 w4arena w4map 1 1 "S".toList
      (by decide) (by decide) (by decide)
  · exact dedupe_merge_correctness.2.2.1 w4arena w4map 2
      (by decide) (by decide) (by decide)

end CiteHub
